import Mathlib

/-!
# BM25 scoring (go-nlp/bm25): a shallow embedding of `bm25.go`

The Go function `BM25` is embedded with explicit state passing for the working
slice `w`, which the source reuses and resets across loop iterations.

## Numbers

The specification computes in floating point, and so does the code.  The file
carries two readings of `float64`.

* `IEEE.B64` is IEEE-754 binary64 itself: 53-bit significands, rounding to
  nearest with ties to even, subnormal values, the two zeros, overflow to the
  infinities, `NaN`.  `IEEE.BM25` is the function of `bm25.go` over these
  values, and a statement about the magnitude or the order of scores is a
  statement about the code only when it is made there.  Every operation of
  the source is rounded on its own, as the Go compiler does on amd64; on an
  architecture where it fuses `x + y * z` into one operation (the language
  allows it), `tf.TF[id] + k1*(...)` is rounded once instead of twice.
* `F64` is the exact reading: a rational number, or one of `+Inf`, `-Inf`,
  `NaN`.  Finite arithmetic is exact (no rounding, no underflow, no overflow);
  the special values arise on a division by zero and on the operations that
  consume its result, and the two zeros are identified.  `BM25` is the same
  function over these values.  It serves the statements that do not depend on
  rounding (which identifiers are summed, which length is used, the length and
  the IDs of the result, the reset of the working slice) and the statements
  that are made, in so many words, over exact arithmetic.

Both functions read a document through the same operations on identifiers, so
the loop structure is shared; they differ in the arithmetic only.

Go `int` values (term identifiers, `Docs`, `Len`, document indices) are `Int`;
no arithmetic is performed on them except the conversion to `float64`.
-/

namespace Bm25

/-! ## float64 -/

/-- A `float64` value in the exact reading: a rational number or an IEEE-754
special value.  The rounded values are `IEEE.B64`. -/
inductive F64 where
  | fin (q : ℚ)
  | pinf
  | ninf
  | nan
  deriving DecidableEq

namespace F64

/-- Addition in the exact reading: the sum of finite operands is not rounded;
the special values follow IEEE-754.  The rounded operation is `IEEE.B64.add`. -/
def add : F64 → F64 → F64
  | fin x, fin y => fin (x + y)
  | nan, _ => nan
  | _, nan => nan
  | pinf, ninf => nan
  | ninf, pinf => nan
  | pinf, _ => pinf
  | _, pinf => pinf
  | ninf, _ => ninf
  | _, ninf => ninf

/-- IEEE-754 negation. -/
def neg : F64 → F64
  | fin x => fin (-x)
  | pinf => ninf
  | ninf => pinf
  | nan => nan

/-- Subtraction in the exact reading, not rounded. -/
def sub (x y : F64) : F64 := add x (neg y)

/-- The infinity whose sign is that of the product of an infinity of sign
`s` (true for `+Inf`) with the finite factor `x`; `Inf * 0` is `NaN`. -/
def infTimes (s : Bool) (x : ℚ) : F64 :=
  if x = 0 then nan else if (0 < x) = s then pinf else ninf

/-- Multiplication in the exact reading: the product of finite operands is not
rounded and neither underflows nor overflows; the special values follow
IEEE-754.  The rounded operation is `IEEE.B64.mul`. -/
def mul : F64 → F64 → F64
  | fin x, fin y => fin (x * y)
  | nan, _ => nan
  | _, nan => nan
  | fin x, pinf => infTimes true x
  | fin x, ninf => infTimes false x
  | pinf, fin y => infTimes true y
  | ninf, fin y => infTimes false y
  | pinf, pinf => pinf
  | ninf, ninf => pinf
  | pinf, ninf => ninf
  | ninf, pinf => ninf

/-- Division in the exact reading: the quotient of finite operands with a
nonzero divisor is not rounded.  A finite nonzero value divided by zero is an
infinity, `0 / 0` is `NaN`, a finite value divided by an infinity is `0`.
Division never traps.  The rounded operation is `IEEE.B64.div`. -/
def div : F64 → F64 → F64
  | fin x, fin y =>
    if y = 0 then (if x = 0 then nan else if 0 < x then pinf else ninf)
    else fin (x / y)
  | nan, _ => nan
  | _, nan => nan
  | fin _, pinf => fin 0
  | fin _, ninf => fin 0
  | pinf, fin y => if 0 ≤ y then pinf else ninf
  | ninf, fin y => if 0 ≤ y then ninf else pinf
  | pinf, pinf => nan
  | pinf, ninf => nan
  | ninf, pinf => nan
  | ninf, ninf => nan

/-- The Go comparison `x < y` on `float64`: false whenever an operand is `NaN`. -/
def lt : F64 → F64 → Bool
  | fin x, fin y => decide (x < y)
  | nan, _ => false
  | _, nan => false
  | ninf, ninf => false
  | ninf, _ => true
  | _, ninf => false
  | pinf, _ => false
  | _, pinf => true

/-- The Go comparison `x <= y` on `float64`: false whenever an operand is `NaN`. -/
def le : F64 → F64 → Bool
  | fin x, fin y => decide (x ≤ y)
  | nan, _ => false
  | _, nan => false
  | ninf, _ => true
  | _, pinf => true
  | pinf, _ => false
  | _, ninf => false

/-- The conversion `float64(n)` of a Go `int`, not rounded. -/
def ofInt (n : Int) : F64 := fin n

instance : Add F64 := ⟨add⟩
instance : Zero F64 := ⟨fin 0⟩
instance : Sub F64 := ⟨sub⟩
instance : Mul F64 := ⟨mul⟩
instance : Div F64 := ⟨div⟩
instance : One F64 := ⟨fin 1⟩

/-- Addition of `float64` values is commutative and associative with neutral
element `0` once rounding is left out, so that sums over finite sets of terms
are defined. -/
instance : AddCommMonoid F64 where
  add_assoc := fun x y z => by
    show add (add x y) z = add x (add y z)
    cases x <;> cases y <;> cases z <;> simp [add, add_assoc]
  zero_add := fun x => by
    show add (fin 0) x = x
    cases x <;> simp [add]
  add_zero := fun x => by
    show add x (fin 0) = x
    cases x <;> simp [add]
  add_comm := fun x y => by
    show add x y = add y x
    cases x <;> cases y <;> simp [add, add_comm]
  nsmul := nsmulRec

end F64

/-! ## Data model -/

/-- The term identifiers `doc.IDs()` of a `tfidf.Document`. -/
abbrev Document := List Int

/-- A Go `map[int]float64`: a partial function from keys to values. -/
abbrev FloatMap := Int → Option F64

/-- The Go map index expression `m[k]`: the zero value when `k` is not a key. -/
def FloatMap.get (m : FloatMap) (k : Int) : F64 := (m k).getD 0

/-- Modelled from the spec: the corpus statistics `tfidf.TFIDF` (package
github.com/go-nlp/tfidf, whose declaration is not part of the repository): the
per-term frequency weights `TF`, the per-term weights `IDF`, the document count
`Docs` and the total corpus length `Len`. -/
structure TFIDF where
  TF : FloatMap
  IDF : FloatMap
  Docs : Int
  Len : Int

/-- A `DocScore` is a tuple of the document ID and a score. -/
structure DocScore where
  ID : Int
  Score : F64
  deriving DecidableEq

/-- A `DocScores` is a list of `DocScore`. -/
abbrev DocScores := List DocScore

/-! ## Library operations used by `BM25` -/

/-- The library routine `set.Uniq` on sorted data: one representative of every
run of equal neighbours is kept. -/
def Uniq : List Int → List Int
  | [] => []
  | [a] => [a]
  | a :: b :: t => if a = b then Uniq (b :: t) else a :: Uniq (b :: t)

/-- Modelled from the spec: `tfidf.BOW` (package github.com/go-nlp/tfidf, not
part of the repository): the distinct term identifiers of a document.  The
library copies `doc.IDs()`, sorts the copy in ascending order (`sort.Ints`) and
removes the duplicates (`set.Uniq`). -/
def BOW (doc : Document) : List Int := Uniq (doc.insertionSort (· ≤ ·))

/-- Modelled from the spec: `set.Inter(data, pivot)` (package
github.com/xtgo/set, not part of the repository): the in-place intersection of
the two sorted sets `data[0:pivot]` and `data[pivot:Len)`.  The library
rearranges `data` so that the intersection occupies `data[0:size]`, in ascending
order, and returns `size`.  The result is the rearranged slice together with
`size`; the order in which the library leaves the elements of `data[size:]` is
not part of its contract, the model keeps them in their former order. -/
def Inter (data : List Int) (pivot : Nat) : List Int × Nat :=
  let l := data.take pivot
  let r := data.drop pivot
  let common := l.filter (fun x => decide (x ∈ r))
  (common ++ l.filter (fun x => !decide (x ∈ r)) ++ r, common.length)

/-- The Go builtin `copy(dst, src)`: the first `min(len(dst), len(src))`
elements of `dst` are overwritten by those of `src`. -/
def copy (dst src : List Int) : List Int :=
  src.take dst.length ++ dst.drop src.length

/-! ## `bm25.go` -/

/-- `func sum(a []float64) float64`: the left-to-right sum, starting from 0, in
the exact reading. -/
def sum (a : List F64) : F64 := a.foldl (fun retVal f => retVal + f) 0

/-- The body of the inner loop of `BM25` for the term `id`: the value appended
to `score`, in the exact reading. -/
def term (tf : TFIDF) (k1 b docLen avgLen : F64) (id : Int) : F64 :=
  let num := tf.TF.get id * (k1 + 1)
  let denom := tf.TF.get id + k1 * (1 - b + b * docLen / avgLen)
  let idf := tf.IDF.get id
  idf * num / denom

/-- One iteration of the outer loop of `BM25` on the document `doc`, from the
working slice `w` and the scores collected so far. -/
def step (tf : TFIDF) (k1 b : F64) (q : List Int) (avgLen : F64)
    (st : List Int × List F64) (doc : Document) : List Int × List F64 :=
  let d := BOW doc
  let w := st.1 ++ d
  let r := Inter w q.length
  let w := r.1
  let size := r.2
  let n := w.take size
  let docLen := F64.ofInt d.length
  let score := n.foldl (fun score id => score ++ [term tf k1 b docLen avgLen id]) []
  let scores := st.2 ++ [sum score]
  -- reset working vector
  let w := copy w q
  let w := w.take q.length
  (w, scores)

/-- The scores slice `scores` after the outer loop of `BM25`. -/
def scoresOf (tf : TFIDF) (query : Document) (docs : List Document) (k1 b : F64) :
    List F64 :=
  let q := BOW query
  let w := copy (List.replicate q.length 0) q
  let avgLen := F64.ofInt tf.Len / F64.ofInt tf.Docs
  (docs.foldl (step tf k1 b q avgLen) (w, [])).2

/-- The final loop of `BM25`: `retVal = append(retVal, DocScore{i, scores[i]})`
for `i` in `range docs`.  The index expression `scores[i]` panics when `i` is
out of range; a panic is the result `none`. -/
def collect (scores : List F64) : List Nat → DocScores → Option DocScores
  | [], retVal => some retVal
  | i :: is, retVal =>
    match scores.get? i with
    | none => none
    | some s => collect scores is (retVal ++ [⟨(i : Int), s⟩])

/-- `func BM25(tf *tfidf.TFIDF, query tfidf.Document, docs []tfidf.Document,
k1, b float64) DocScores`.  The result is `none` when the call panics. -/
def BM25 (tf : TFIDF) (query : Document) (docs : List Document) (k1 b : F64) :
    Option DocScores :=
  collect (scoresOf tf query docs k1 b) (List.range docs.length) []

/-- `func (ds DocScores) Len() int { return len(ds) }`. -/
def Len (ds : DocScores) : Nat := ds.length

/-- `func (ds DocScores) Less(i, j int) bool { return ds[i].Score < ds[j].Score }`.
The result is `none` when an index is out of range (the call panics).  Indices
are natural numbers: a negative Go index is out of range like one that is too
large. -/
def Less (ds : DocScores) (i j : Nat) : Option Bool :=
  match ds.get? i, ds.get? j with
  | some a, some b => some (F64.lt a.Score b.Score)
  | _, _ => none

/-- The assignment `ds[i].Score = s`. -/
def setScore (ds : DocScores) (i : Nat) (s : F64) : DocScores :=
  match ds.get? i with
  | some e => ds.set i { ID := e.ID, Score := s }
  | none => ds

/-- The assignment `ds[i].ID = id`. -/
def setID (ds : DocScores) (i : Nat) (id : Int) : DocScores :=
  match ds.get? i with
  | some e => ds.set i { ID := id, Score := e.Score }
  | none => ds

/-- `func (ds DocScores) Swap(i, j int)`: the two tuple assignments
`ds[i].Score, ds[j].Score = ds[j].Score, ds[i].Score` and
`ds[i].ID, ds[j].ID = ds[j].ID, ds[i].ID`, each of which reads its right-hand
side before it writes, left to right.  The result is the slice after the call,
`none` when an index is out of range (the call panics). -/
def Swap (ds : DocScores) (i j : Nat) : Option DocScores :=
  match ds.get? i, ds.get? j with
  | some a, some b =>
    let ds := setScore (setScore ds i b.Score) j a.Score
    match ds.get? i, ds.get? j with
    | some a, some b => some (setID (setID ds i b.ID) j a.ID)
    | _, _ => none
  | _, _ => none

/-- A sequence of calls of `Swap`, as a sorting routine issues them. -/
def Swaps (ds : DocScores) : List (Nat × Nat) → Option DocScores
  | [] => some ds
  | p :: rest => (Swap ds p.1 p.2).bind (fun ds1 => Swaps ds1 rest)

/-! ## Closed forms used in the statements -/

/-- The identifiers the inner loop of `BM25` ranges over for the document `doc`:
the slice `n`, that is the members of the query bag that occur in the document
bag, in ascending order. -/
def common (query doc : Document) : List Int :=
  (BOW query).filter (fun x => decide (x ∈ BOW doc))

/-- The value `sum(score)` the outer loop of `BM25` appends for `doc`. -/
def scoreOf (tf : TFIDF) (query : Document) (k1 b : F64) (doc : Document) : F64 :=
  sum ((common query doc).map
    (term tf k1 b (F64.ofInt (BOW doc).length) (F64.ofInt tf.Len / F64.ofInt tf.Docs)))

/-- The formula of the specification for the contribution of the term `t` to a
document of length `documentLength`:
`idf * tf * (k1 + 1) / (tf + k1 * (1 - b + b * documentLength / averageLength))`
with `averageLength = Len / Docs`. -/
def contribution (tf : TFIDF) (k1 b documentLength : F64) (t : Int) : F64 :=
  let averageLength := F64.ofInt tf.Len / F64.ofInt tf.Docs
  let numerator := tf.TF.get t * (k1 + 1)
  let denominator := tf.TF.get t + k1 * (1 - b + b * documentLength / averageLength)
  tf.IDF.get t * numerator / denominator

/-- The score of the specification for a document of length `documentLength`:
the sum of the contributions over the term identifiers that occur in both the
query and the document, each counted once. -/
def specScore (tf : TFIDF) (query : Document) (k1 b documentLength : F64)
    (doc : Document) : F64 :=
  ∑ t ∈ query.toFinset ∩ doc.toFinset, contribution tf k1 b documentLength t

/-- The real number a finite `float64` value stands for (0 for the special
values, which the statements exclude by hypothesis). -/
def F64.toRat : F64 → ℚ
  | F64.fin q => q
  | _ => 0

/-- The formula of the specification over the real numbers, for a document of
`D` distinct identifiers:
`IDF[t] * TF[t] * (k1 + 1) / (TF[t] + k1 * (1 - b + b * D / (Len / Docs)))`. -/
def realContribution (tf : TFIDF) (k1 b D : ℚ) (t : Int) : ℚ :=
  (tf.IDF.get t).toRat * (tf.TF.get t).toRat * (k1 + 1) /
    ((tf.TF.get t).toRat + k1 * (1 - b + b * D / ((tf.Len : ℚ) / (tf.Docs : ℚ))))

/-- The score of the entry of index `i` of the result of a call, when the call
returns a result that has such an entry. -/
def scoreAt (res : Option DocScores) (i : Nat) : Option F64 :=
  res.bind (fun r => (r.get? i).map DocScore.Score)

/-- The per-document scorer: the score of the single entry of the call of
`BM25` on the one-document list `[doc]`. -/
def scoreAlone (tf : TFIDF) (query : Document) (k1 b : F64) (doc : Document) : Option F64 :=
  scoreAt (BM25 tf query [doc] k1 b) 0

/-- The count of term occurrences of a document, repeats included. -/
def occurrences (doc : Document) : F64 := F64.ofInt doc.length

/-- The number of distinct term identifiers of a document. -/
def distinct (doc : Document) : F64 := F64.ofInt doc.toFinset.card

/-- The formula for `b = 0`, in which the document length does not occur:
`idf * tf * (k1 + 1) / (tf + k1)`. -/
def contributionNoLength (tf : TFIDF) (k1 : F64) (t : Int) : F64 :=
  let numerator := tf.TF.get t * (k1 + 1)
  let denominator := tf.TF.get t + k1
  tf.IDF.get t * numerator / denominator

/-! ## Concrete inputs -/

/-- Statistics of a one-document corpus: the term 1 has frequency weight 1 and
inverse document frequency 2, the corpus length is 2. -/
def stats1 : TFIDF :=
  { TF := fun t => if t = 1 then some (F64.fin 1) else none
    IDF := fun t => if t = 1 then some (F64.fin 2) else none
    Docs := 1
    Len := 2 }

/-- The eleven sentences `mobydick` of `bm25_test.go` after `makeCorpus` and
`makeDocuments`: every lower-cased field is replaced by its identifier, the
identifiers being given in the order of first occurrence ("call" is 0, "me" is
1, "ishmael" is 2, "." is 3, and so on up to 137; "whenever" is 50). -/
def mobydick : List Document :=
  [ [0, 1, 2, 3],
    [4, 5, 6, 7, 8, 9, 10, 11, 12, 7, 13, 14, 15, 16, 17, 18, 19, 20, 21, 22, 23, 24, 25, 26, 1,
     27, 28, 21, 29, 30, 29, 31, 32, 33, 34, 14, 22, 35, 36, 37, 38, 39, 36, 40, 3],
    [41, 42, 34, 43, 29, 44, 39, 45, 46, 36, 47, 22, 48, 36, 49, 3],
    [50, 29, 51, 52, 53, 54, 33, 36, 55, 56],
    [50, 41, 42, 34, 57, 21, 58, 59, 18, 19, 60, 56],
    [50, 29, 51, 52, 61, 62, 63, 64, 65, 21, 22, 66, 67, 36, 68, 39, 69, 70, 29, 71, 56],
    [22, 72, 50, 19, 73, 74, 75, 76, 77, 78, 39, 1, 21, 79, 41, 80, 34, 81, 82, 83, 25, 84, 1,
     85, 86, 87, 88, 36, 89, 21, 22, 90, 91, 92, 93, 46, 7, 94, 21, 29, 95, 41, 96, 97, 25, 74,
     25, 98, 99, 100, 99, 29, 101, 3],
    [102, 42, 19, 103, 104, 105, 22, 106, 3],
    [107, 34, 108, 109, 110, 111, 112, 113, 114, 115, 56],
    [29, 116, 117, 25, 36, 118, 3, 119, 42, 23, 120, 18, 102, 3],
    [121, 122, 123, 124, 41, 21, 125, 126, 127, 18, 128, 129, 21, 4, 97, 15, 130, 21, 131, 132,
     133, 36, 134, 135, 136, 36, 137, 107, 1, 3] ]

/-- The number of sentences of `mobydick` in which each identifier 0..137
occurs. -/
def mobydickCount : List Nat :=
  [ 1, 4, 1, 7, 2, 1, 1, 2, 1, 1, 1, 1, 1, 1, 1, 2, 1, 1, 4, 4, 1, 5, 5, 2, 1, 3, 1, 1, 1, 6,
    1, 1, 1, 2, 5, 1, 7, 1, 1, 4, 1, 4, 4, 1, 1, 1, 2, 1, 1, 1, 4, 2, 2, 1, 1, 1, 4, 1, 1, 1,
    1, 1, 1, 1, 1, 1, 1, 1, 1, 1, 1, 1, 1, 1, 1, 1, 1, 1, 1, 1, 1, 1, 1, 1, 1, 1, 1, 1, 1, 1,
    1, 1, 1, 1, 1, 1, 1, 2, 1, 1, 1, 1, 2, 1, 1, 1, 1, 2, 1, 1, 1, 1, 1, 1, 1, 1, 1, 1, 1, 1,
    1, 1, 1, 1, 1, 1, 1, 1, 1, 1, 1, 1, 1, 1, 1, 1, 1, 1 ]

/-- The counts of `mobydickCount` as rational numbers. -/
def mobydickDF : List ℚ := mobydickCount.map (fun n => (n : ℚ))

/-- A rational stand-in for the inverse document frequency `log(11 / n)` of a
term that occurs in `n` of the eleven sentences: the decimal expansion of the
logarithm cut to six places.  The logarithm is irrational; the values the test
run computes are the binary64 numbers of `IEEE.mobydickIDF`. -/
def mobydickIDF (n : ℚ) : ℚ :=
  if n = 1 then 2397895 / 1000000 else if n = 2 then 1704748 / 1000000
  else if n = 3 then 1299282 / 1000000 else if n = 4 then 1011600 / 1000000
  else if n = 5 then 788457 / 1000000 else if n = 6 then 606135 / 1000000
  else 451985 / 1000000

/-- Statistics for `mobydick` in the exact reading.  The frequency weight of a
term is the number of sentences that contain it, `Docs` is 11 and `Len` is 204,
the sum of the numbers of distinct identifiers of the sentences, as
`Example_BM25` builds them; the inverse document frequencies are the rational
stand-ins of `mobydickIDF`, not the values of the test run. -/
def mobydickStats : TFIDF :=
  { TF := fun t => if 0 ≤ t then (mobydickDF.get? t.toNat).map F64.fin else none
    IDF := fun t =>
      if 0 ≤ t then (mobydickDF.get? t.toNat).map (fun n => F64.fin (mobydickIDF n)) else none
    Docs := 11
    Len := 204 }

/-- Statistics in which the term 1 has frequency weight 0 and inverse document
frequency 1, for a corpus of one document of length 1. -/
def stats0 : TFIDF :=
  { TF := fun t => if t = 1 then some (F64.fin 0) else none
    IDF := fun t => if t = 1 then some (F64.fin 1) else none
    Docs := 1
    Len := 1 }

/-- Statistics of a corpus to which no document has been added: no term is
known, `Docs` and `Len` are 0. -/
def statsEmpty : TFIDF :=
  { TF := fun _ => none
    IDF := fun _ => none
    Docs := 0
    Len := 0 }

/-- Statistics of a corpus of one empty document: the term 1 has frequency
weight 1 and inverse document frequency 1, `Docs` is 1 and `Len` is 0. -/
def statsLenZero : TFIDF :=
  { TF := fun t => if t = 1 then some (F64.fin 1) else none
    IDF := fun t => if t = 1 then some (F64.fin 1) else none
    Docs := 1
    Len := 0 }

/-- A term identifier is known to the statistics when it is a key of `TF` or of
`IDF`. -/
def known (tf : TFIDF) (t : Int) : Bool := (tf.TF t).isSome || (tf.IDF t).isSome

/-- The statistics `tf` with the inverse document frequency of the term `t`
replaced by `y`, everything else unchanged. -/
def setIDF (tf : TFIDF) (t : Int) (y : ℚ) : TFIDF :=
  { tf with IDF := Function.update tf.IDF t (some (F64.fin y)) }

/-! ## float64 with rounding: IEEE-754 binary64

The second reading keeps the rounding of the machine.  A finite binary64 value
is `(-1)^neg * m * 2^e` with `m < 2^53` and `-1074 ≤ e ≤ 971`; it is kept in the
canonical form in which `2^52 ≤ m` unless `e = -1074` (the subnormal values and
the two zeros).  Every operation computes its exact result as an integer times
a power of two and rounds it to nearest, ties to even.  The values of the type
that are not in canonical form stand for no `float64`; the statements hold for
them as well. -/

namespace IEEE

/-- A binary64 value: finite with sign, significand and exponent, or an infinity
with its sign, or `NaN`. -/
inductive B64 where
  | fin (neg : Bool) (m : Nat) (e : Int)
  | inf (neg : Bool)
  | nan
  deriving DecidableEq

namespace B64

/-- The number of binary digits of `n`, by halving at most `fuel` times. -/
def bitLengthAux : Nat → Nat → Nat
  | 0, _ => 0
  | fuel + 1, n => if n = 0 then 0 else bitLengthAux fuel (n / 2) + 1

/-- The number of binary digits of `n` (0 for 0). -/
def bitLength (n : Nat) : Nat := bitLengthAux n n

/-- The value of sign `neg`, significand `m` and exponent `u` once rounded: an
infinity when the exponent is above 971, a zero when nothing is left. -/
def pack (neg : Bool) (m : Nat) (u : Int) : B64 :=
  if 971 < u then inf neg else if m = 0 then fin neg 0 (-1074) else fin neg m u

/-- Rounding to nearest, ties to even, of the exact value `(n + d) * 2^e` with the
sign `neg`, where `d = 0` when `sticky` is false and `0 < d < 1` when it is true
(the discarded part of a quotient).  The value is first written with at least 55
binary digits, so that the last kept digit, the half and what lies below it are
all inside `n`; `u` is the exponent of the last kept digit, at least `-1074`.
A result of `2^1024` or more is an infinity; a result that rounds to nothing is
a zero. -/
def round (neg : Bool) (n : Nat) (e : Int) (sticky : Bool) : B64 :=
  if n = 0 then fin neg 0 (-1074)
  else
    let k := 55 - bitLength n
    let n1 := n * 2 ^ k
    let e1 := e - (k : Int)
    let u := max (e1 + (bitLength n1 : Int) - 53) (-1074)
    let s := (u - e1).toNat
    let q := n1 / 2 ^ s
    let r := n1 % 2 ^ s
    let half := 2 ^ (s - 1)
    let up := decide (half < r) || (decide (r = half) && (sticky || decide (q % 2 = 1)))
    let m := if up then q + 1 else q
    let m1 := if m = 2 ^ 53 then 2 ^ 52 else m
    let u1 := if m = 2 ^ 53 then u + 1 else u
    pack neg m1 u1

/-- The value `+0`. -/
def zero : B64 := fin false 0 (-1074)

/-- The value `n * 2^e`, rounded: `lit 3 (-1)` is 1.5. -/
def lit (n : Nat) (e : Int) : B64 := round false n e false

/-- Negation: the sign is flipped. -/
def neg : B64 → B64
  | fin s m e => fin (!s) m e
  | inf s => inf (!s)
  | nan => nan

/-- The integer `± m * 2^(e1 - e)`: the finite value of sign `s`, significand `m`
and exponent `e1`, counted in units of `2^e` for an exponent `e ≤ e1`. -/
def scaled (s : Bool) (m : Nat) (e1 e : Int) : Int :=
  (if s then -1 else 1) * ((m * 2 ^ (e1 - e).toNat : Nat) : Int)

/-- Addition.  The exact sum of two finite values is an integer in units of the
smaller exponent; an exact sum 0 is `+0` unless both operands are `-0`.
`Inf + -Inf` is `NaN`. -/
def add : B64 → B64 → B64
  | fin s1 m1 e1, fin s2 m2 e2 =>
    let e := min e1 e2
    let z := scaled s1 m1 e1 e + scaled s2 m2 e2 e
    if z = 0 then fin (s1 && s2) 0 (-1074) else round (decide (z < 0)) z.natAbs e false
  | nan, _ => nan
  | _, nan => nan
  | inf s1, inf s2 => if s1 = s2 then inf s1 else nan
  | inf s, fin _ _ _ => inf s
  | fin _ _ _, inf s => inf s

/-- Subtraction: `x - y` is `x + (-y)`. -/
def sub (x y : B64) : B64 := add x (neg y)

/-- Multiplication.  The sign is the exclusive or of the signs; `0 * Inf` is
`NaN`. -/
def mul : B64 → B64 → B64
  | fin s1 m1 e1, fin s2 m2 e2 => round (s1 != s2) (m1 * m2) (e1 + e2) false
  | nan, _ => nan
  | _, nan => nan
  | inf s1, inf s2 => inf (s1 != s2)
  | inf s1, fin s2 m _ => if m = 0 then nan else inf (s1 != s2)
  | fin s1 m _, inf s2 => if m = 0 then nan else inf (s1 != s2)

/-- Division.  The quotient of the significands is computed with 128 more binary
digits, the remainder being the sticky part.  A nonzero value divided by a zero
is an infinity, `0 / 0` and `Inf / Inf` are `NaN`, a finite value divided by an
infinity is a zero.  Division never traps. -/
def div : B64 → B64 → B64
  | fin s1 m1 e1, fin s2 m2 e2 =>
    if m2 = 0 then (if m1 = 0 then nan else inf (s1 != s2))
    else round (s1 != s2) (m1 * 2 ^ 128 / m2) (e1 - e2 - 128) (decide (m1 * 2 ^ 128 % m2 ≠ 0))
  | nan, _ => nan
  | _, nan => nan
  | inf _, inf _ => nan
  | inf s1, fin s2 _ _ => inf (s1 != s2)
  | fin s1 _ _, inf s2 => fin (s1 != s2) 0 (-1074)

/-- The Go comparison `x < y`: false whenever an operand is `NaN`; `-0 < +0` is
false. -/
def lt : B64 → B64 → Bool
  | fin s1 m1 e1, fin s2 m2 e2 =>
    decide (scaled s1 m1 e1 (min e1 e2) < scaled s2 m2 e2 (min e1 e2))
  | nan, _ => false
  | _, nan => false
  | inf s1, inf s2 => s1 && !s2
  | inf s, fin _ _ _ => s
  | fin _ _ _, inf s => !s

/-- The Go comparison `x <= y`: false whenever an operand is `NaN`. -/
def le : B64 → B64 → Bool
  | fin s1 m1 e1, fin s2 m2 e2 =>
    decide (scaled s1 m1 e1 (min e1 e2) ≤ scaled s2 m2 e2 (min e1 e2))
  | nan, _ => false
  | _, nan => false
  | inf s1, inf s2 => s1 || !s2
  | inf s, fin _ _ _ => s
  | fin _ _ _, inf s => !s

/-- The conversion `float64(n)` of a Go `int`, rounded to nearest. -/
def ofInt (n : Int) : B64 := round (decide (n < 0)) n.natAbs 0 false

/-- The quotient `n / 2^sh` rounded to nearest, ties to even; `sticky` tells that
a nonzero part below the last digit of `n` has been discarded. -/
def nearest (n sh : Nat) (sticky : Bool) : Nat :=
  let q := n / 2 ^ sh
  let r := n % 2 ^ sh
  let half := 2 ^ (sh - 1)
  if decide (half < r) || (decide (r = half) && (sticky || decide (q % 2 = 1))) then q + 1
  else q

/-- The steps of `round` after the value has been written with at least 55 binary
digits. -/
def roundBig (neg : Bool) (n : Nat) (e : Int) (sticky : Bool) : B64 :=
  let u := max (e + (bitLength n : Int) - 53) (-1074)
  let m := nearest n (u - e).toNat sticky
  pack neg (if m = 2 ^ 53 then 2 ^ 52 else m) (if m = 2 ^ 53 then u + 1 else u)

/-- The finite values whose significand fits in 53 binary digits, the infinities
and `NaN`: the values an operation returns. -/
def small : B64 → Bool
  | fin _ m _ => decide (m < 2 ^ 53)
  | _ => true

/-- The order `x <= y` up to `NaN`: it holds when `x <= y` and when one of the two
is `NaN`. -/
def leN (x y : B64) : Bool := decide (x = nan) || decide (y = nan) || le x y

instance : Add B64 := ⟨add⟩
instance : Sub B64 := ⟨sub⟩
instance : Mul B64 := ⟨mul⟩
instance : Div B64 := ⟨div⟩
instance : Zero B64 := ⟨zero⟩
instance : One B64 := ⟨fin false (2 ^ 52) (-52)⟩

end B64

/-- A Go `map[int]float64`. -/
abbrev FloatMap := Int → Option B64

/-- The Go map index expression `m[k]`: the zero value `+0` when `k` is not a
key. -/
def FloatMap.get (m : FloatMap) (k : Int) : B64 := (m k).getD 0

/-- Modelled from the spec: the corpus statistics `tfidf.TFIDF` (package
github.com/go-nlp/tfidf, whose declaration is not part of the repository), with
binary64 weights. -/
structure TFIDF where
  TF : FloatMap
  IDF : FloatMap
  Docs : Int
  Len : Int

/-- A `DocScore` is a tuple of the document ID and a score. -/
structure DocScore where
  ID : Int
  Score : B64
  deriving DecidableEq

/-- A `DocScores` is a list of `DocScore`. -/
abbrev DocScores := List DocScore

/-- `func sum(a []float64) float64`: the left-to-right sum, starting from 0, each
addition rounded. -/
def sum (a : List B64) : B64 := a.foldl (fun retVal f => retVal + f) 0

/-- The body of the inner loop of `BM25` for the term `id`, every operation
rounded, in the order of the source. -/
def term (tf : TFIDF) (k1 b docLen avgLen : B64) (id : Int) : B64 :=
  let num := tf.TF.get id * (k1 + 1)
  let denom := tf.TF.get id + k1 * (1 - b + b * docLen / avgLen)
  let idf := tf.IDF.get id
  idf * num / denom

/-- The body of the inner loop of `BM25` for the term `id` with the length term
`k1 * (1 - b + b * docLen / avgLen)` replaced by 0; in exact arithmetic it is
`(k1 + 1) * IDF[id]` when `TF[id]` is not 0. -/
def termSaturated (tf : TFIDF) (k1 : B64) (id : Int) : B64 :=
  let num := tf.TF.get id * (k1 + 1)
  let denom := tf.TF.get id + 0
  let idf := tf.IDF.get id
  idf * num / denom

/-- One iteration of the outer loop of `BM25` on the document `doc`, from the
working slice `w` and the scores collected so far. -/
def step (tf : TFIDF) (k1 b : B64) (q : List Int) (avgLen : B64)
    (st : List Int × List B64) (doc : Document) : List Int × List B64 :=
  let d := BOW doc
  let w := st.1 ++ d
  let r := Inter w q.length
  let w := r.1
  let size := r.2
  let n := w.take size
  let docLen := B64.ofInt d.length
  let score := n.foldl (fun score id => score ++ [term tf k1 b docLen avgLen id]) []
  let scores := st.2 ++ [sum score]
  -- reset working vector
  let w := copy w q
  let w := w.take q.length
  (w, scores)

/-- The scores slice `scores` after the outer loop of `BM25`. -/
def scoresOf (tf : TFIDF) (query : Document) (docs : List Document) (k1 b : B64) :
    List B64 :=
  let q := BOW query
  let w := copy (List.replicate q.length 0) q
  let avgLen := B64.ofInt tf.Len / B64.ofInt tf.Docs
  (docs.foldl (step tf k1 b q avgLen) (w, [])).2

/-- The final loop of `BM25`; the index expression `scores[i]` panics when `i` is
out of range, and a panic is the result `none`. -/
def collect (scores : List B64) : List Nat → DocScores → Option DocScores
  | [], retVal => some retVal
  | i :: is, retVal =>
    match scores.get? i with
    | none => none
    | some s => collect scores is (retVal ++ [⟨(i : Int), s⟩])

/-- `func BM25(tf *tfidf.TFIDF, query tfidf.Document, docs []tfidf.Document,
k1, b float64) DocScores` over binary64.  The result is `none` when the call
panics. -/
def BM25 (tf : TFIDF) (query : Document) (docs : List Document) (k1 b : B64) :
    Option DocScores :=
  collect (scoresOf tf query docs k1 b) (List.range docs.length) []

/-- The score of the entry of index `i` of the result of a call. -/
def scoreAt (res : Option DocScores) (i : Nat) : Option B64 :=
  res.bind (fun r => (r.get? i).map DocScore.Score)

/-- The value `sum(score)` the outer loop of `BM25` appends for `doc`, over
binary64. -/
def scoreOf (tf : TFIDF) (query : Document) (k1 b : B64) (doc : Document) : B64 :=
  sum ((common query doc).map
    (term tf k1 b (B64.ofInt (BOW doc).length) (B64.ofInt tf.Len / B64.ofInt tf.Docs)))

/-- The values that are not negative: `NaN`, `+Inf`, the finite values with the
sign bit clear, and `-0`. -/
def B64.notNeg : B64 → Bool
  | B64.nan => true
  | B64.inf s => !s
  | B64.fin s m _ => !s || decide (m = 0)

/-- The values whose sign bit is clear, and `NaN`. -/
def B64.signClear : B64 → Bool
  | B64.nan => true
  | B64.inf s => !s
  | B64.fin s _ _ => !s

/-- The two zeros and `NaN`. -/
def B64.zeroOrNaN : B64 → Bool
  | B64.nan => true
  | B64.inf _ => false
  | B64.fin _ m _ => decide (m = 0)

/-- A term identifier is known to the statistics when it is a key of `TF` or of
`IDF`. -/
def known (tf : TFIDF) (t : Int) : Bool := (tf.TF t).isSome || (tf.IDF t).isSome

/-- The statistics `tf` with the inverse document frequency of the term `t`
replaced by `y`, everything else unchanged. -/
def setIDF (tf : TFIDF) (t : Int) (y : B64) : TFIDF :=
  { tf with IDF := Function.update tf.IDF t (some y) }

/-- Statistics with one known term: `TF[1] = x`, `IDF[1] = y`. -/
def statsOne (x y : B64) (docs len : Int) : TFIDF :=
  { TF := fun t => if t = 1 then some x else none
    IDF := fun t => if t = 1 then some y else none
    Docs := docs
    Len := len }

/-- Statistics that know no term. -/
def statsNone (docs len : Int) : TFIDF :=
  { TF := fun _ => none
    IDF := fun _ => none
    Docs := docs
    Len := len }

/-- The inverse document frequency `math.Log(11 / n)` of a term that occurs in
`n` of the eleven sentences of `mobydick`, as a binary64 value: the value
nearest to the logarithm of the binary64 quotient, for example
`5399580128524108 * 2^-51` (2.3978952727983707) for `n = 1`.  The library
function is accurate to the last digit or its neighbour; the three decimals the
test prints do not depend on which of the two it returns. -/
def mobydickIDF (n : Nat) : B64 :=
  if n = 1 then B64.fin false 5399580128524108 (-51)
  else if n = 2 then B64.fin false 7677502872965536 (-52)
  else if n = 3 then B64.fin false 5851450363177869 (-52)
  else if n = 4 then B64.fin false 4555845488882856 (-52)
  else if n = 5 then B64.fin false 7101792548668105 (-53)
  else if n = 6 then B64.fin false 5459585958190378 (-53)
  else B64.fin false 8142240139464960 (-54)

/-- Statistics for `mobydick` as `Example_BM25` builds them, over binary64: the
frequency weight of a term is the number of sentences that contain it, its
inverse document frequency is `math.Log(Docs / TF)`, `Docs` is 11 and `Len` is
204, the sum of the numbers of distinct identifiers of the sentences. -/
def mobydickStats : TFIDF :=
  { TF := fun t =>
      if 0 ≤ t then (mobydickCount.get? t.toNat).map (fun n => B64.ofInt (n : Int)) else none
    IDF := fun t => if 0 ≤ t then (mobydickCount.get? t.toNat).map mobydickIDF else none
    Docs := 11
    Len := 204 }

end IEEE

/-! ## Arithmetic on finite values -/

namespace F64

@[simp] theorem zero_eq : (0 : F64) = fin 0 := rfl

@[simp] theorem one_eq : (1 : F64) = fin 1 := rfl

@[simp] theorem fin_add_fin (x y : ℚ) : fin x + fin y = fin (x + y) := rfl

@[simp] theorem fin_sub_fin (x y : ℚ) : fin x - fin y = fin (x - y) := by
  show add (fin x) (neg (fin y)) = fin (x - y)
  simp [add, neg, sub_eq_add_neg]

@[simp] theorem fin_mul_fin (x y : ℚ) : fin x * fin y = fin (x * y) := rfl

theorem fin_div_fin (x y : ℚ) (hy : y ≠ 0) : fin x / fin y = fin (x / y) := by
  show div (fin x) (fin y) = fin (x / y)
  simp [div, hy]

theorem fin_div_fin_if (x y : ℚ) :
    fin x / fin y
      = if y = 0 then (if x = 0 then nan else if 0 < x then pinf else ninf)
        else fin (x / y) := rfl

@[simp] theorem zero_div_zero : fin 0 / fin 0 = nan := by
  show div (fin 0) (fin 0) = nan
  simp [div]

@[simp] theorem ofInt_eq (n : Int) : ofInt n = fin n := rfl

@[simp] theorem fin_add_nan (x : ℚ) : fin x + nan = nan := rfl

@[simp] theorem fin_mul_nan (x : ℚ) : fin x * nan = nan := rfl

@[simp] theorem nan_div (x : F64) : nan / x = nan := by
  show div nan x = nan
  cases x <;> rfl

@[simp] theorem div_nan (x : F64) : x / nan = nan := by
  show div x nan = nan
  cases x <;> rfl

end F64

/-! ## The library operations -/

theorem mem_Uniq (x : Int) : ∀ l : List Int, x ∈ Uniq l ↔ x ∈ l
  | [] => by simp [Uniq]
  | [a] => by simp [Uniq]
  | a :: b :: t => by
    have ih := mem_Uniq x (b :: t)
    by_cases hab : a = b
    · subst hab
      simp only [Uniq, if_true, ih]
      simp
    · simp only [Uniq, hab, if_false, List.mem_cons, ih]

theorem Uniq_sorted : ∀ l : List Int, l.Sorted (· ≤ ·) → (Uniq l).Sorted (· < ·)
  | [], _ => by simp [Uniq]
  | [a], _ => by simp [Uniq]
  | a :: b :: t, h => by
    have ht : (b :: t).Sorted (· ≤ ·) := List.Sorted.of_cons h
    have ih := Uniq_sorted (b :: t) ht
    by_cases hab : a = b
    · simp only [Uniq, hab, if_true]
      exact ih
    · simp only [Uniq, hab, if_false]
      refine List.sorted_cons.2 ⟨?_, ih⟩
      intro x hx
      have hx1 : x ∈ b :: t := (mem_Uniq x (b :: t)).1 hx
      have hax : a ≤ b := List.rel_of_sorted_cons h b (List.mem_cons_self b t)
      have hbx : b ≤ x := by
        rcases List.mem_cons.1 hx1 with hxb | hxt
        · exact le_of_eq hxb.symm
        · exact List.rel_of_sorted_cons ht x hxt
      exact lt_of_lt_of_le (lt_of_le_of_ne hax hab) hbx

theorem mem_BOW (x : Int) (doc : Document) : x ∈ BOW doc ↔ x ∈ doc := by
  unfold BOW
  rw [mem_Uniq]
  exact (List.perm_insertionSort (· ≤ ·) doc).mem_iff

theorem BOW_sorted (doc : Document) : (BOW doc).Sorted (· < ·) :=
  Uniq_sorted _ (List.sorted_insertionSort (· ≤ ·) doc)

theorem BOW_nodup (doc : Document) : (BOW doc).Nodup :=
  (BOW_sorted doc).nodup

/-- The bag of words is the ascending list of the distinct identifiers. -/
theorem BOW_eq_sort (doc : Document) : BOW doc = doc.toFinset.sort (· ≤ ·) := by
  apply List.eq_of_perm_of_sorted (r := (· ≤ ·))
  · rw [List.perm_ext_iff_of_nodup (BOW_nodup doc) (Finset.sort_nodup _ _)]
    intro x
    simp [mem_BOW]
  · exact (BOW_sorted doc).imp le_of_lt
  · exact Finset.sort_sorted _ _

theorem BOW_congr {d1 d2 : Document} (h : d1.toFinset = d2.toFinset) :
    BOW d1 = BOW d2 := by
  rw [BOW_eq_sort, BOW_eq_sort, h]

theorem BOW_length (doc : Document) : (BOW doc).length = doc.toFinset.card := by
  rw [BOW_eq_sort, Finset.length_sort]

theorem BOW_nil : BOW [] = [] := rfl

theorem Inter_append (q d : List Int) :
    Inter (q ++ d) q.length =
      (q.filter (fun x => decide (x ∈ d)) ++ q.filter (fun x => !decide (x ∈ d)) ++ d,
        (q.filter (fun x => decide (x ∈ d))).length) := by
  simp [Inter]

theorem copy_replicate (q : List Int) : copy (List.replicate q.length 0) q = q := by
  simp [copy]

/-! ## The loop of `BM25` -/

theorem foldl_append_singleton {α β : Type} (f : α → β) :
    ∀ (l : List α) (init : List β),
      l.foldl (fun acc x => acc ++ [f x]) init = init ++ l.map f
  | [], init => by simp
  | a :: l, init => by
    simp [List.foldl_cons, foldl_append_singleton f l (init ++ [f a])]

theorem filter_length_add (q : List Int) (p : Int → Bool) :
    (q.filter p ++ q.filter (fun x => !p x)).length = q.length :=
  (List.filter_append_perm p q).length_eq

/-- The reset of the working vector, `copy(w, q)` followed by `w = w[:len(q)]`,
restores the query bag whatever the slice holds. -/
theorem reset_eq (q w : List Int) (h : q.length ≤ w.length) :
    (copy w q).take q.length = q := by
  unfold copy
  rw [List.take_of_length_le h, List.take_left]

/-- One iteration started with the working slice equal to the query bag appends
the closed-form score and leaves the working slice equal to the query bag. -/
theorem step_eq (tf : TFIDF) (query : Document) (k1 b : F64) (scores : List F64)
    (doc : Document) :
    step tf k1 b (BOW query) (F64.ofInt tf.Len / F64.ofInt tf.Docs) (BOW query, scores) doc
      = (BOW query, scores ++ [scoreOf tf query k1 b doc]) := by
  have hlen := filter_length_add (BOW query) (fun x => decide (x ∈ BOW doc))
  simp only [step, Inter_append, List.append_assoc, List.take_left]
  refine Prod.ext ?_ ?_
  · apply reset_eq
    rw [← List.append_assoc, List.length_append, hlen]
    exact Nat.le_add_right _ _
  · simp only [foldl_append_singleton, List.nil_append, scoreOf, common]

theorem foldl_step (tf : TFIDF) (query : Document) (k1 b : F64) :
    ∀ (docs : List Document) (scores : List F64),
      docs.foldl (step tf k1 b (BOW query) (F64.ofInt tf.Len / F64.ofInt tf.Docs))
          (BOW query, scores)
        = (BOW query, scores ++ docs.map (scoreOf tf query k1 b))
  | [], scores => by simp
  | doc :: docs, scores => by
    rw [List.foldl_cons, step_eq, foldl_step tf query k1 b docs]
    simp

/-- The scores slice holds the closed-form score of every document, in order. -/
theorem scoresOf_eq (tf : TFIDF) (query : Document) (docs : List Document) (k1 b : F64) :
    scoresOf tf query docs k1 b = docs.map (scoreOf tf query k1 b) := by
  simp only [scoresOf, copy_replicate, foldl_step, List.nil_append]

theorem collect_eq (scores : List F64) :
    ∀ (is : List Nat) (retVal : DocScores), (∀ i ∈ is, i < scores.length) →
      collect scores is retVal
        = some (retVal ++ is.map (fun i => ⟨(i : Int), scores.getD i 0⟩))
  | [], retVal, _ => by simp [collect]
  | i :: is, retVal, h => by
    have hi : i < scores.length := h i (List.mem_cons_self i is)
    have hget : scores.get? i = some (scores.getD i 0) := by
      simp [List.getD_eq_getElem?_getD, List.getElem?_eq_getElem hi]
    simp only [collect, hget]
    rw [collect_eq scores is _ (fun j hj => h j (List.mem_cons_of_mem i hj))]
    simp

/-- The call never panics: it returns the entry `(i, score of docs[i])` for every
index `i` of `docs`, in order. -/
theorem BM25_eq (tf : TFIDF) (query : Document) (docs : List Document) (k1 b : F64) :
    BM25 tf query docs k1 b
      = some ((List.range docs.length).map
          (fun i => ⟨(i : Int), (docs.map (scoreOf tf query k1 b)).getD i 0⟩)) := by
  unfold BM25
  rw [scoresOf_eq, collect_eq _ _ _ (by simp)]
  simp

/-! ## The score of one document as a sum over the common identifiers -/

theorem sum_eq_list_sum (a : List F64) : sum a = a.sum := by
  unfold sum
  rw [List.sum_eq_foldl]

theorem common_nodup (query doc : Document) : (common query doc).Nodup :=
  (BOW_nodup query).filter _

theorem mem_common (query doc : Document) (t : Int) :
    t ∈ common query doc ↔ t ∈ query ∧ t ∈ doc := by
  simp [common, mem_BOW]

theorem common_toFinset (query doc : Document) :
    (common query doc).toFinset = query.toFinset ∩ doc.toFinset := by
  ext t
  simp [mem_common]

theorem scoreOf_eq_finset_sum (tf : TFIDF) (query : Document) (k1 b : F64) (doc : Document) :
    scoreOf tf query k1 b doc
      = ∑ t ∈ query.toFinset ∩ doc.toFinset,
          term tf k1 b (F64.ofInt (BOW doc).length) (F64.ofInt tf.Len / F64.ofInt tf.Docs) t := by
  unfold scoreOf
  rw [sum_eq_list_sum, ← common_toFinset, List.sum_toFinset _ (common_nodup query doc)]

/-- The score the loop computes is the score of the specification taken with the
number of distinct identifiers as document length. -/
theorem scoreOf_eq_specScore (tf : TFIDF) (query : Document) (k1 b : F64) (doc : Document) :
    scoreOf tf query k1 b doc = specScore tf query k1 b (distinct doc) doc := by
  rw [scoreOf_eq_finset_sum]
  unfold specScore distinct
  rw [BOW_length]
  rfl

/-- The entry of index `i` of the result. -/
theorem BM25_get (tf : TFIDF) (query : Document) (docs : List Document) (k1 b : F64)
    (i : Nat) (h : i < docs.length) :
    ∃ r, BM25 tf query docs k1 b = some r ∧ r.length = docs.length ∧
      r.get? i = some ⟨(i : Int), scoreOf tf query k1 b (docs.get ⟨i, h⟩)⟩ := by
  refine ⟨_, BM25_eq tf query docs k1 b, by simp, ?_⟩
  simp [List.getD_eq_getElem?_getD, h]

theorem scoreAt_BM25 (tf : TFIDF) (query : Document) (docs : List Document) (k1 b : F64)
    (i : Nat) (h : i < docs.length) :
    scoreAt (BM25 tf query docs k1 b) i = some (scoreOf tf query k1 b (docs.get ⟨i, h⟩)) := by
  obtain ⟨r, hr, -, hi⟩ := BM25_get tf query docs k1 b i h
  unfold scoreAt
  rw [hr, Option.some_bind, hi]
  rfl

theorem scoreOf_of_common_nil (tf : TFIDF) (query : Document) (k1 b : F64) (doc : Document)
    (h : common query doc = []) : scoreOf tf query k1 b doc = F64.fin 0 := by
  simp [scoreOf, h, sum]

/-! ## The contribution of a term over finite values -/

/-- The real value of the contribution of a term with frequency weight `x` and
inverse document frequency `y` to a document of `D` distinct identifiers, for a
corpus of length `L` and `N` documents. -/
theorem term_fin (tf : TFIDF) (k β : ℚ) (D : Nat) (t : Int) (x y : ℚ)
    (hx : tf.TF.get t = F64.fin x) (hy : tf.IDF.get t = F64.fin y)
    (hN : tf.Docs ≠ 0) (hL : tf.Len ≠ 0)
    (hden : x + k * (1 - β + β * D / ((tf.Len : ℚ) / tf.Docs)) ≠ 0) :
    term tf (F64.fin k) (F64.fin β) (F64.ofInt D) (F64.ofInt tf.Len / F64.ofInt tf.Docs) t
      = F64.fin (y * (x * (k + 1)) / (x + k * (1 - β + β * D / ((tf.Len : ℚ) / tf.Docs)))) := by
  have hN1 : (tf.Docs : ℚ) ≠ 0 := by exact_mod_cast hN
  have hL1 : (tf.Len : ℚ) ≠ 0 := by exact_mod_cast hL
  have havg : (tf.Len : ℚ) / tf.Docs ≠ 0 := div_ne_zero hL1 hN1
  simp only [term, hx, hy, F64.ofInt_eq, F64.one_eq, F64.fin_add_fin, F64.fin_sub_fin,
    F64.fin_mul_fin, F64.fin_div_fin _ _ hN1, F64.fin_div_fin _ _ havg, Int.cast_natCast,
    F64.fin_div_fin _ _ hden]

/-- With positive `Docs`, `Len`, `k1`, a nonnegative frequency weight and
`0 ≤ b ≤ 1`, the denominator of the contribution of a term to a nonempty
document is positive. -/
theorem denom_pos (L N : Int) (k β x : ℚ) (D : Nat) (hN : 0 < N) (hL : 0 < L)
    (hk : 0 < k) (hβ0 : 0 ≤ β) (hβ1 : β ≤ 1) (hx : 0 ≤ x) (hD : 0 < D) :
    0 < x + k * (1 - β + β * D / ((L : ℚ) / N)) := by
  have hN1 : (0 : ℚ) < N := by exact_mod_cast hN
  have hL1 : (0 : ℚ) < L := by exact_mod_cast hL
  have hD1 : (0 : ℚ) < D := by exact_mod_cast hD
  have havg : (0 : ℚ) < (L : ℚ) / N := div_pos hL1 hN1
  have h1 : 0 ≤ β * D / ((L : ℚ) / N) := div_nonneg (mul_nonneg hβ0 hD1.le) havg.le
  have h2 : 0 < 1 - β + β * D / ((L : ℚ) / N) := by
    rcases eq_or_lt_of_le hβ1 with h | h
    · subst h
      have : 0 < (1 : ℚ) * D / ((L : ℚ) / N) := div_pos (by simpa using hD1) havg
      linarith
    · linarith
  have h3 : 0 < k * (1 - β + β * D / ((L : ℚ) / N)) := mul_pos hk h2
  linarith

theorem BOW_length_pos (doc : Document) (t : Int) (h : t ∈ doc) : 0 < (BOW doc).length :=
  List.length_pos_of_mem ((mem_BOW t doc).2 h)

theorem BOW_singleton (t : Int) : BOW [t] = [t] := rfl

theorem common_singleton_mem (t : Int) (doc : Document) (h : t ∈ doc) :
    common [t] doc = [t] := by
  simp [common, BOW_singleton, mem_BOW, h]

theorem common_singleton_not_mem (t : Int) (doc : Document) (h : t ∉ doc) :
    common [t] doc = [] := by
  simp [common, BOW_singleton, mem_BOW, h]

theorem list_sum_fin (f : Int → F64) (g : Int → ℚ) :
    ∀ l : List Int, (∀ t ∈ l, f t = F64.fin (g t)) →
      (l.map f).sum = F64.fin ((l.map g).sum)
  | [], _ => rfl
  | a :: l, h => by
    rw [List.map_cons, List.sum_cons, List.map_cons, List.sum_cons,
      list_sum_fin f g l (fun t ht => h t (List.mem_cons_of_mem a ht)),
      h a (List.mem_cons_self a l)]
    rfl

/-- Over real inputs with `Docs > 0`, `Len > 0`, `k1 > 0`, `0 ≤ b ≤ 1` and
nonnegative frequency weights, every operation of the loop is finite and the
score is the real sum of the real contributions. -/
theorem scoreOf_fin (tf : TFIDF) (query doc : Document) (k β : ℚ)
    (hDocs : 0 < tf.Docs) (hLen : 0 < tf.Len) (hk : 0 < k) (hβ0 : 0 ≤ β) (hβ1 : β ≤ 1)
    (hTF : ∀ t ∈ common query doc, ∃ x : ℚ, 0 ≤ x ∧ tf.TF.get t = F64.fin x)
    (hIDF : ∀ t ∈ common query doc, ∃ y : ℚ, tf.IDF.get t = F64.fin y) :
    scoreOf tf query (F64.fin k) (F64.fin β) doc
      = F64.fin (∑ t ∈ query.toFinset ∩ doc.toFinset,
          realContribution tf k β doc.toFinset.card t) := by
  unfold scoreOf
  rw [sum_eq_list_sum,
    list_sum_fin _ (realContribution tf k β doc.toFinset.card) (common query doc),
    ← common_toFinset, List.sum_toFinset _ (common_nodup query doc)]
  intro t ht
  obtain ⟨x, hx0, hx⟩ := hTF t ht
  obtain ⟨y, hy⟩ := hIDF t ht
  have htd : t ∈ doc := ((mem_common query doc t).1 ht).2
  have hD := BOW_length_pos doc t htd
  have hden := denom_pos tf.Len tf.Docs k β x (BOW doc).length hDocs hLen hk hβ0 hβ1 hx0 hD
  rw [term_fin tf k β (BOW doc).length t x y hx hy hDocs.ne' hLen.ne' hden.ne']
  simp only [realContribution, hx, hy, F64.toRat, BOW_length, mul_assoc]

/-- The real contribution of a term is nonnegative under the same conditions. -/
theorem realContribution_nonneg (tf : TFIDF) (k β : ℚ) (D : Nat) (t : Int) (x y : ℚ)
    (hDocs : 0 < tf.Docs) (hLen : 0 < tf.Len) (hk : 0 < k) (hβ0 : 0 ≤ β) (hβ1 : β ≤ 1)
    (hD : 0 < D) (hx : tf.TF.get t = F64.fin x) (hx0 : 0 ≤ x)
    (hy : tf.IDF.get t = F64.fin y) (hy0 : 0 ≤ y) :
    0 ≤ realContribution tf k β D t := by
  have hden := denom_pos tf.Len tf.Docs k β x D hDocs hLen hk hβ0 hβ1 hx0 hD
  simp only [realContribution, hx, hy, F64.toRat]
  exact div_nonneg (mul_nonneg (mul_nonneg hy0 hx0) (by linarith)) hden.le

theorem BM25_score_distinct_aux (tf : TFIDF) (query : Document) (docs : List Document)
    (k1 b : F64) (i : Nat) (h : i < docs.length) :
    scoreAt (BM25 tf query docs k1 b) i
      = some (specScore tf query k1 b (distinct (docs.get ⟨i, h⟩)) (docs.get ⟨i, h⟩)) := by
  rw [scoreAt_BM25 tf query docs k1 b i h, scoreOf_eq_specScore]

/-! ## C1: the score formula -/

/-- C1, refuted as stated: with the document length read as the count of term
occurrences, repeats included, the formula is not the score `BM25` returns.  For
the statistics `stats1`, the query `[1]`, the single document `[1, 1]` and
`k1 = b = 1` the code returns `8/3` (it takes the length 1, the number of
distinct identifiers) where the formula gives `2` (length 2). -/
theorem BM25_score_occurrences_false :
    ¬ ∀ (tf : TFIDF) (query : Document) (docs : List Document) (k1 b : F64) (i : Nat)
        (h : i < docs.length), 0 < tf.Docs →
        scoreAt (BM25 tf query docs k1 b) i
          = some (specScore tf query k1 b (occurrences (docs.get ⟨i, h⟩)) (docs.get ⟨i, h⟩)) := by
  intro H
  have h1 := H stats1 [1] [[1, 1]] (F64.fin 1) (F64.fin 1) 0 (by simp) (by decide)
  have h2 : scoreAt (BM25 stats1 [1] [[1, 1]] (F64.fin 1) (F64.fin 1)) 0
      = some (F64.fin (8 / 3)) := by
    simp [scoreAt, BM25, scoresOf, step, BOW, Uniq, Inter, copy, collect, sum, term, stats1,
      FloatMap.get, F64.fin_div_fin_if]
    norm_num
  have h3 : specScore stats1 [1] (F64.fin 1) (F64.fin 1) (occurrences [1, 1]) [1, 1]
      = F64.fin 2 := by
    simp [specScore, contribution, occurrences, stats1, FloatMap.get, F64.fin_div_fin_if]
  rw [h2] at h1
  simp only [List.get_eq_getElem, List.getElem_cons_zero, h3] at h1
  norm_num at h1

/-- C1, amended: for every statistics value, query, document list, `k1`, `b` and
index `i < len(docs)`, `BM25` returns, and the score of entry `i` is the sum over
the term identifiers common to the query and `docs[i]`, each counted once, of
`idf * tf * (k1 + 1) / (tf + k1 * (1 - b + b * documentLength / averageLength))`,
where `documentLength` is the number of distinct identifiers of `docs[i]`. -/
theorem BM25_score_distinct (tf : TFIDF) (query : Document) (docs : List Document)
    (k1 b : F64) (i : Nat) (h : i < docs.length) :
    scoreAt (BM25 tf query docs k1 b) i
      = some (specScore tf query k1 b (distinct (docs.get ⟨i, h⟩)) (docs.get ⟨i, h⟩)) :=
  BM25_score_distinct_aux tf query docs k1 b i h

/-- C1, amended, at the input of the counterexample: the score is the formula
with the distinct length. -/
theorem BM25_score_distinct_witness :
    (0 : Nat) < [[(1 : Int), 1]].length ∧
    scoreAt (BM25 stats1 [1] [[1, 1]] (F64.fin 1) (F64.fin 1)) 0
      = some (specScore stats1 [1] (F64.fin 1) (F64.fin 1) (distinct [1, 1]) [1, 1]) :=
  ⟨by decide, BM25_score_distinct stats1 [1] [[1, 1]] (F64.fin 1) (F64.fin 1) 0 (by decide)⟩

/-! ## C2: one entry per document, in input order -/

/-- C2: for every statistics value, query, `k1`, `b` and document list, `BM25`
returns a list of exactly `len(docs)` entries, the entry of index `i` has
`ID = i` and holds `scores[i]`, the score computed for `docs[i]`; an empty
document list gives an empty result. -/
theorem BM25_length_ids (tf : TFIDF) (query : Document) (docs : List Document) (k1 b : F64) :
    (∃ r, BM25 tf query docs k1 b = some r ∧ r.length = docs.length ∧
        r.map DocScore.ID = (List.range docs.length).map Int.ofNat ∧
        r.map DocScore.Score = scoresOf tf query docs k1 b) ∧
      BM25 tf query [] k1 b = some [] := by
  refine ⟨⟨_, BM25_eq tf query docs k1 b, by simp, by rw [List.map_map]; rfl, ?_⟩, rfl⟩
  rw [scoresOf_eq]
  apply List.ext_getElem
  · simp
  · intro n h1 h2
    simp at h1
    simp [List.getD_eq_getElem?_getD, h1]

/-! ## C3: no common term, score 0 -/

/-- C3: a document that shares no term identifier with the query gets the score
exactly 0, whatever its length, the statistics, `k1` and `b`. -/
theorem BM25_disjoint_score_zero (tf : TFIDF) (query : Document) (docs : List Document)
    (k1 b : F64) (i : Nat) (h : i < docs.length)
    (hd : ∀ t ∈ query, t ∉ docs.get ⟨i, h⟩) :
    scoreAt (BM25 tf query docs k1 b) i = some (F64.fin 0) := by
  rw [scoreAt_BM25 tf query docs k1 b i h, scoreOf_of_common_nil]
  apply List.eq_nil_iff_forall_not_mem.2
  intro t ht
  rw [mem_common] at ht
  exact hd t ht.1 ht.2

/-- C3 at a concrete input: the document `[2, 3]` shares no term with the query
`[1]` and scores 0 next to a document that matches. -/
theorem BM25_disjoint_score_zero_witness :
    (1 : Nat) < [[(1 : Int), 1], [2, 3]].length ∧
    (∀ t ∈ [(1 : Int)], t ∉ [[(1 : Int), 1], [2, 3]].get ⟨1, by decide⟩) ∧
    scoreAt (BM25 stats1 [1] [[1, 1], [2, 3]] (F64.fin 1) (F64.fin 1)) 1 = some (F64.fin 0) :=
  ⟨by decide, by decide,
    BM25_disjoint_score_zero stats1 [1] [[1, 1], [2, 3]] (F64.fin 1) (F64.fin 1) 1
      (by decide) (by decide)⟩

/-! ## C4 in exact arithmetic: a query of one term -/

theorem scoreOf_single_mem (tf : TFIDF) (t : Int) (doc : Document) (x y k β : ℚ)
    (hTF : tf.TF.get t = F64.fin x) (hx : 0 < x)
    (hIDF : tf.IDF.get t = F64.fin y) (hy : 0 < y)
    (hDocs : 0 < tf.Docs) (hLen : 0 < tf.Len) (hk : 0 < k) (hβ0 : 0 ≤ β) (hβ1 : β ≤ 1)
    (ht : t ∈ doc) :
    ∃ s : ℚ, 0 < s ∧ scoreOf tf [t] (F64.fin k) (F64.fin β) doc = F64.fin s := by
  have hD := BOW_length_pos doc t ht
  have hden := denom_pos tf.Len tf.Docs k β x (BOW doc).length hDocs hLen hk hβ0 hβ1 hx.le hD
  refine ⟨y * (x * (k + 1)) / (x + k * (1 - β + β * (BOW doc).length / ((tf.Len : ℚ) / tf.Docs))),
    ?_, ?_⟩
  · exact div_pos (mul_pos hy (mul_pos hx (by linarith))) hden
  · unfold scoreOf
    rw [common_singleton_mem t doc ht, List.map_singleton, sum_eq_list_sum, List.sum_singleton]
    exact term_fin tf k β (BOW doc).length t x y hTF hIDF hDocs.ne' hLen.ne' hden.ne'

/-- The query of a single term in exact arithmetic: with `TF[t] > 0`,
`IDF[t] > 0`, `Docs > 0`, `Len > 0`, `k1 > 0` and `0 ≤ b ≤ 1` (all real numbers),
every document that contains `t` gets a strictly positive score, every document
that does not contain `t` gets the score exactly 0, and so the score of the
second is less than the score of the first. -/
theorem BM25_single_term (tf : TFIDF) (t : Int) (docs : List Document) (x y k β : ℚ)
    (hTF : tf.TF.get t = F64.fin x) (hx : 0 < x)
    (hIDF : tf.IDF.get t = F64.fin y) (hy : 0 < y)
    (hDocs : 0 < tf.Docs) (hLen : 0 < tf.Len) (hk : 0 < k) (hβ0 : 0 ≤ β) (hβ1 : β ≤ 1) :
    (∀ (i : Nat) (hi : i < docs.length), t ∈ docs.get ⟨i, hi⟩ →
        ∃ s : ℚ, 0 < s ∧
          scoreAt (BM25 tf [t] docs (F64.fin k) (F64.fin β)) i = some (F64.fin s)) ∧
    (∀ (j : Nat) (hj : j < docs.length), t ∉ docs.get ⟨j, hj⟩ →
        scoreAt (BM25 tf [t] docs (F64.fin k) (F64.fin β)) j = some (F64.fin 0)) ∧
    (∀ (i j : Nat) (hi : i < docs.length) (hj : j < docs.length),
        t ∈ docs.get ⟨i, hi⟩ → t ∉ docs.get ⟨j, hj⟩ →
        ∃ si sj : F64,
          scoreAt (BM25 tf [t] docs (F64.fin k) (F64.fin β)) i = some si ∧
          scoreAt (BM25 tf [t] docs (F64.fin k) (F64.fin β)) j = some sj ∧
          F64.lt sj si = true) := by
  have hpos : ∀ (i : Nat) (hi : i < docs.length), t ∈ docs.get ⟨i, hi⟩ →
      ∃ s : ℚ, 0 < s ∧
        scoreAt (BM25 tf [t] docs (F64.fin k) (F64.fin β)) i = some (F64.fin s) := by
    intro i hi ht
    obtain ⟨s, hs, hsc⟩ :=
      scoreOf_single_mem tf t (docs.get ⟨i, hi⟩) x y k β hTF hx hIDF hy hDocs hLen hk hβ0 hβ1 ht
    exact ⟨s, hs, by rw [scoreAt_BM25 _ _ _ _ _ i hi, hsc]⟩
  have hzero : ∀ (j : Nat) (hj : j < docs.length), t ∉ docs.get ⟨j, hj⟩ →
      scoreAt (BM25 tf [t] docs (F64.fin k) (F64.fin β)) j = some (F64.fin 0) := by
    intro j hj ht
    rw [scoreAt_BM25 _ _ _ _ _ j hj,
      scoreOf_of_common_nil _ _ _ _ _ (common_singleton_not_mem t _ ht)]
  refine ⟨hpos, hzero, ?_⟩
  intro i j hi hj hti htj
  obtain ⟨s, hs, hsc⟩ := hpos i hi hti
  exact ⟨F64.fin s, F64.fin 0, hsc, hzero j hj htj, by simpa [F64.lt] using hs⟩

/-! ## C5 in exact arithmetic: the sign of the scores -/

/-- The sign claim fails in exact arithmetic too: with `k1 = 0` allowed, a common
term of frequency weight 0 has the denominator 0 and the contribution `0 / 0`,
which is `NaN`, and `NaN >= 0` is false.  Input: the statistics `stats0` (`TF[1] = 0`, `IDF[1] = 1`,
`Docs = Len = 1`), the query `[1]`, the single document `[1]`, `k1 = 0`,
`b = 0.75`. -/
theorem BM25_score_nonneg_false :
    ¬ ∀ (tf : TFIDF) (query : Document) (docs : List Document) (k β : ℚ),
        0 < tf.Docs → 0 ≤ tf.Len → 0 ≤ k → 0 ≤ β → β ≤ 1 →
        (∀ t, ∃ x : ℚ, 0 ≤ x ∧ tf.TF.get t = F64.fin x) →
        (∀ t, ∃ y : ℚ, 0 ≤ y ∧ tf.IDF.get t = F64.fin y) →
        ∃ r, BM25 tf query docs (F64.fin k) (F64.fin β) = some r ∧
          ∀ e ∈ r, F64.le (F64.fin 0) e.Score = true := by
  intro H
  have hTF : ∀ t, ∃ x : ℚ, 0 ≤ x ∧ stats0.TF.get t = F64.fin x := by
    intro t
    by_cases ht : t = 1
    · exact ⟨0, le_refl _, by simp [stats0, FloatMap.get, ht]⟩
    · exact ⟨0, le_refl _, by simp [stats0, FloatMap.get, ht]⟩
  have hIDF : ∀ t, ∃ y : ℚ, 0 ≤ y ∧ stats0.IDF.get t = F64.fin y := by
    intro t
    by_cases ht : t = 1
    · exact ⟨1, zero_le_one, by simp [stats0, FloatMap.get, ht]⟩
    · exact ⟨0, le_refl _, by simp [stats0, FloatMap.get, ht]⟩
  obtain ⟨r, hr, hall⟩ := H stats0 [1] [[1]] 0 (3 / 4) (by decide) (by decide) (le_refl _)
    (by norm_num) (by norm_num) hTF hIDF
  have hval : BM25 stats0 [1] [[1]] (F64.fin 0) (F64.fin (3 / 4))
      = some [⟨0, F64.nan⟩] := by
    simp [BM25, scoresOf, step, BOW, Uniq, Inter, copy, collect, sum, term, stats0,
      FloatMap.get, F64.fin_div_fin_if]
  rw [hval] at hr
  have hmem : (⟨0, F64.nan⟩ : DocScore) ∈ r := by
    rw [← Option.some.inj hr]
    exact List.mem_singleton_self _
  have := hall _ hmem
  simp [F64.le] at this

/-- The same failure with `k1 > 0` when `Len = 0` and `b = 0`: the quotient
`b * docLen / avgLen` is `0 / 0`. -/
theorem BM25_Len_zero_nan :
    BM25 statsLenZero [1] [[1]] (F64.fin (3 / 2)) (F64.fin 0) = some [⟨0, F64.nan⟩] := by
  simp [BM25, scoresOf, step, BOW, Uniq, Inter, copy, collect, sum, term, statsLenZero,
    FloatMap.get, F64.fin_div_fin_if]

/-- The sign of the scores in exact arithmetic: with `Docs > 0`, `Len > 0`,
`k1 > 0`, `0 ≤ b ≤ 1` and statistics whose `TF[t]` and `IDF[t]` are nonnegative
real numbers for every term `t`, the call returns and every score of the result
is a real number that is `≥ 0`, for every query and every document list. -/
theorem BM25_score_nonneg (tf : TFIDF) (query : Document) (docs : List Document) (k β : ℚ)
    (hDocs : 0 < tf.Docs) (hLen : 0 < tf.Len) (hk : 0 < k) (hβ0 : 0 ≤ β) (hβ1 : β ≤ 1)
    (hTF : ∀ t, ∃ x : ℚ, 0 ≤ x ∧ tf.TF.get t = F64.fin x)
    (hIDF : ∀ t, ∃ y : ℚ, 0 ≤ y ∧ tf.IDF.get t = F64.fin y) :
    ∃ r, BM25 tf query docs (F64.fin k) (F64.fin β) = some r ∧ r.length = docs.length ∧
      ∀ e ∈ r, ∃ s : ℚ, 0 ≤ s ∧ e.Score = F64.fin s := by
  refine ⟨_, BM25_eq tf query docs _ _, by simp, ?_⟩
  intro e he
  obtain ⟨i, hi, rfl⟩ := List.mem_map.1 he
  have hi1 : i < docs.length := List.mem_range.1 hi
  have hget : (docs.map (scoreOf tf query (F64.fin k) (F64.fin β))).getD i 0
      = scoreOf tf query (F64.fin k) (F64.fin β) (docs.get ⟨i, hi1⟩) := by
    simp [List.getD_eq_getElem?_getD, hi1]
  refine ⟨∑ t ∈ query.toFinset ∩ (docs.get ⟨i, hi1⟩).toFinset,
      realContribution tf k β (docs.get ⟨i, hi1⟩).toFinset.card t, ?_, ?_⟩
  · apply Finset.sum_nonneg
    intro t ht
    obtain ⟨x, hx0, hx⟩ := hTF t
    obtain ⟨y, hy0, hy⟩ := hIDF t
    have htd : t ∈ (docs.get ⟨i, hi1⟩).toFinset := (Finset.mem_inter.1 ht).2
    exact realContribution_nonneg tf k β _ t x y hDocs hLen hk hβ0 hβ1
      (Finset.card_pos.2 ⟨t, htd⟩) hx hx0 hy hy0
  · show (docs.map (scoreOf tf query (F64.fin k) (F64.fin β))).getD i 0 = _
    rw [hget]
    exact scoreOf_fin tf query _ k β hDocs hLen hk hβ0 hβ1 (fun t _ => hTF t)
      (fun t _ => (hIDF t).imp (fun _ h => h.2))

/-! ## C6: a statistics value without documents -/

/-- The average length computed from a statistics value with `Docs = 0`: the
division does not trap, it gives `NaN` or an infinity. -/
theorem avgLen_Docs_zero (tf : TFIDF) (h : tf.Docs = 0) :
    F64.ofInt tf.Len / F64.ofInt tf.Docs
      = if tf.Len = 0 then F64.nan else if 0 < tf.Len then F64.pinf else F64.ninf := by
  rw [h]
  simp [F64.fin_div_fin_if]

/-- C6, refuted as stated: with `Docs = 0` the call does not fail.  For the
statistics `statsEmpty` (`Docs = Len = 0`), the query `[1]`, the documents
`[2]` and `[3]`, `k1 = 1.5` and `b = 0.75` it returns the two entries `(0, 0)`
and `(1, 0)`. -/
theorem BM25_Docs_zero_fails_false :
    ¬ ∀ (tf : TFIDF) (query : Document) (docs : List Document) (k1 b : F64),
        tf.Docs = 0 → BM25 tf query docs k1 b = none := by
  intro H
  have h1 := H statsEmpty [1] [[2], [3]] (F64.fin (3 / 2)) (F64.fin (3 / 4)) rfl
  have h2 : BM25 statsEmpty [1] [[2], [3]] (F64.fin (3 / 2)) (F64.fin (3 / 4))
      = some [⟨0, F64.fin 0⟩, ⟨1, F64.fin 0⟩] := by
    simp [BM25, scoresOf, step, BOW, Uniq, Inter, copy, collect, sum]
  rw [h2] at h1
  exact Option.noConfusion h1

/-- C6, amended: when `Docs` is 0 the call still returns a result collection, of
`len(docs)` entries with the IDs `0..len(docs)-1` in order; the float division
`Len / Docs` gives `NaN` (`Len = 0`) or an infinity instead of failing, and the
scores are the sums the loop computes with that value as average length. -/
theorem BM25_Docs_zero_returns (tf : TFIDF) (query : Document) (docs : List Document)
    (k1 b : F64) (h : tf.Docs = 0) :
    ∃ r, BM25 tf query docs k1 b = some r ∧ r.length = docs.length ∧
      r.map DocScore.ID = (List.range docs.length).map Int.ofNat ∧
      r.map DocScore.Score = docs.map (fun doc =>
        sum ((common query doc).map (term tf k1 b (F64.ofInt (BOW doc).length)
          (if tf.Len = 0 then F64.nan else if 0 < tf.Len then F64.pinf else F64.ninf)))) := by
  refine ⟨_, BM25_eq tf query docs k1 b, by simp, by rw [List.map_map]; rfl, ?_⟩
  rw [← avgLen_Docs_zero tf h]
  apply List.ext_getElem
  · simp
  · intro n h1 h2
    simp at h1
    simp [List.getD_eq_getElem?_getD, h1, scoreOf]

/-- C6, amended, on the statistics `statsEmpty`. -/
theorem BM25_Docs_zero_returns_witness :
    statsEmpty.Docs = 0 ∧
    ∃ r, BM25 statsEmpty [1] [[2], [1, 3]] (F64.fin (3 / 2)) (F64.fin (3 / 4)) = some r ∧
      r.length = [[(2 : Int)], [1, 3]].length ∧
      r.map DocScore.ID = (List.range [[(2 : Int)], [1, 3]].length).map Int.ofNat ∧
      r.map DocScore.Score = [[(2 : Int)], [1, 3]].map (fun doc =>
        sum ((common [1] doc).map (term statsEmpty (F64.fin (3 / 2)) (F64.fin (3 / 4))
          (F64.ofInt (BOW doc).length)
          (if statsEmpty.Len = 0 then F64.nan
            else if 0 < statsEmpty.Len then F64.pinf else F64.ninf)))) :=
  ⟨rfl, BM25_Docs_zero_returns statsEmpty [1] [[2], [1, 3]] (F64.fin (3 / 2)) (F64.fin (3 / 4))
    rfl⟩

/-! ## C7 in exact arithmetic: terms the statistics do not know -/

theorem get_of_not_known (tf : TFIDF) (t : Int) (h : known tf t = false) :
    tf.TF.get t = F64.fin 0 ∧ tf.IDF.get t = F64.fin 0 := by
  unfold known at h
  rw [Bool.or_eq_false_iff] at h
  have h1 : tf.TF t = none := by simpa using h.1
  have h2 : tf.IDF t = none := by simpa using h.2
  exact ⟨by simp [FloatMap.get, h1], by simp [FloatMap.get, h2]⟩

/-- A term the statistics do not know contributes exactly 0 to a document that
contains it. -/
theorem contribution_of_not_known (tf : TFIDF) (k β : ℚ) (doc : Document) (t : Int)
    (hDocs : 0 < tf.Docs) (hLen : 0 < tf.Len) (hk : 0 < k) (hβ0 : 0 ≤ β) (hβ1 : β ≤ 1)
    (ht : t ∈ doc) (h : known tf t = false) :
    contribution tf (F64.fin k) (F64.fin β) (distinct doc) t = F64.fin 0 := by
  obtain ⟨hx, hy⟩ := get_of_not_known tf t h
  have hD : 0 < doc.toFinset.card := Finset.card_pos.2 ⟨t, List.mem_toFinset.2 ht⟩
  have hden := denom_pos tf.Len tf.Docs k β 0 doc.toFinset.card hDocs hLen hk hβ0 hβ1
    (le_refl _) hD
  have := term_fin tf k β doc.toFinset.card t 0 0 hx hy hDocs.ne' hLen.ne' hden.ne'
  simp only [zero_mul, zero_div] at this
  exact this

/-- Unknown terms in exact arithmetic: with `Docs > 0`, `Len > 0`, `k1 > 0` and
`0 ≤ b ≤ 1` (real numbers), the call returns and the score of a document is the
sum of the contributions of the common terms that are keys of `TF` or of `IDF`;
a common term that is a key of neither contributes exactly 0, and the score is 0
when no common term is known. -/
theorem BM25_unknown_terms (tf : TFIDF) (query : Document) (docs : List Document) (k β : ℚ)
    (i : Nat) (h : i < docs.length)
    (hDocs : 0 < tf.Docs) (hLen : 0 < tf.Len) (hk : 0 < k) (hβ0 : 0 ≤ β) (hβ1 : β ≤ 1) :
    (∀ t ∈ query, t ∈ docs.get ⟨i, h⟩ → known tf t = false →
        contribution tf (F64.fin k) (F64.fin β) (distinct (docs.get ⟨i, h⟩)) t = F64.fin 0) ∧
    scoreAt (BM25 tf query docs (F64.fin k) (F64.fin β)) i
      = some (∑ t ∈ (query.toFinset ∩ (docs.get ⟨i, h⟩).toFinset).filter
            (fun t => known tf t = true),
          contribution tf (F64.fin k) (F64.fin β) (distinct (docs.get ⟨i, h⟩)) t) ∧
    ((∀ t ∈ query, t ∈ docs.get ⟨i, h⟩ → known tf t = false) →
      scoreAt (BM25 tf query docs (F64.fin k) (F64.fin β)) i = some (F64.fin 0)) := by
  have hzero : ∀ t ∈ query, t ∈ docs.get ⟨i, h⟩ → known tf t = false →
      contribution tf (F64.fin k) (F64.fin β) (distinct (docs.get ⟨i, h⟩)) t = F64.fin 0 :=
    fun t _ htd hkn =>
      contribution_of_not_known tf k β _ t hDocs hLen hk hβ0 hβ1 htd hkn
  have hsum : scoreAt (BM25 tf query docs (F64.fin k) (F64.fin β)) i
      = some (∑ t ∈ (query.toFinset ∩ (docs.get ⟨i, h⟩).toFinset).filter
            (fun t => known tf t = true),
          contribution tf (F64.fin k) (F64.fin β) (distinct (docs.get ⟨i, h⟩)) t) := by
    rw [BM25_score_distinct_aux tf query docs _ _ i h]
    congr 1
    unfold specScore
    symm
    apply Finset.sum_subset (Finset.filter_subset _ _)
    intro t ht hnot
    have hmem := Finset.mem_inter.1 ht
    have hkn : known tf t = false := by
      by_contra hc
      exact hnot (Finset.mem_filter.2 ⟨ht, by simpa using hc⟩)
    exact hzero t (List.mem_toFinset.1 hmem.1) (List.mem_toFinset.1 hmem.2) hkn
  refine ⟨hzero, hsum, ?_⟩
  intro hall
  rw [hsum]
  congr 1
  apply Finset.sum_eq_zero
  intro t ht
  have hmem := Finset.mem_inter.1 (Finset.mem_filter.1 ht).1
  exact hzero t (List.mem_toFinset.1 hmem.1) (List.mem_toFinset.1 hmem.2)
    (hall t (List.mem_toFinset.1 hmem.1) (List.mem_toFinset.1 hmem.2))

/-! ## C8: the empty query -/

/-- C8: for every statistics value, `k1`, `b` and document list, `BM25` with a
query that has no term identifier returns `len(docs)` entries, the entry of
index `i` being `(i, 0)`. -/
theorem BM25_empty_query (tf : TFIDF) (docs : List Document) (k1 b : F64) :
    BM25 tf [] docs k1 b
      = some ((List.range docs.length).map (fun i => ⟨Int.ofNat i, F64.fin 0⟩)) := by
  rw [BM25_eq]
  congr 1
  apply List.map_congr_left
  intro i hi
  have hi1 : i < docs.length := List.mem_range.1 hi
  have : (docs.map (scoreOf tf [] k1 b)).getD i 0 = F64.fin 0 := by
    simp only [List.getD_eq_getElem?_getD, List.getElem?_map,
      List.getElem?_eq_getElem hi1, Option.map_some', Option.getD_some]
    exact scoreOf_of_common_nil tf [] k1 b _ rfl
  rw [this]
  rfl

/-! ## C9: the query as a set -/

/-- C9: two queries with the same set of distinct term identifiers, whatever the
repetitions and the order, produce identical results, for every statistics
value, document list, `k1` and `b`. -/
theorem BM25_query_set (tf : TFIDF) (q1 q2 : Document) (docs : List Document) (k1 b : F64)
    (h : ∀ t, t ∈ q1 ↔ t ∈ q2) :
    BM25 tf q1 docs k1 b = BM25 tf q2 docs k1 b := by
  have hq : BOW q1 = BOW q2 := BOW_congr (by ext t; simpa using h t)
  simp only [BM25, scoresOf, hq]

/-- C9 for the queries `[1, 2, 1]` and `[2, 1]`: the repeated term 1 counts
once. -/
theorem BM25_query_set_witness :
    (∀ t, t ∈ [(1 : Int), 2, 1] ↔ t ∈ [(2 : Int), 1]) ∧
    BM25 stats1 [1, 2, 1] [[1, 1], [2, 3]] (F64.fin (3 / 2)) (F64.fin (3 / 4))
      = BM25 stats1 [2, 1] [[1, 1], [2, 3]] (F64.fin (3 / 2)) (F64.fin (3 / 4)) :=
  ⟨by intro t; simp [or_comm],
    BM25_query_set stats1 [1, 2, 1] [2, 1] [[1, 1], [2, 3]] (F64.fin (3 / 2)) (F64.fin (3 / 4))
      (by intro t; simp [or_comm])⟩

/-! ## C10: the document as a bag -/

theorem step_congr (tf : TFIDF) (k1 b : F64) (q : List Int) (avgLen : F64)
    (st : List Int × List F64) (d1 d2 : Document) (h : BOW d1 = BOW d2) :
    step tf k1 b q avgLen st d1 = step tf k1 b q avgLen st d2 := by
  simp only [step, h]

theorem foldl_step_congr (tf : TFIDF) (k1 b : F64) (q : List Int) (avgLen : F64) :
    ∀ (docs1 docs2 : List Document) (st : List Int × List F64),
      docs1.map BOW = docs2.map BOW →
      docs1.foldl (step tf k1 b q avgLen) st = docs2.foldl (step tf k1 b q avgLen) st
  | [], [], _, _ => rfl
  | [], _ :: _, _, h => by simp at h
  | _ :: _, [], _, h => by simp at h
  | d1 :: docs1, d2 :: docs2, st, h => by
    simp only [List.map_cons, List.cons.injEq] at h
    rw [List.foldl_cons, List.foldl_cons, step_congr tf k1 b q avgLen st d1 d2 h.1]
    exact foldl_step_congr tf k1 b q avgLen docs1 docs2 _ h.2

/-- C10: replacing a document of the list by a permutation of its sequence of
term identifiers leaves the whole result unchanged, for every statistics value,
query, `k1` and `b`. -/
theorem BM25_doc_perm (tf : TFIDF) (query : Document) (docs : List Document) (k1 b : F64)
    (i : Nat) (h : i < docs.length) (doc : Document) (hp : doc.Perm (docs.get ⟨i, h⟩)) :
    BM25 tf query (docs.set i doc) k1 b = BM25 tf query docs k1 b := by
  have hb : BOW doc = BOW (docs.get ⟨i, h⟩) := BOW_congr (by ext t; simp [hp.mem_iff])
  have hmap : (docs.set i doc).map BOW = docs.map BOW := by
    rw [List.map_set, hb]
    apply List.ext_getElem
    · simp
    · intro n h1 h2
      by_cases hn : i = n
      · subst hn
        simp
      · simp [List.getElem_set_ne hn]
  simp only [BM25, scoresOf, List.length_set]
  rw [foldl_step_congr tf k1 b _ _ (docs.set i doc) docs _ hmap]

/-- C10 on the document `[1, 2, 2, 3]` replaced by `[2, 3, 1, 2]`. -/
theorem BM25_doc_perm_witness :
    ((1 : Nat) < [[(1 : Int), 1], [1, 2, 2, 3]].length ∧
      ([2, 3, 1, 2] : List Int).Perm ([[(1 : Int), 1], [1, 2, 2, 3]].get ⟨1, by decide⟩)) ∧
    BM25 stats1 [1, 2] ([[1, 1], [1, 2, 2, 3]].set 1 [2, 3, 1, 2]) (F64.fin (3 / 2))
        (F64.fin (3 / 4))
      = BM25 stats1 [1, 2] [[1, 1], [1, 2, 2, 3]] (F64.fin (3 / 2)) (F64.fin (3 / 4)) :=
  ⟨⟨by decide, by decide⟩,
    BM25_doc_perm stats1 [1, 2] [[1, 1], [1, 2, 2, 3]] (F64.fin (3 / 2)) (F64.fin (3 / 4)) 1
      (by decide) [2, 3, 1, 2] (by decide)⟩

/-! ## C11: no state leaks between documents -/

/-- C11: the score of entry `i` of `BM25(stats, query, docs)` is the score of the
single entry of `BM25(stats, query, [docs[i]])`; the result is the per-document
scorer mapped over the list, and the working slice is equal to the query bag
after the loop, whatever documents have been processed. -/
theorem BM25_score_alone (tf : TFIDF) (query : Document) (docs : List Document)
    (k1 b : F64) (i : Nat) (h : i < docs.length) :
    scoreAt (BM25 tf query docs k1 b) i = scoreAlone tf query k1 b (docs.get ⟨i, h⟩) ∧
    (∃ s, scoreAlone tf query k1 b (docs.get ⟨i, h⟩) = some s) ∧
    (∃ r, BM25 tf query docs k1 b = some r ∧
      r.map (fun e => some e.Score) = docs.map (scoreAlone tf query k1 b)) ∧
    (docs.foldl (step tf k1 b (BOW query) (F64.ofInt tf.Len / F64.ofInt tf.Docs))
        (copy (List.replicate (BOW query).length 0) (BOW query), [])).1 = BOW query := by
  have halone : ∀ doc, scoreAlone tf query k1 b doc = some (scoreOf tf query k1 b doc) :=
    fun doc => scoreAt_BM25 tf query [doc] k1 b 0 (by simp)
  refine ⟨?_, ⟨_, halone _⟩, ⟨_, BM25_eq tf query docs k1 b, ?_⟩, ?_⟩
  · rw [scoreAt_BM25 tf query docs k1 b i h, halone]
  · apply List.ext_getElem
    · simp
    · intro n h1 h2
      simp at h1
      simp [List.getD_eq_getElem?_getD, h1, halone]
  · rw [copy_replicate, foldl_step]

/-- C11 on three documents: the score of the last one is its score alone. -/
theorem BM25_score_alone_witness :
    (2 : Nat) < [[(1 : Int), 1], [2, 3], [1, 2, 3, 3]].length ∧
    scoreAt (BM25 stats1 [1, 2] [[1, 1], [2, 3], [1, 2, 3, 3]] (F64.fin (3 / 2))
        (F64.fin (3 / 4))) 2
      = scoreAlone stats1 [1, 2] (F64.fin (3 / 2)) (F64.fin (3 / 4))
          ([[(1 : Int), 1], [2, 3], [1, 2, 3, 3]].get ⟨2, by decide⟩) :=
  ⟨by decide,
    (BM25_score_alone stats1 [1, 2] [[1, 1], [2, 3], [1, 2, 3, 3]] (F64.fin (3 / 2))
      (F64.fin (3 / 4)) 2 (by decide)).1⟩

/-! ## C12 in exact arithmetic: a larger inverse document frequency -/

theorem setIDF_get_self (tf : TFIDF) (t : Int) (y : ℚ) :
    (setIDF tf t y).IDF.get t = F64.fin y := by
  simp [setIDF, FloatMap.get]

theorem setIDF_get_ne (tf : TFIDF) (t u : Int) (y : ℚ) (h : u ≠ t) :
    (setIDF tf t y).IDF.get u = tf.IDF.get u := by
  simp [setIDF, FloatMap.get, Function.update_noteq h]

theorem realContribution_setIDF_ne (tf : TFIDF) (t u : Int) (y k β D : ℚ) (h : u ≠ t) :
    realContribution (setIDF tf t y) k β D u = realContribution tf k β D u := by
  unfold realContribution
  rw [setIDF_get_ne tf t u y h]
  rfl

/-- A larger inverse document frequency in exact arithmetic (no rounding): with
`k1 > 0`, `0 ≤ b ≤ 1`,
`Docs > 0`, `Len > 0`, a query term `t` of the document with `TF[t] > 0`, and two
statistics values that differ only in `IDF[t]`, the larger `IDF[t]` gives the
strictly larger contribution of `t`; when every term common to the query and the
document has a nonnegative real `TF` and a real `IDF`, as the statistics of a
corpus have, it gives the strictly larger score. -/
theorem IDF_monotone (tf : TFIDF) (query : Document) (docs : List Document) (k β : ℚ)
    (i : Nat) (h : i < docs.length) (t : Int) (x y1 y2 : ℚ)
    (hk : 0 < k) (hβ0 : 0 ≤ β) (hβ1 : β ≤ 1) (hDocs : 0 < tf.Docs) (hLen : 0 < tf.Len)
    (hx : tf.TF.get t = F64.fin x) (hx0 : 0 < x)
    (htq : t ∈ query) (htd : t ∈ docs.get ⟨i, h⟩)
    (hy1 : tf.IDF.get t = F64.fin y1) (hlt : y1 < y2) :
    (∃ c1 c2 : ℚ,
      contribution tf (F64.fin k) (F64.fin β) (distinct (docs.get ⟨i, h⟩)) t = F64.fin c1 ∧
      contribution (setIDF tf t y2) (F64.fin k) (F64.fin β) (distinct (docs.get ⟨i, h⟩)) t
        = F64.fin c2 ∧
      c1 < c2) ∧
    ((∀ u ∈ query, u ∈ docs.get ⟨i, h⟩ → ∃ xu : ℚ, 0 ≤ xu ∧ tf.TF.get u = F64.fin xu) →
      (∀ u ∈ query, u ∈ docs.get ⟨i, h⟩ → ∃ yu : ℚ, tf.IDF.get u = F64.fin yu) →
      ∃ s1 s2 : ℚ,
        scoreAt (BM25 tf query docs (F64.fin k) (F64.fin β)) i = some (F64.fin s1) ∧
        scoreAt (BM25 (setIDF tf t y2) query docs (F64.fin k) (F64.fin β)) i
          = some (F64.fin s2) ∧
        s1 < s2) := by
  have hD : 0 < (docs.get ⟨i, h⟩).toFinset.card :=
    Finset.card_pos.2 ⟨t, List.mem_toFinset.2 htd⟩
  have hden := denom_pos tf.Len tf.Docs k β x (docs.get ⟨i, h⟩).toFinset.card hDocs hLen hk
    hβ0 hβ1 hx0.le hD
  have hnum : 0 < x * (k + 1) := mul_pos hx0 (by linarith)
  have hy2 : (setIDF tf t y2).IDF.get t = F64.fin y2 := setIDF_get_self tf t y2
  have hc : y1 * (x * (k + 1)) /
        (x + k * (1 - β + β * (docs.get ⟨i, h⟩).toFinset.card / ((tf.Len : ℚ) / tf.Docs)))
      < y2 * (x * (k + 1)) /
        (x + k * (1 - β + β * (docs.get ⟨i, h⟩).toFinset.card / ((tf.Len : ℚ) / tf.Docs))) :=
    div_lt_div_of_pos_right (mul_lt_mul_of_pos_right hlt hnum) hden
  refine ⟨⟨_, _, term_fin tf k β _ t x y1 hx hy1 hDocs.ne' hLen.ne' hden.ne',
    term_fin (setIDF tf t y2) k β _ t x y2 hx hy2 hDocs.ne' hLen.ne' hden.ne', hc⟩, ?_⟩
  intro hTF hIDF
  have hcom : ∀ u ∈ common query (docs.get ⟨i, h⟩), u ∈ query ∧ u ∈ docs.get ⟨i, h⟩ :=
    fun u hu => (mem_common query _ u).1 hu
  have hIDF2 : ∀ u ∈ common query (docs.get ⟨i, h⟩),
      ∃ yu : ℚ, (setIDF tf t y2).IDF.get u = F64.fin yu := by
    intro u hu
    by_cases hut : u = t
    · exact ⟨y2, by rw [hut]; exact hy2⟩
    · obtain ⟨yu, hyu⟩ := hIDF u (hcom u hu).1 (hcom u hu).2
      exact ⟨yu, by rw [setIDF_get_ne tf t u y2 hut]; exact hyu⟩
  have e1 := scoreOf_fin tf query (docs.get ⟨i, h⟩) k β hDocs hLen hk hβ0 hβ1
    (fun u hu => hTF u (hcom u hu).1 (hcom u hu).2)
    (fun u hu => hIDF u (hcom u hu).1 (hcom u hu).2)
  have e2 := scoreOf_fin (setIDF tf t y2) query (docs.get ⟨i, h⟩) k β hDocs hLen hk hβ0 hβ1
    (fun u hu => hTF u (hcom u hu).1 (hcom u hu).2) hIDF2
  refine ⟨_, _, by rw [scoreAt_BM25 _ _ _ _ _ i h, e1], by rw [scoreAt_BM25 _ _ _ _ _ i h, e2],
    ?_⟩
  have htmem : t ∈ query.toFinset ∩ (docs.get ⟨i, h⟩).toFinset :=
    Finset.mem_inter.2 ⟨List.mem_toFinset.2 htq, List.mem_toFinset.2 htd⟩
  have hreal : ∀ (tf0 : TFIDF) (y : ℚ), tf0.TF.get t = F64.fin x → tf0.IDF.get t = F64.fin y →
      tf0.Len = tf.Len → tf0.Docs = tf.Docs →
      realContribution tf0 k β (docs.get ⟨i, h⟩).toFinset.card t
        = y * (x * (k + 1)) /
          (x + k * (1 - β + β * (docs.get ⟨i, h⟩).toFinset.card / ((tf.Len : ℚ) / tf.Docs))) := by
    intro tf0 y h1 h2 h3 h4
    simp only [realContribution, h1, h2, h3, h4, F64.toRat, mul_assoc]
  apply Finset.sum_lt_sum
  · intro u _
    by_cases hut : u = t
    · rw [hut, hreal tf y1 hx hy1 rfl rfl, hreal (setIDF tf t y2) y2 hx hy2 rfl rfl]
      exact hc.le
    · rw [realContribution_setIDF_ne tf t u y2 k β _ hut]
  · exact ⟨t, htmem, by
      rw [hreal tf y1 hx hy1 rfl rfl, hreal (setIDF tf t y2) y2 hx hy2 rfl rfl]
      exact hc⟩

/-! ## C13 in exact arithmetic: length normalisation -/

/-- The score of a document that contains `t` for the query `[t]`, as a real
number. -/
theorem scoreOf_single_eq (tf : TFIDF) (t : Int) (doc : Document) (x y k β : ℚ)
    (hTF : tf.TF.get t = F64.fin x) (hx : 0 < x) (hIDF : tf.IDF.get t = F64.fin y)
    (hDocs : 0 < tf.Docs) (hLen : 0 < tf.Len) (hk : 0 < k) (hβ0 : 0 ≤ β) (hβ1 : β ≤ 1)
    (ht : t ∈ doc) :
    scoreOf tf [t] (F64.fin k) (F64.fin β) doc
      = F64.fin (y * (x * (k + 1)) /
          (x + k * (1 - β + β * doc.toFinset.card / ((tf.Len : ℚ) / tf.Docs)))) := by
  have hD := BOW_length_pos doc t ht
  have hden := denom_pos tf.Len tf.Docs k β x (BOW doc).length hDocs hLen hk hβ0 hβ1 hx.le hD
  unfold scoreOf
  rw [common_singleton_mem t doc ht, List.map_singleton, sum_eq_list_sum, List.sum_singleton,
    term_fin tf k β (BOW doc).length t x y hTF hIDF hDocs.ne' hLen.ne' hden.ne', BOW_length]

/-- Length normalisation in exact arithmetic (no rounding): for the query of the
single term `t`, with `TF[t] > 0`, `IDF[t] > 0`, `Docs > 0`, `Len > 0`, `k1 > 0` and
`0 < b ≤ 1`, of two documents that contain `t` the one with strictly fewer
distinct term identifiers gets the strictly greater score; in particular the two
scores are distinct. -/
theorem BM25_shorter_scores_higher (tf : TFIDF) (t : Int) (docs : List Document)
    (x y k β : ℚ) (i j : Nat) (hi : i < docs.length) (hj : j < docs.length)
    (hTF : tf.TF.get t = F64.fin x) (hx : 0 < x)
    (hIDF : tf.IDF.get t = F64.fin y) (hy : 0 < y)
    (hDocs : 0 < tf.Docs) (hLen : 0 < tf.Len) (hk : 0 < k) (hβ0 : 0 < β) (hβ1 : β ≤ 1)
    (hti : t ∈ docs.get ⟨i, hi⟩) (htj : t ∈ docs.get ⟨j, hj⟩)
    (hlt : (docs.get ⟨i, hi⟩).toFinset.card < (docs.get ⟨j, hj⟩).toFinset.card) :
    ∃ si sj : ℚ,
      scoreAt (BM25 tf [t] docs (F64.fin k) (F64.fin β)) i = some (F64.fin si) ∧
      scoreAt (BM25 tf [t] docs (F64.fin k) (F64.fin β)) j = some (F64.fin sj) ∧
      sj < si ∧ F64.lt (F64.fin sj) (F64.fin si) = true ∧
      scoreAt (BM25 tf [t] docs (F64.fin k) (F64.fin β)) i
        ≠ scoreAt (BM25 tf [t] docs (F64.fin k) (F64.fin β)) j := by
  have ei := scoreOf_single_eq tf t (docs.get ⟨i, hi⟩) x y k β hTF hx hIDF hDocs hLen hk
    hβ0.le hβ1 hti
  have ej := scoreOf_single_eq tf t (docs.get ⟨j, hj⟩) x y k β hTF hx hIDF hDocs hLen hk
    hβ0.le hβ1 htj
  have hDi : 0 < (docs.get ⟨i, hi⟩).toFinset.card :=
    Finset.card_pos.2 ⟨t, List.mem_toFinset.2 hti⟩
  have hdi := denom_pos tf.Len tf.Docs k β x (docs.get ⟨i, hi⟩).toFinset.card hDocs hLen hk
    hβ0.le hβ1 hx.le hDi
  have hN1 : (0 : ℚ) < tf.Docs := by exact_mod_cast hDocs
  have hL1 : (0 : ℚ) < tf.Len := by exact_mod_cast hLen
  have havg : (0 : ℚ) < (tf.Len : ℚ) / tf.Docs := div_pos hL1 hN1
  have hcard : ((docs.get ⟨i, hi⟩).toFinset.card : ℚ) < (docs.get ⟨j, hj⟩).toFinset.card := by
    exact_mod_cast hlt
  have hquot : β * (docs.get ⟨i, hi⟩).toFinset.card / ((tf.Len : ℚ) / tf.Docs)
      < β * (docs.get ⟨j, hj⟩).toFinset.card / ((tf.Len : ℚ) / tf.Docs) :=
    div_lt_div_of_pos_right (mul_lt_mul_of_pos_left hcard hβ0) havg
  have hden : x + k * (1 - β + β * (docs.get ⟨i, hi⟩).toFinset.card / ((tf.Len : ℚ) / tf.Docs))
      < x + k * (1 - β + β * (docs.get ⟨j, hj⟩).toFinset.card / ((tf.Len : ℚ) / tf.Docs)) := by
    have := mul_lt_mul_of_pos_left (add_lt_add_left hquot (1 - β)) hk
    linarith
  have hnum : 0 < y * (x * (k + 1)) := mul_pos hy (mul_pos hx (by linarith))
  have hs := div_lt_div_of_pos_left hnum hdi hden
  refine ⟨_, _, by rw [scoreAt_BM25 _ _ _ _ _ i hi, ei], by rw [scoreAt_BM25 _ _ _ _ _ j hj, ej],
    hs, by simpa [F64.lt] using hs, ?_⟩
  rw [scoreAt_BM25 _ _ _ _ _ i hi, ei, scoreAt_BM25 _ _ _ _ _ j hj, ej]
  intro heq
  have := F64.fin.inj (Option.some.inj heq)
  exact (ne_of_gt hs) this

/-! ## C14: `Swap` -/

theorem setScore_eq (ds : DocScores) (i : Nat) (s : F64) (h : i < ds.length) :
    setScore ds i s = ds.set i ⟨(ds.get ⟨i, h⟩).ID, s⟩ := by
  simp [setScore, List.getElem?_eq_getElem h]

theorem setID_eq (ds : DocScores) (i : Nat) (id : Int) (h : i < ds.length) :
    setID ds i id = ds.set i ⟨id, (ds.get ⟨i, h⟩).Score⟩ := by
  simp [setID, List.getElem?_eq_getElem h]

/-- On valid indices `Swap` returns the slice with the elements of index `i` and
`j` exchanged. -/
theorem Swap_eq (ds : DocScores) (i j : Nat) (hi : i < ds.length) (hj : j < ds.length) :
    Swap ds i j = some ((ds.set i (ds.get ⟨j, hj⟩)).set j (ds.get ⟨i, hi⟩)) := by
  by_cases hij : i = j
  · subst hij
    simp [Swap, List.getElem?_eq_getElem hi, setScore_eq, setID_eq, hi]
  · have hji : j ≠ i := fun h => hij h.symm
    simp [Swap, List.getElem?_eq_getElem hi, List.getElem?_eq_getElem hj, setScore_eq, setID_eq,
      hi, hj, List.getElem_set, hij, hji, List.getElem?_set]
    apply List.ext_getElem?
    intro k
    simp only [List.getElem?_set, List.length_set]
    by_cases hk1 : i = k <;> by_cases hk2 : j = k <;> simp [hk1, hk2, hi, hj]

theorem set_set_perm_self (l : DocScores) (i j : Nat) (hi : i < l.length) (hj : j < l.length) :
    ((l.set i (l.get ⟨j, hj⟩)).set j (l.get ⟨i, hi⟩)).Perm l := by
  rw [List.perm_iff_count]
  intro x
  have hj1 : j < (l.set i (l.get ⟨j, hj⟩)).length := by simpa using hj
  rw [List.count_set _ _ _ _ hj1, List.count_set _ _ _ _ hi]
  have ci : l[i] = x → 0 < l.count x := fun h =>
    List.count_pos_iff.2 (h ▸ List.getElem_mem hi)
  by_cases hij : i = j
  · subst hij
    simp only [List.get_eq_getElem, List.getElem_set_self, beq_iff_eq]
    split_ifs with h1
    all_goals try omega
    all_goals
      have hc := ci (by assumption)
      omega
  · simp only [List.get_eq_getElem, List.getElem_set_ne hij, beq_iff_eq]
    split_ifs with h1 h2 h2
    all_goals try omega
    all_goals
      have hc := ci (by assumption)
      omega

theorem Swaps_perm : ∀ (l : List (Nat × Nat)) (ds : DocScores),
    (∀ p ∈ l, p.1 < ds.length ∧ p.2 < ds.length) →
    ∃ ds1, Swaps ds l = some ds1 ∧ ds1.Perm ds
  | [], ds, _ => ⟨ds, rfl, List.Perm.refl ds⟩
  | p :: rest, ds, h => by
    obtain ⟨hp1, hp2⟩ := h p (List.mem_cons_self p rest)
    have hperm := set_set_perm_self ds p.1 p.2 hp1 hp2
    obtain ⟨ds1, h1, h2⟩ := Swaps_perm rest _ (fun q hq => by
      rw [hperm.length_eq]
      exact h q (List.mem_cons_of_mem p hq))
    exact ⟨ds1, by simp only [Swaps, Swap_eq ds p.1 p.2 hp1 hp2, Option.some_bind, h1],
      h2.trans hperm⟩

/-- C14: for valid indices `i`, `j`, `Swap(i, j)` returns; afterwards the element
at `i` is the former element at `j` (ID and Score together), the element at `j`
is the former element at `i`, every other element and the length are unchanged;
the slice is a permutation of the original, and so is the slice after any
sequence of calls of `Swap` on valid indices; a second `Swap(i, j)` restores the
slice. -/
theorem Swap_spec (ds : DocScores) (i j : Nat) (hi : i < ds.length) (hj : j < ds.length) :
    ∃ ds1, Swap ds i j = some ds1 ∧ ds1.length = ds.length ∧
      ds1.get? i = ds.get? j ∧ ds1.get? j = ds.get? i ∧
      (∀ k, k ≠ i → k ≠ j → ds1.get? k = ds.get? k) ∧
      ds1.Perm ds ∧ Swap ds1 i j = some ds ∧
      (∀ l : List (Nat × Nat), (∀ p ∈ l, p.1 < ds.length ∧ p.2 < ds.length) →
        ∃ ds2, Swaps ds l = some ds2 ∧ ds2.Perm ds) := by
  refine ⟨_, Swap_eq ds i j hi hj, by simp, ?_, ?_, ?_, set_set_perm_self ds i j hi hj, ?_,
    fun l hl => Swaps_perm l ds hl⟩
  · rw [List.get?_eq_getElem?, List.get?_eq_getElem?, List.getElem?_set, List.getElem?_set,
      List.getElem?_eq_getElem hj]
    by_cases hij : i = j
    · subst hij
      simp [hi]
    · simp [hij, Ne.symm hij, hi]
  · rw [List.get?_eq_getElem?, List.get?_eq_getElem?, List.getElem?_set,
      List.getElem?_eq_getElem hi]
    simp [hj]
  · intro k hk1 hk2
    simp [List.getElem?_set, Ne.symm hk1, Ne.symm hk2]
  · rw [Swap_eq _ i j (by simpa using hi) (by simpa using hj)]
    congr 1
    apply List.ext_getElem?
    intro k
    simp only [List.getElem?_set, List.length_set, List.get_eq_getElem, List.getElem_set]
    by_cases hk1 : i = k
    · subst hk1
      by_cases hk2 : j = i
      · subst hk2
        simp [hi, List.getElem?_eq_getElem hi]
      · simp [hk2, hi, hj, List.getElem?_eq_getElem hi]
    · by_cases hk2 : j = k
      · subst hk2
        simp [hk1, hj, List.getElem?_eq_getElem hj]
        exact fun h => absurd h.symm hk1
      · simp [hk1, hk2]

/-- C14 on a slice of three entries, `Swap(0, 2)`. -/
theorem Swap_spec_witness :
    ((0 : Nat) < ([⟨0, F64.fin 1⟩, ⟨1, F64.fin 3⟩, ⟨2, F64.fin 2⟩] : DocScores).length ∧
      (2 : Nat) < ([⟨0, F64.fin 1⟩, ⟨1, F64.fin 3⟩, ⟨2, F64.fin 2⟩] : DocScores).length) ∧
    ∃ ds1, Swap [⟨0, F64.fin 1⟩, ⟨1, F64.fin 3⟩, ⟨2, F64.fin 2⟩] 0 2 = some ds1 ∧
      ds1.length = ([⟨0, F64.fin 1⟩, ⟨1, F64.fin 3⟩, ⟨2, F64.fin 2⟩] : DocScores).length ∧
      ds1.get? 0 = ([⟨0, F64.fin 1⟩, ⟨1, F64.fin 3⟩, ⟨2, F64.fin 2⟩] : DocScores).get? 2 ∧
      ds1.get? 2 = ([⟨0, F64.fin 1⟩, ⟨1, F64.fin 3⟩, ⟨2, F64.fin 2⟩] : DocScores).get? 0 ∧
      (∀ k, k ≠ 0 → k ≠ 2 →
        ds1.get? k = ([⟨0, F64.fin 1⟩, ⟨1, F64.fin 3⟩, ⟨2, F64.fin 2⟩] : DocScores).get? k) ∧
      ds1.Perm [⟨0, F64.fin 1⟩, ⟨1, F64.fin 3⟩, ⟨2, F64.fin 2⟩] ∧
      Swap ds1 0 2 = some [⟨0, F64.fin 1⟩, ⟨1, F64.fin 3⟩, ⟨2, F64.fin 2⟩] ∧
      (∀ l : List (Nat × Nat),
        (∀ p ∈ l,
          p.1 < ([⟨0, F64.fin 1⟩, ⟨1, F64.fin 3⟩, ⟨2, F64.fin 2⟩] : DocScores).length ∧
          p.2 < ([⟨0, F64.fin 1⟩, ⟨1, F64.fin 3⟩, ⟨2, F64.fin 2⟩] : DocScores).length) →
        ∃ ds2, Swaps [⟨0, F64.fin 1⟩, ⟨1, F64.fin 3⟩, ⟨2, F64.fin 2⟩] l = some ds2 ∧
          ds2.Perm [⟨0, F64.fin 1⟩, ⟨1, F64.fin 3⟩, ⟨2, F64.fin 2⟩]) :=
  ⟨⟨by decide, by decide⟩,
    Swap_spec [⟨0, F64.fin 1⟩, ⟨1, F64.fin 3⟩, ⟨2, F64.fin 2⟩] 0 2 (by decide) (by decide)⟩

/-! ## C16: `Less` -/

namespace F64

theorem lt_irrefl_F64 (x : F64) : lt x x = false := by
  cases x <;> simp [lt]

theorem lt_asymm_F64 (x y : F64) (h : lt x y = true) : lt y x = false := by
  cases x <;> cases y <;> simp_all [lt]
  exact le_of_lt h

theorem lt_trans_F64 (x y z : F64) (h1 : lt x y = true) (h2 : lt y z = true) :
    lt x z = true := by
  cases x <;> cases y <;> cases z <;> simp_all [lt]
  exact lt_trans h1 h2

end F64

theorem Less_eq (ds : DocScores) (i j : Nat) (hi : i < ds.length) (hj : j < ds.length) :
    Less ds i j = some (F64.lt (ds.get ⟨i, hi⟩).Score (ds.get ⟨j, hj⟩).Score) := by
  simp [Less, List.getElem?_eq_getElem hi, List.getElem?_eq_getElem hj]

/-- C16: for valid indices, `Less(i, j)` returns the comparison of the two scores
and nothing else: it is the same for any slice with the same scores, whatever the
IDs; on real scores it is true exactly when `ds[i].Score < ds[j].Score`; it is
irreflexive, asymmetric and transitive, and two entries with equal scores are
`Less` in neither direction. -/
theorem Less_spec (ds : DocScores) (i j k : Nat) (hi : i < ds.length) (hj : j < ds.length)
    (hk : k < ds.length) :
    Less ds i j = some (F64.lt (ds.get ⟨i, hi⟩).Score (ds.get ⟨j, hj⟩).Score) ∧
    (∀ ds1 : DocScores, ds1.map DocScore.Score = ds.map DocScore.Score →
      Less ds1 i j = Less ds i j) ∧
    (∀ x y : ℚ, (ds.get ⟨i, hi⟩).Score = F64.fin x → (ds.get ⟨j, hj⟩).Score = F64.fin y →
      (Less ds i j = some true ↔ x < y)) ∧
    Less ds i i = some false ∧
    (Less ds i j = some true → Less ds j i = some false) ∧
    (Less ds i j = some true → Less ds j k = some true → Less ds i k = some true) ∧
    ((ds.get ⟨i, hi⟩).Score = (ds.get ⟨j, hj⟩).Score →
      Less ds i j = some false ∧ Less ds j i = some false) := by
  refine ⟨Less_eq ds i j hi hj, ?_, ?_, ?_, ?_, ?_, ?_⟩
  · intro ds1 hmap
    have hlen : ds1.length = ds.length := by
      simpa using congrArg List.length hmap
    have hsc : ∀ (n : Nat) (h1 : n < ds1.length) (h2 : n < ds.length),
        (ds1.get ⟨n, h1⟩).Score = (ds.get ⟨n, h2⟩).Score := by
      intro n h1 h2
      have := congrArg (fun l => l[n]?) hmap
      simpa [List.getElem?_map, List.getElem?_eq_getElem h1, List.getElem?_eq_getElem h2]
        using this
    rw [Less_eq ds i j hi hj, Less_eq ds1 i j (hlen ▸ hi) (hlen ▸ hj), hsc i _ hi, hsc j _ hj]
  · intro x y hx hy
    rw [Less_eq ds i j hi hj, hx, hy]
    simp [F64.lt]
  · rw [Less_eq ds i i hi hi, F64.lt_irrefl_F64]
  · intro h
    rw [Less_eq ds i j hi hj] at h
    rw [Less_eq ds j i hj hi, F64.lt_asymm_F64 _ _ (Option.some.inj h)]
  · intro h1 h2
    rw [Less_eq ds i j hi hj] at h1
    rw [Less_eq ds j k hj hk] at h2
    rw [Less_eq ds i k hi hk, F64.lt_trans_F64 _ _ _ (Option.some.inj h1) (Option.some.inj h2)]
  · intro h
    rw [Less_eq ds i j hi hj, Less_eq ds j i hj hi, h, F64.lt_irrefl_F64]
    exact ⟨rfl, rfl⟩

/-- C16 on a slice of three entries of which two have the same score. -/
theorem Less_spec_witness :
    ((0 : Nat) < ([⟨7, F64.fin 1⟩, ⟨1, F64.fin 3⟩, ⟨2, F64.fin 1⟩] : DocScores).length ∧
      (1 : Nat) < ([⟨7, F64.fin 1⟩, ⟨1, F64.fin 3⟩, ⟨2, F64.fin 1⟩] : DocScores).length ∧
      (2 : Nat) < ([⟨7, F64.fin 1⟩, ⟨1, F64.fin 3⟩, ⟨2, F64.fin 1⟩] : DocScores).length) ∧
    Less [⟨7, F64.fin 1⟩, ⟨1, F64.fin 3⟩, ⟨2, F64.fin 1⟩] 0 1
      = some (F64.lt
          (([⟨7, F64.fin 1⟩, ⟨1, F64.fin 3⟩, ⟨2, F64.fin 1⟩] : DocScores).get
            ⟨0, by decide⟩).Score
          (([⟨7, F64.fin 1⟩, ⟨1, F64.fin 3⟩, ⟨2, F64.fin 1⟩] : DocScores).get
            ⟨1, by decide⟩).Score) ∧
    Less [⟨7, F64.fin 1⟩, ⟨1, F64.fin 3⟩, ⟨2, F64.fin 1⟩] 0 0 = some false :=
  ⟨⟨by decide, by decide, by decide⟩,
    (Less_spec [⟨7, F64.fin 1⟩, ⟨1, F64.fin 3⟩, ⟨2, F64.fin 1⟩] 0 1 2 (by decide) (by decide)
      (by decide)).1,
    (Less_spec [⟨7, F64.fin 1⟩, ⟨1, F64.fin 3⟩, ⟨2, F64.fin 1⟩] 0 1 2 (by decide) (by decide)
      (by decide)).2.2.2.1⟩

/-! ## C15: the length used for normalisation -/

theorem scoreOf_congr (tf : TFIDF) (query : Document) (k1 b : F64) (d1 d2 : Document)
    (h : d1.toFinset = d2.toFinset) : scoreOf tf query k1 b d1 = scoreOf tf query k1 b d2 := by
  unfold scoreOf common
  rw [BOW_congr h]

/-- C15: the score of a document is the sum, over the distinct identifiers common
to the query and the document, of the contribution taken with `D`, the number of
distinct identifiers of the document, as document length; so two documents with
the same set of distinct identifiers get the same score.  Over real inputs with
`Docs > 0`, `Len > 0`, `k1 > 0`, `0 ≤ b ≤ 1` and nonnegative frequency weights
the score is the real number
`Σ IDF[t] * TF[t] * (k1 + 1) / (TF[t] + k1 * (1 - b + b * D / (Len / Docs)))`. -/
theorem BM25_distinct_length (tf : TFIDF) (query : Document) (docs : List Document)
    (k1 b : F64) (i j : Nat) (hi : i < docs.length) (hj : j < docs.length) :
    scoreAt (BM25 tf query docs k1 b) i
      = some (∑ t ∈ query.toFinset ∩ (docs.get ⟨i, hi⟩).toFinset,
          contribution tf k1 b (F64.ofInt (docs.get ⟨i, hi⟩).toFinset.card) t) ∧
    ((docs.get ⟨i, hi⟩).toFinset = (docs.get ⟨j, hj⟩).toFinset →
      scoreAt (BM25 tf query docs k1 b) i = scoreAt (BM25 tf query docs k1 b) j) ∧
    (∀ k β : ℚ, k1 = F64.fin k → b = F64.fin β →
      0 < tf.Docs → 0 < tf.Len → 0 < k → 0 ≤ β → β ≤ 1 →
      (∀ t ∈ query, t ∈ docs.get ⟨i, hi⟩ → ∃ x : ℚ, 0 ≤ x ∧ tf.TF.get t = F64.fin x) →
      (∀ t ∈ query, t ∈ docs.get ⟨i, hi⟩ → ∃ y : ℚ, tf.IDF.get t = F64.fin y) →
      scoreAt (BM25 tf query docs k1 b) i
        = some (F64.fin (∑ t ∈ query.toFinset ∩ (docs.get ⟨i, hi⟩).toFinset,
            realContribution tf k β (docs.get ⟨i, hi⟩).toFinset.card t))) := by
  refine ⟨BM25_score_distinct_aux tf query docs k1 b i hi, ?_, ?_⟩
  · intro hset
    rw [scoreAt_BM25 _ _ _ _ _ i hi, scoreAt_BM25 _ _ _ _ _ j hj,
      scoreOf_congr tf query k1 b _ _ hset]
  · intro k β hk1 hb hDocs hLen hk hβ0 hβ1 hTF hIDF
    subst hk1 hb
    rw [scoreAt_BM25 _ _ _ _ _ i hi]
    exact congrArg some (scoreOf_fin tf query _ k β hDocs hLen hk hβ0 hβ1
      (fun t ht => hTF t ((mem_common query _ t).1 ht).1 ((mem_common query _ t).1 ht).2)
      (fun t ht => hIDF t ((mem_common query _ t).1 ht).1 ((mem_common query _ t).1 ht).2))

/-- C15 on the documents `[1, 1, 2]` and `[2, 1]`, which have the same two
distinct identifiers. -/
theorem BM25_distinct_length_witness :
    ((0 : Nat) < [[(1 : Int), 1, 2], [2, 1]].length ∧
      (1 : Nat) < [[(1 : Int), 1, 2], [2, 1]].length ∧
      ([[(1 : Int), 1, 2], [2, 1]].get ⟨0, by decide⟩).toFinset
        = ([[(1 : Int), 1, 2], [2, 1]].get ⟨1, by decide⟩).toFinset) ∧
    scoreAt (BM25 stats1 [1] [[1, 1, 2], [2, 1]] (F64.fin (3 / 2)) (F64.fin (3 / 4))) 0
      = some (∑ t ∈ ([1] : List Int).toFinset ∩
            ([[(1 : Int), 1, 2], [2, 1]].get ⟨0, by decide⟩).toFinset,
          contribution stats1 (F64.fin (3 / 2)) (F64.fin (3 / 4))
            (F64.ofInt ([[(1 : Int), 1, 2], [2, 1]].get ⟨0, by decide⟩).toFinset.card) t) ∧
    scoreAt (BM25 stats1 [1] [[1, 1, 2], [2, 1]] (F64.fin (3 / 2)) (F64.fin (3 / 4))) 0
      = scoreAt (BM25 stats1 [1] [[1, 1, 2], [2, 1]] (F64.fin (3 / 2)) (F64.fin (3 / 4))) 1 := by
  have H := BM25_distinct_length stats1 [1] [[1, 1, 2], [2, 1]] (F64.fin (3 / 2))
    (F64.fin (3 / 4)) 0 1 (by decide) (by decide)
  exact ⟨⟨by decide, by decide, by decide⟩, H.1, H.2.1 (by decide)⟩

/-! ## C17: disjoint queries -/

/-- C17: when the queries `q1` and `q2` have no term identifier in common, the
score of every document under `q1 ++ q2` is the sum of its scores under `q1` and
under `q2`, for every statistics value, `k1`, `b` and document list. -/
theorem BM25_disjoint_queries_add (tf : TFIDF) (q1 q2 : Document) (docs : List Document)
    (k1 b : F64) (i : Nat) (hi : i < docs.length) (hdisj : ∀ t ∈ q1, t ∉ q2) :
    ∃ s1 s2 : F64,
      scoreAt (BM25 tf q1 docs k1 b) i = some s1 ∧
      scoreAt (BM25 tf q2 docs k1 b) i = some s2 ∧
      scoreAt (BM25 tf (q1 ++ q2) docs k1 b) i = some (s1 + s2) := by
  refine ⟨_, _, scoreAt_BM25 tf q1 docs k1 b i hi, scoreAt_BM25 tf q2 docs k1 b i hi, ?_⟩
  rw [scoreAt_BM25 tf (q1 ++ q2) docs k1 b i hi]
  congr 1
  rw [scoreOf_eq_finset_sum, scoreOf_eq_finset_sum, scoreOf_eq_finset_sum, List.toFinset_append,
    Finset.union_inter_distrib_right]
  apply Finset.sum_union
  rw [Finset.disjoint_left]
  intro t h1 h2
  exact hdisj t (List.mem_toFinset.1 (Finset.mem_inter.1 h1).1)
    (List.mem_toFinset.1 (Finset.mem_inter.1 h2).1)

/-- C17 on the queries `[1]` and `[5, 2]`. -/
theorem BM25_disjoint_queries_add_witness :
    ((0 : Nat) < [[(1 : Int), 5, 5]].length ∧ ∀ t ∈ [(1 : Int)], t ∉ [(5 : Int), 2]) ∧
    ∃ s1 s2 : F64,
      scoreAt (BM25 stats1 [1] [[1, 5, 5]] (F64.fin (3 / 2)) (F64.fin (3 / 4))) 0 = some s1 ∧
      scoreAt (BM25 stats1 [5, 2] [[1, 5, 5]] (F64.fin (3 / 2)) (F64.fin (3 / 4))) 0 = some s2 ∧
      scoreAt (BM25 stats1 ([1] ++ [5, 2]) [[1, 5, 5]] (F64.fin (3 / 2)) (F64.fin (3 / 4))) 0
        = some (s1 + s2) :=
  ⟨⟨by decide, by decide⟩,
    BM25_disjoint_queries_add stats1 [1] [5, 2] [[1, 5, 5]] (F64.fin (3 / 2)) (F64.fin (3 / 4)) 0
      (by decide) (by decide)⟩

/-! ## C18 in exact arithmetic: the saturation bound -/

/-- The bound of C18 fails in exact arithmetic too when `Len = 0` is allowed: the
score need not be bounded, it can be `NaN`.  For the statistics `statsLenZero` (`TF[1] = IDF[1] = 1`,
`Docs = 1`, `Len = 0`), the query `[1]`, the document `[1]`, `k1 = 1.5` and
`b = 0` the quotient `b * docLen / avgLen` is `0 / 0`, the score is `NaN`, and
`NaN <= 2.5` is false. -/
theorem BM25_saturation_false :
    ¬ ∀ (tf : TFIDF) (query : Document) (docs : List Document) (k β : ℚ) (i : Nat)
        (h : i < docs.length),
        0 < tf.Docs → 0 ≤ tf.Len → 0 ≤ k → 0 ≤ β → β ≤ 1 →
        (∀ t, ∃ x : ℚ, 0 ≤ x ∧ tf.TF.get t = F64.fin x) →
        (∀ t, ∃ y : ℚ, 0 ≤ y ∧ tf.IDF.get t = F64.fin y) →
        ∃ s : F64, scoreAt (BM25 tf query docs (F64.fin k) (F64.fin β)) i = some s ∧
          F64.le s (F64.fin ((k + 1) *
            ∑ t ∈ query.toFinset ∩ (docs.get ⟨i, h⟩).toFinset, (tf.IDF.get t).toRat)) = true := by
  intro H
  have hTF : ∀ t, ∃ x : ℚ, 0 ≤ x ∧ statsLenZero.TF.get t = F64.fin x := by
    intro t
    by_cases ht : t = 1
    · exact ⟨1, zero_le_one, by simp [statsLenZero, FloatMap.get, ht]⟩
    · exact ⟨0, le_refl _, by simp [statsLenZero, FloatMap.get, ht]⟩
  have hIDF : ∀ t, ∃ y : ℚ, 0 ≤ y ∧ statsLenZero.IDF.get t = F64.fin y := by
    intro t
    by_cases ht : t = 1
    · exact ⟨1, zero_le_one, by simp [statsLenZero, FloatMap.get, ht]⟩
    · exact ⟨0, le_refl _, by simp [statsLenZero, FloatMap.get, ht]⟩
  obtain ⟨s, hs, hle⟩ := H statsLenZero [1] [[1]] (3 / 2) 0 0 (by decide) (by decide)
    (by decide) (by norm_num) (le_refl _) (by norm_num) hTF hIDF
  have hval : scoreAt (BM25 statsLenZero [1] [[1]] (F64.fin (3 / 2)) (F64.fin 0)) 0
      = some F64.nan := by
    simp [scoreAt, BM25, scoresOf, step, BOW, Uniq, Inter, copy, collect, sum, term,
      statsLenZero, FloatMap.get, F64.fin_div_fin_if]
  rw [hval] at hs
  rw [← Option.some.inj hs] at hle
  simp [F64.le] at hle

/-- The real contribution of a term is at most `(k1 + 1) * IDF[t]`. -/
theorem realContribution_le (tf : TFIDF) (k β : ℚ) (D : Nat) (t : Int) (x y : ℚ)
    (hDocs : 0 < tf.Docs) (hLen : 0 < tf.Len) (hk : 0 < k) (hβ0 : 0 ≤ β) (hβ1 : β ≤ 1)
    (hD : 0 < D) (hx : tf.TF.get t = F64.fin x) (hx0 : 0 ≤ x)
    (hy : tf.IDF.get t = F64.fin y) (hy0 : 0 ≤ y) :
    realContribution tf k β D t ≤ (k + 1) * y := by
  have hden := denom_pos tf.Len tf.Docs k β x D hDocs hLen hk hβ0 hβ1 hx0 hD
  have hden0 := denom_pos tf.Len tf.Docs k β 0 D hDocs hLen hk hβ0 hβ1 (le_refl _) hD
  simp only [realContribution, hx, hy, F64.toRat]
  rw [div_le_iff₀ hden]
  have h1 : x ≤ x + k * (1 - β + β * D / ((tf.Len : ℚ) / tf.Docs)) := by linarith
  have h2 : 0 ≤ (k + 1) * y := mul_nonneg (by linarith) hy0
  calc y * x * (k + 1) = (k + 1) * y * x := by ring
    _ ≤ (k + 1) * y * (x + k * (1 - β + β * D / ((tf.Len : ℚ) / tf.Docs))) :=
        mul_le_mul_of_nonneg_left h1 h2

/-- The saturation bound in exact arithmetic (no rounding, no overflow): with
`Docs > 0`,
`Len > 0`, `k1 > 0`, `0 ≤ b ≤ 1` and
nonnegative real `TF[t]`, `IDF[t]` for every term, each common term contributes
a real number that is at most `(k1 + 1) * IDF[t]`, and the score of a document is
a real number that is at most `(k1 + 1)` times the sum of `IDF[t]` over the
distinct terms common to the query and the document. -/
theorem BM25_saturation (tf : TFIDF) (query : Document) (docs : List Document) (k β : ℚ)
    (i : Nat) (h : i < docs.length)
    (hDocs : 0 < tf.Docs) (hLen : 0 < tf.Len) (hk : 0 < k) (hβ0 : 0 ≤ β) (hβ1 : β ≤ 1)
    (hTF : ∀ t, ∃ x : ℚ, 0 ≤ x ∧ tf.TF.get t = F64.fin x)
    (hIDF : ∀ t, ∃ y : ℚ, 0 ≤ y ∧ tf.IDF.get t = F64.fin y) :
    (∀ t ∈ query, t ∈ docs.get ⟨i, h⟩ →
      ∃ c : ℚ, contribution tf (F64.fin k) (F64.fin β) (distinct (docs.get ⟨i, h⟩)) t
          = F64.fin c ∧ c ≤ (k + 1) * (tf.IDF.get t).toRat) ∧
    ∃ s : ℚ, scoreAt (BM25 tf query docs (F64.fin k) (F64.fin β)) i = some (F64.fin s) ∧
      s ≤ (k + 1) *
        ∑ t ∈ query.toFinset ∩ (docs.get ⟨i, h⟩).toFinset, (tf.IDF.get t).toRat := by
  have hle : ∀ t, t ∈ docs.get ⟨i, h⟩ →
      realContribution tf k β (docs.get ⟨i, h⟩).toFinset.card t
        ≤ (k + 1) * (tf.IDF.get t).toRat := by
    intro t htd
    obtain ⟨x, hx0, hx⟩ := hTF t
    obtain ⟨y, hy0, hy⟩ := hIDF t
    have hD : 0 < (docs.get ⟨i, h⟩).toFinset.card :=
      Finset.card_pos.2 ⟨t, List.mem_toFinset.2 htd⟩
    have := realContribution_le tf k β _ t x y hDocs hLen hk hβ0 hβ1 hD hx hx0 hy hy0
    simpa [hy, F64.toRat] using this
  constructor
  · intro t _ htd
    obtain ⟨x, hx0, hx⟩ := hTF t
    obtain ⟨y, hy0, hy⟩ := hIDF t
    have hD : 0 < (docs.get ⟨i, h⟩).toFinset.card :=
      Finset.card_pos.2 ⟨t, List.mem_toFinset.2 htd⟩
    have hden := denom_pos tf.Len tf.Docs k β x _ hDocs hLen hk hβ0 hβ1 hx0 hD
    refine ⟨_, term_fin tf k β _ t x y hx hy hDocs.ne' hLen.ne' hden.ne', ?_⟩
    have := hle t htd
    simpa only [realContribution, hx, hy, F64.toRat, mul_assoc] using this
  · refine ⟨∑ t ∈ query.toFinset ∩ (docs.get ⟨i, h⟩).toFinset,
        realContribution tf k β (docs.get ⟨i, h⟩).toFinset.card t, ?_, ?_⟩
    · rw [scoreAt_BM25 _ _ _ _ _ i h]
      exact congrArg some (scoreOf_fin tf query _ k β hDocs hLen hk hβ0 hβ1
        (fun t _ => hTF t) (fun t _ => (hIDF t).imp (fun _ hy => hy.2)))
    · rw [Finset.mul_sum]
      apply Finset.sum_le_sum
      intro t ht
      exact hle t (List.mem_toFinset.1 (Finset.mem_inter.1 ht).2)

/-! ## C19: `b = 0` -/

namespace F64

theorem mul_one_F64 (x : F64) : x * fin 1 = x := by
  show mul x (fin 1) = x
  cases x <;> simp [mul, infTimes]

theorem zero_div_of_ne (a : F64) (h0 : a ≠ fin 0) (hn : a ≠ nan) : fin 0 / a = fin 0 := by
  show div (fin 0) a = fin 0
  cases a with
  | fin y =>
    have hy : y ≠ 0 := fun h => h0 (by rw [h])
    simp [div, hy]
  | pinf => rfl
  | ninf => rfl
  | nan => exact absurd rfl hn

/-- The average length of a corpus of nonzero length is neither 0 nor `NaN`. -/
theorem avgLen_ne (L N : Int) (hL : L ≠ 0) :
    ofInt L / ofInt N ≠ fin 0 ∧ ofInt L / ofInt N ≠ nan := by
  have hL1 : (L : ℚ) ≠ 0 := by exact_mod_cast hL
  by_cases hN : (N : ℚ) = 0
  · simp only [ofInt_eq, fin_div_fin_if, hN, if_true, hL1, if_false]
    split_ifs <;> simp
  · simp only [ofInt_eq, fin_div_fin_if, hN, if_false]
    exact ⟨fun h => div_ne_zero hL1 hN (F64.fin.inj h), fun h => F64.noConfusion h⟩

end F64

/-- With `b = 0` and a corpus of nonzero length, the value the inner loop appends
for a term is the formula without document length. -/
theorem term_b_zero (tf : TFIDF) (k1 : F64) (D : Int) (t : Int) (hL : tf.Len ≠ 0) :
    term tf k1 (F64.fin 0) (F64.ofInt D) (F64.ofInt tf.Len / F64.ofInt tf.Docs) t
      = contributionNoLength tf k1 t := by
  obtain ⟨h0, hn⟩ := F64.avgLen_ne tf.Len tf.Docs hL
  have h1 : F64.fin 0 * F64.ofInt D / (F64.ofInt tf.Len / F64.ofInt tf.Docs) = F64.fin 0 := by
    rw [F64.ofInt_eq D, F64.fin_mul_fin, zero_mul]
    exact F64.zero_div_of_ne _ h0 hn
  simp only [term, contributionNoLength, h1, F64.one_eq, F64.fin_sub_fin, F64.fin_add_fin,
    sub_zero, add_zero, F64.mul_one_F64]

theorem scoreOf_b_zero (tf : TFIDF) (query : Document) (k1 : F64) (doc : Document)
    (hL : tf.Len ≠ 0) :
    scoreOf tf query k1 (F64.fin 0) doc
      = ∑ t ∈ query.toFinset ∩ doc.toFinset, contributionNoLength tf k1 t := by
  rw [scoreOf_eq_finset_sum]
  exact Finset.sum_congr rfl (fun t _ => term_b_zero tf k1 _ t hL)

/-- C19, refuted as stated: with `b = 0` the score still depends on `Len`.  For
the statistics `statsLenZero` (`TF[1] = IDF[1] = 1`, `Docs = 1`, `Len = 0`), the
query `[1]`, the document `[1]` and `k1 = 1.5` the quotient `b * docLen / avgLen`
is `0 / 0`, so the score is `NaN`, where the formula
`IDF * TF * (k1 + 1) / (TF + k1)` gives 1. -/
theorem BM25_b_zero_false :
    ¬ ∀ (tf : TFIDF) (query : Document) (docs : List Document) (k1 : F64) (i : Nat)
        (h : i < docs.length),
        scoreAt (BM25 tf query docs k1 (F64.fin 0)) i
          = some (∑ t ∈ query.toFinset ∩ (docs.get ⟨i, h⟩).toFinset,
              contributionNoLength tf k1 t) := by
  intro H
  have h1 := H statsLenZero [1] [[1]] (F64.fin (3 / 2)) 0 (by decide)
  have hval : scoreAt (BM25 statsLenZero [1] [[1]] (F64.fin (3 / 2)) (F64.fin 0)) 0
      = some F64.nan := by
    simp [scoreAt, BM25, scoresOf, step, BOW, Uniq, Inter, copy, collect, sum, term,
      statsLenZero, FloatMap.get, F64.fin_div_fin_if]
  have hform : (∑ t ∈ ([1] : List Int).toFinset ∩
        (([[1]] : List Document).get ⟨0, by decide⟩).toFinset,
      contributionNoLength statsLenZero (F64.fin (3 / 2)) t) = F64.fin 1 := by
    simp [contributionNoLength, statsLenZero, FloatMap.get, F64.fin_div_fin_if]
    norm_num
  rw [hval, hform] at h1
  exact F64.noConfusion (Option.some.inj h1)

/-- C19, amended: with `b = 0` and `Len ≠ 0`, for every statistics value, query,
`k1` and document, the score is the sum over the distinct common terms of
`IDF[t] * TF[t] * (k1 + 1) / (TF[t] + k1)`; it is the same for any other
statistics value with the same `TF` and `IDF` and a nonzero `Len`, whatever
`Docs`, and two documents with the same set of terms in common with the query
get equal scores, whatever their lengths. -/
theorem BM25_b_zero (tf : TFIDF) (query : Document) (docs : List Document) (k1 : F64)
    (i j : Nat) (hi : i < docs.length) (hj : j < docs.length) (hL : tf.Len ≠ 0) :
    scoreAt (BM25 tf query docs k1 (F64.fin 0)) i
      = some (∑ t ∈ query.toFinset ∩ (docs.get ⟨i, hi⟩).toFinset,
          contributionNoLength tf k1 t) ∧
    (∀ tf1 : TFIDF, tf1.TF = tf.TF → tf1.IDF = tf.IDF → tf1.Len ≠ 0 →
      scoreAt (BM25 tf1 query docs k1 (F64.fin 0)) i
        = scoreAt (BM25 tf query docs k1 (F64.fin 0)) i) ∧
    (query.toFinset ∩ (docs.get ⟨i, hi⟩).toFinset
        = query.toFinset ∩ (docs.get ⟨j, hj⟩).toFinset →
      scoreAt (BM25 tf query docs k1 (F64.fin 0)) i
        = scoreAt (BM25 tf query docs k1 (F64.fin 0)) j) := by
  have hsc : ∀ (tf0 : TFIDF) (n : Nat) (hn : n < docs.length), tf0.Len ≠ 0 →
      scoreAt (BM25 tf0 query docs k1 (F64.fin 0)) n
        = some (∑ t ∈ query.toFinset ∩ (docs.get ⟨n, hn⟩).toFinset,
            contributionNoLength tf0 k1 t) := by
    intro tf0 n hn h0
    rw [scoreAt_BM25 _ _ _ _ _ n hn, scoreOf_b_zero tf0 query k1 _ h0]
  refine ⟨hsc tf i hi hL, ?_, ?_⟩
  · intro tf1 hTF hIDF hL1
    rw [hsc tf1 i hi hL1, hsc tf i hi hL]
    simp only [contributionNoLength, hTF, hIDF]
  · intro hcom
    rw [hsc tf i hi hL, hsc tf j hj hL, hcom]

/-- C19, amended, on the statistics `stats1`: the documents `[1, 5, 5, 7]` and
`[1]` have the term 1 in common with the query `[1, 2]` and get the same
score. -/
theorem BM25_b_zero_witness :
    ((0 : Nat) < [[(1 : Int), 5, 5, 7], [1]].length ∧
      (1 : Nat) < [[(1 : Int), 5, 5, 7], [1]].length ∧ stats1.Len ≠ 0 ∧
      ([1, 2] : List Int).toFinset ∩ ([[(1 : Int), 5, 5, 7], [1]].get ⟨0, by decide⟩).toFinset
        = ([1, 2] : List Int).toFinset ∩
            ([[(1 : Int), 5, 5, 7], [1]].get ⟨1, by decide⟩).toFinset) ∧
    scoreAt (BM25 stats1 [1, 2] [[1, 5, 5, 7], [1]] (F64.fin (3 / 2)) (F64.fin 0)) 0
      = some (∑ t ∈ ([1, 2] : List Int).toFinset ∩
            ([[(1 : Int), 5, 5, 7], [1]].get ⟨0, by decide⟩).toFinset,
          contributionNoLength stats1 (F64.fin (3 / 2)) t) ∧
    scoreAt (BM25 stats1 [1, 2] [[1, 5, 5, 7], [1]] (F64.fin (3 / 2)) (F64.fin 0)) 0
      = scoreAt (BM25 stats1 [1, 2] [[1, 5, 5, 7], [1]] (F64.fin (3 / 2)) (F64.fin 0)) 1 := by
  have H := BM25_b_zero stats1 [1, 2] [[1, 5, 5, 7], [1]] (F64.fin (3 / 2)) 0 1 (by decide)
    (by decide) (by decide)
  exact ⟨⟨by decide, by decide, by decide, by decide⟩, H.1, H.2.2 (by decide)⟩

/-! ## The loop of `BM25` over binary64 -/

namespace IEEE

theorem ieee_step_eq (tf : TFIDF) (query : Document) (k1 b : B64) (scores : List B64)
    (doc : Document) :
    step tf k1 b (BOW query) (B64.ofInt tf.Len / B64.ofInt tf.Docs) (BOW query, scores) doc
      = (BOW query, scores ++ [scoreOf tf query k1 b doc]) := by
  have hlen := filter_length_add (BOW query) (fun x => decide (x ∈ BOW doc))
  simp only [step, Inter_append, List.append_assoc, List.take_left]
  refine Prod.ext ?_ ?_
  · apply reset_eq
    rw [← List.append_assoc, List.length_append, hlen]
    exact Nat.le_add_right _ _
  · simp only [foldl_append_singleton, List.nil_append, scoreOf, common]

theorem ieee_foldl_step (tf : TFIDF) (query : Document) (k1 b : B64) :
    ∀ (docs : List Document) (scores : List B64),
      docs.foldl (step tf k1 b (BOW query) (B64.ofInt tf.Len / B64.ofInt tf.Docs))
          (BOW query, scores)
        = (BOW query, scores ++ docs.map (scoreOf tf query k1 b))
  | [], scores => by simp
  | doc :: docs, scores => by
    rw [List.foldl_cons, ieee_step_eq, ieee_foldl_step tf query k1 b docs]
    simp

theorem ieee_scoresOf_eq (tf : TFIDF) (query : Document) (docs : List Document) (k1 b : B64) :
    scoresOf tf query docs k1 b = docs.map (scoreOf tf query k1 b) := by
  simp only [scoresOf, copy_replicate, ieee_foldl_step, List.nil_append]

theorem ieee_collect_eq (scores : List B64) :
    ∀ (is : List Nat) (retVal : DocScores), (∀ i ∈ is, i < scores.length) →
      collect scores is retVal
        = some (retVal ++ is.map (fun i => ⟨(i : Int), scores.getD i 0⟩))
  | [], retVal, _ => by simp [collect]
  | i :: is, retVal, h => by
    have hi : i < scores.length := h i (List.mem_cons_self i is)
    have hget : scores.get? i = some (scores.getD i 0) := by
      simp [List.getD_eq_getElem?_getD, List.getElem?_eq_getElem hi]
    simp only [collect, hget]
    rw [ieee_collect_eq scores is _ (fun j hj => h j (List.mem_cons_of_mem i hj))]
    simp

/-- Over binary64 too the call never panics and returns the entry
`(i, score of docs[i])` for every index `i` of `docs`, in order. -/
theorem ieee_BM25_eq (tf : TFIDF) (query : Document) (docs : List Document) (k1 b : B64) :
    BM25 tf query docs k1 b
      = some ((List.range docs.length).map
          (fun i => ⟨(i : Int), (docs.map (scoreOf tf query k1 b)).getD i 0⟩)) := by
  unfold BM25
  rw [ieee_scoresOf_eq, ieee_collect_eq _ _ _ (by simp)]
  simp

theorem ieee_scoreAt_BM25 (tf : TFIDF) (query : Document) (docs : List Document) (k1 b : B64)
    (i : Nat) (h : i < docs.length) :
    scoreAt (BM25 tf query docs k1 b) i = some (scoreOf tf query k1 b (docs.get ⟨i, h⟩)) := by
  unfold scoreAt
  rw [ieee_BM25_eq, Option.some_bind]
  simp [List.getD_eq_getElem?_getD, h]

end IEEE

/-! ## Signs under rounding -/

namespace IEEE

namespace B64

theorem pack_cases (s : Bool) (m : Nat) (u : Int) :
    pack s m u = inf s ∨ ∃ m1 u1, pack s m u = fin s m1 u1 := by
  unfold pack
  split_ifs
  · exact Or.inl rfl
  · exact Or.inr ⟨_, _, rfl⟩
  · exact Or.inr ⟨_, _, rfl⟩

theorem round_cases (s : Bool) (n : Nat) (e : Int) (st : Bool) :
    round s n e st = inf s ∨ ∃ m u, round s n e st = fin s m u := by
  unfold round
  split_ifs
  · exact Or.inr ⟨_, _, rfl⟩
  · exact pack_cases _ _ _

theorem round_zero (s : Bool) (e : Int) (st : Bool) : round s 0 e st = fin s 0 (-1074) := by
  simp [round]

theorem notNeg_round (s : Bool) (n : Nat) (e : Int) (st : Bool) (h : s = false ∨ n = 0) :
    notNeg (round s n e st) = true := by
  rcases h with h | h
  · subst h
    rcases round_cases false n e st with h1 | ⟨m, u, h1⟩ <;> simp [h1, notNeg]
  · subst h
    simp [round_zero, notNeg]

theorem signClear_round (n : Nat) (e : Int) (st : Bool) :
    signClear (round false n e st) = true := by
  rcases round_cases false n e st with h1 | ⟨m, u, h1⟩ <;> simp [h1, signClear]

theorem notNeg_of_signClear (x : B64) (h : signClear x = true) : notNeg x = true := by
  cases x <;> simp_all [signClear, notNeg]

theorem notNeg_of_zeroOrNaN (x : B64) (h : zeroOrNaN x = true) : notNeg x = true := by
  cases x <;> simp_all [zeroOrNaN, notNeg]

theorem scaled_nonneg (s : Bool) (m : Nat) (e1 e : Int) (h : (!s || decide (m = 0)) = true) :
    0 ≤ scaled s m e1 e := by
  unfold scaled
  cases s
  · simp
  · simp at h
    simp [h]

theorem mul_notNeg (x y : B64) (hx : notNeg x = true) (hy : notNeg y = true) :
    notNeg (x * y) = true := by
  show notNeg (mul x y) = true
  cases x with
  | nan => cases y <;> simp [mul, notNeg]
  | inf s1 =>
    cases y with
    | nan => simp [mul, notNeg]
    | inf s2 => simp_all [mul, notNeg]
    | fin s2 m2 e2 =>
      simp only [mul]
      split_ifs with h0
      · rfl
      · simp_all [notNeg]
  | fin s1 m1 e1 =>
    cases y with
    | nan => simp [mul, notNeg]
    | inf s2 =>
      simp only [mul]
      split_ifs with h0
      · rfl
      · simp_all [notNeg]
    | fin s2 m2 e2 =>
      simp only [mul]
      apply notNeg_round
      simp only [notNeg, Bool.or_eq_true, Bool.not_eq_true', decide_eq_true_eq] at hx hy
      rcases hx with hx | hx <;> rcases hy with hy | hy <;> simp [hx, hy]

theorem add_notNeg (x y : B64) (hx : notNeg x = true) (hy : notNeg y = true) :
    notNeg (x + y) = true := by
  show notNeg (add x y) = true
  cases x with
  | nan => cases y <;> simp [add, notNeg]
  | inf s1 =>
    cases y with
    | nan => simp [add, notNeg]
    | inf s2 => simp_all [add, notNeg]
    | fin s2 m2 e2 => simp_all [add, notNeg]
  | fin s1 m1 e1 =>
    cases y with
    | nan => simp [add, notNeg]
    | inf s2 => simp_all [add, notNeg]
    | fin s2 m2 e2 =>
      have h1 := scaled_nonneg s1 m1 e1 (min e1 e2) hx
      have h2 := scaled_nonneg s2 m2 e2 (min e1 e2) hy
      simp only [add]
      split_ifs with hz
      · simp [notNeg]
      · apply notNeg_round
        left
        simp only [decide_eq_false_iff_not, not_lt]
        omega


theorem div_notNeg (x y : B64) (hx : notNeg x = true) (hy : signClear y = true) :
    notNeg (x / y) = true := by
  show notNeg (div x y) = true
  cases x with
  | nan => cases y <;> simp [div, notNeg]
  | inf s1 =>
    cases y with
    | nan => simp [div, notNeg]
    | inf s2 => simp [div, notNeg]
    | fin s2 m2 e2 => simp_all [div, notNeg, signClear]
  | fin s1 m1 e1 =>
    cases y with
    | nan => simp [div, notNeg]
    | inf s2 => simp [div, notNeg]
    | fin s2 m2 e2 =>
      simp only [signClear, Bool.not_eq_true'] at hy
      subst hy
      simp only [notNeg, Bool.or_eq_true, Bool.not_eq_true', decide_eq_true_eq] at hx
      simp only [div]
      split_ifs with h2 h1
      · rfl
      · rcases hx with hx | hx
        · simp [hx, notNeg]
        · exact absurd hx h1
      · apply notNeg_round
        rcases hx with hx | hx
        · left; simp [hx]
        · right; simp [hx]

theorem zeroOrNaN_mul_left (x y : B64) (hx : zeroOrNaN x = true) : zeroOrNaN (x * y) = true := by
  show zeroOrNaN (mul x y) = true
  cases x with
  | nan => cases y <;> simp [mul, zeroOrNaN]
  | inf s1 => simp [zeroOrNaN] at hx
  | fin s1 m1 e1 =>
    simp only [zeroOrNaN, decide_eq_true_eq] at hx
    subst hx
    cases y with
    | nan => simp [mul, zeroOrNaN]
    | inf s2 => simp [mul, zeroOrNaN]
    | fin s2 m2 e2 => simp [mul, round_zero, zeroOrNaN]

theorem zeroOrNaN_mul_right (x y : B64) (hy : zeroOrNaN y = true) : zeroOrNaN (x * y) = true := by
  show zeroOrNaN (mul x y) = true
  cases y with
  | nan => cases x <;> simp [mul, zeroOrNaN]
  | inf s1 => simp [zeroOrNaN] at hy
  | fin s2 m2 e2 =>
    simp only [zeroOrNaN, decide_eq_true_eq] at hy
    subst hy
    cases x with
    | nan => simp [mul, zeroOrNaN]
    | inf s2 => simp [mul, zeroOrNaN]
    | fin s1 m1 e1 => simp [mul, round_zero, zeroOrNaN]

theorem zeroOrNaN_div (x y : B64) (hx : zeroOrNaN x = true) : zeroOrNaN (x / y) = true := by
  show zeroOrNaN (div x y) = true
  cases x with
  | nan => cases y <;> simp [div, zeroOrNaN]
  | inf s1 => simp [zeroOrNaN] at hx
  | fin s1 m1 e1 =>
    simp only [zeroOrNaN, decide_eq_true_eq] at hx
    subst hx
    cases y with
    | nan => simp [div, zeroOrNaN]
    | inf s2 => simp [div, zeroOrNaN]
    | fin s2 m2 e2 =>
      simp only [div]
      split_ifs with h2
      · rfl
      · simp [round_zero, zeroOrNaN]

/-- A value that is not negative and neither a zero nor `NaN`, plus a value that
is not negative, has the sign bit clear. -/
theorem signClear_add_pos (x y : B64) (hx : notNeg x = true) (hxz : zeroOrNaN x = false)
    (hy : notNeg y = true) : signClear (x + y) = true := by
  show signClear (add x y) = true
  cases x with
  | nan => simp [zeroOrNaN] at hxz
  | inf s1 =>
    cases y with
    | nan => simp [add, signClear]
    | inf s2 => simp_all [add, notNeg, signClear]
    | fin s2 m2 e2 => simp_all [add, notNeg, signClear]
  | fin s1 m1 e1 =>
    simp only [zeroOrNaN, decide_eq_false_iff_not] at hxz
    have hs1 : s1 = false := by
      simp only [notNeg, Bool.or_eq_true, Bool.not_eq_true', decide_eq_true_eq] at hx
      rcases hx with hx | hx
      · exact hx
      · exact absurd hx hxz
    subst hs1
    cases y with
    | nan => simp [add, signClear]
    | inf s2 => simp_all [add, notNeg, signClear]
    | fin s2 m2 e2 =>
      have h2 := scaled_nonneg s2 m2 e2 (min e1 e2) hy
      have h1 : 0 < scaled false m1 e1 (min e1 e2) := by
        unfold scaled
        simp only [Bool.false_eq_true, if_false, one_mul]
        exact_mod_cast Nat.mul_pos (Nat.pos_of_ne_zero hxz) (pow_pos (by decide) _)
      simp only [add]
      split_ifs with hz
      · simp [signClear]
      · have : decide (scaled false m1 e1 (min e1 e2) + scaled s2 m2 e2 (min e1 e2) < 0)
            = false := by
          simp only [decide_eq_false_iff_not, not_lt]
          omega
        rw [this]
        exact signClear_round _ _ _

theorem scaled_zero (s : Bool) (e1 e : Int) : scaled s 0 e1 e = 0 := by
  simp [scaled]

theorem notNeg_of_le_zero (x : B64) (h : le 0 x = true) : notNeg x = true := by
  cases x with
  | nan => rfl
  | inf s =>
    have : le zero (inf s) = true := h
    simpa [le, zero, notNeg] using this
  | fin s m e =>
    have h1 : le zero (fin s m e) = true := h
    simp only [le, zero, decide_eq_true_eq, scaled_zero] at h1
    cases s
    · simp [notNeg]
    · simp only [notNeg, Bool.not_true, Bool.false_or, decide_eq_true_eq]
      by_contra hm
      have hpos : 0 < m * 2 ^ (e - min (-1074) e).toNat :=
        Nat.mul_pos (Nat.pos_of_ne_zero hm) (pow_pos (by decide) _)
      unfold scaled at h1
      simp only [if_true] at h1
      generalize m * 2 ^ (e - min (-1074) e).toNat = N at h1 hpos
      omega

theorem le_zero_of_notNeg (x : B64) (h : notNeg x = true) : x = nan ∨ le 0 x = true := by
  cases x with
  | nan => exact Or.inl rfl
  | inf s =>
    right
    show le zero (inf s) = true
    simpa [le, zero, notNeg] using h
  | fin s m e =>
    right
    show le zero (fin s m e) = true
    have := scaled_nonneg s m e (min (-1074) e) h
    simp only [le, zero, decide_eq_true_eq, scaled, Bool.false_eq_true, if_false, zero_mul,
      Nat.cast_zero, mul_zero]
    simpa [scaled] using this

theorem signClear_ofInt (n : Int) (h : 0 ≤ n) : signClear (ofInt n) = true := by
  unfold ofInt
  have : decide (n < 0) = false := by simp [h]
  rw [this]
  exact signClear_round _ _ _

/-- For `0 ≤ b ≤ 1` the difference `1 - b` is not negative. -/
theorem notNeg_one_sub (b : B64) (h0 : le 0 b = true) (h1 : le b 1 = true) :
    notNeg (1 - b) = true := by
  show notNeg (add (fin false (2 ^ 52) (-52)) (neg b)) = true
  cases b with
  | nan => simp [le] at h1
  | inf s =>
    have h2 : le zero (inf s) = true := h0
    have h3 : le (inf s) (fin false (2 ^ 52) (-52)) = true := h1
    simp [le, zero] at h2 h3
    simp [h2] at h3
  | fin s m e =>
    have h3 : le (fin s m e) (fin false (2 ^ 52) (-52)) = true := h1
    simp only [le, decide_eq_true_eq] at h3
    simp only [neg, add]
    have hneg : scaled (!s) m e (min (-52) e) = - scaled s m e (min e (-52)) := by
      rw [min_comm]
      unfold scaled
      cases s <;> simp
    rw [min_comm e (-52)] at h3
    rw [hneg, min_comm e (-52)]
    split_ifs with hz
    · simp [notNeg]
    · apply notNeg_round
      left
      simp only [decide_eq_false_iff_not, not_lt]
      omega

end B64

/-! ## Rounding is monotone -/

namespace B64

theorem bitLengthAux_zero (fuel : Nat) : bitLengthAux fuel 0 = 0 := by
  cases fuel <;> simp [bitLengthAux]

theorem bitLengthAux_lt : ∀ (fuel n : Nat), n ≤ fuel → n < 2 ^ bitLengthAux fuel n
  | 0, n, h => by
    have : n = 0 := by omega
    subst this
    simp [bitLengthAux]
  | fuel + 1, n, h => by
    unfold bitLengthAux
    split_ifs with hn
    · subst hn
      simp
    · have ih := bitLengthAux_lt fuel (n / 2) (by omega)
      rw [pow_succ]
      omega

theorem bitLengthAux_le : ∀ (fuel n : Nat), n ≤ fuel → n ≠ 0 →
    2 ^ bitLengthAux fuel n ≤ 2 * n
  | 0, n, h, hn => by omega
  | fuel + 1, n, h, hn => by
    unfold bitLengthAux
    rw [if_neg hn]
    by_cases h2 : n / 2 = 0
    · rw [h2, bitLengthAux_zero]
      simp
      omega
    · have ih := bitLengthAux_le fuel (n / 2) (by omega) h2
      rw [pow_succ]
      omega

theorem bitLength_lt (n : Nat) : n < 2 ^ bitLength n := bitLengthAux_lt n n (le_refl n)

theorem bitLength_le (n : Nat) (hn : n ≠ 0) : 2 ^ bitLength n ≤ 2 * n :=
  bitLengthAux_le n n (le_refl n) hn

theorem bitLength_unique (n b : Nat) (h1 : n < 2 ^ b) (h2 : 2 ^ b ≤ 2 * n) :
    bitLength n = b := by
  have hn : n ≠ 0 := by
    intro h
    subst h
    have : 0 < 2 ^ b := pow_pos (by decide) b
    omega
  have h3 := bitLength_lt n
  have h4 := bitLength_le n hn
  have a1 : 2 ^ bitLength n < 2 ^ (b + 1) := by
    rw [pow_succ]
    omega
  have a2 : 2 ^ b < 2 ^ (bitLength n + 1) := by
    rw [pow_succ]
    omega
  have b1 := (Nat.pow_lt_pow_iff_right (by decide : 1 < 2)).1 a1
  have b2 := (Nat.pow_lt_pow_iff_right (by decide : 1 < 2)).1 a2
  omega

theorem bitLength_mul_pow (n j : Nat) (hn : n ≠ 0) :
    bitLength (n * 2 ^ j) = bitLength n + j := by
  apply bitLength_unique
  · rw [pow_add]
    exact Nat.mul_lt_mul_of_pos_right (bitLength_lt n) (pow_pos (by decide) _)
  · rw [pow_add]
    have := Nat.mul_le_mul_right (2 ^ j) (bitLength_le n hn)
    calc 2 ^ bitLength n * 2 ^ j ≤ 2 * n * 2 ^ j := this
      _ = 2 * (n * 2 ^ j) := by ring

theorem bitLength_mono (n n1 : Nat) (h : n ≤ n1) : bitLength n ≤ bitLength n1 := by
  by_cases hn : n = 0
  · subst hn
    simp [bitLength, bitLengthAux_zero]
  · have h1 := bitLength_le n hn
    have h2 := bitLength_lt n1
    have a : 2 ^ bitLength n < 2 ^ (bitLength n1 + 1) := by
      rw [pow_succ]
      omega
    have := (Nat.pow_lt_pow_iff_right (by decide : 1 < 2)).1 a
    omega

theorem bitLength_ge (n b : Nat) (h : 2 ^ b ≤ n) : b + 1 ≤ bitLength n := by
  have h2 := bitLength_lt n
  have a : 2 ^ b < 2 ^ bitLength n := lt_of_le_of_lt h h2
  have := (Nat.pow_lt_pow_iff_right (by decide : 1 < 2)).1 a
  omega

theorem round_eq (s : Bool) (n : Nat) (e : Int) (st : Bool) (hn : n ≠ 0) :
    round s n e st
      = roundBig s (n * 2 ^ (55 - bitLength n)) (e - ((55 - bitLength n : Nat) : Int)) st := by
  simp only [round, roundBig, nearest, if_neg hn]

theorem round_eq_big (s : Bool) (n : Nat) (e : Int) (st : Bool) (h : 55 ≤ bitLength n) :
    round s n e st = roundBig s n e st := by
  have hn : n ≠ 0 := by
    intro h0
    subst h0
    simp [bitLength, bitLengthAux_zero] at h
  rw [round_eq s n e st hn]
  have : 55 - bitLength n = 0 := by omega
  rw [this]
  simp

theorem nearest_ge (n sh : Nat) (st : Bool) : n / 2 ^ sh ≤ nearest n sh st := by
  unfold nearest
  simp only
  split_ifs <;> omega

theorem nearest_le (n sh : Nat) (st : Bool) : nearest n sh st ≤ n / 2 ^ sh + 1 := by
  unfold nearest
  simp only
  split_ifs <;> omega

theorem nearest_mono (n n1 sh : Nat) (st st1 : Bool) (h : n ≤ n1)
    (hst : n = n1 → st = true → st1 = true) :
    nearest n sh st ≤ nearest n1 sh st1 := by
  have hq : n / 2 ^ sh ≤ n1 / 2 ^ sh := Nat.div_le_div_right h
  rcases Nat.lt_or_ge (n / 2 ^ sh) (n1 / 2 ^ sh) with hlt | hge
  · have := nearest_le n sh st
    have := nearest_ge n1 sh st1
    omega
  · have hqq : n / 2 ^ sh = n1 / 2 ^ sh := by omega
    have d1 := Nat.div_add_mod n (2 ^ sh)
    have d2 := Nat.div_add_mod n1 (2 ^ sh)
    rw [← hqq] at d2
    have hr : n % 2 ^ sh ≤ n1 % 2 ^ sh := by omega
    unfold nearest
    simp only [← hqq]
    by_cases hup : (decide (2 ^ (sh - 1) < n % 2 ^ sh) ||
        (decide (n % 2 ^ sh = 2 ^ (sh - 1)) && (st || decide (n / 2 ^ sh % 2 = 1)))) = true
    · have hup1 : (decide (2 ^ (sh - 1) < n1 % 2 ^ sh) ||
          (decide (n1 % 2 ^ sh = 2 ^ (sh - 1)) && (st1 || decide (n / 2 ^ sh % 2 = 1)))) = true := by
        simp only [Bool.or_eq_true, Bool.and_eq_true, decide_eq_true_eq] at hup ⊢
        rcases hup with h1 | ⟨h1, h2⟩
        · left; omega
        · rcases Nat.lt_or_ge (n % 2 ^ sh) (n1 % 2 ^ sh) with h3 | h3
          · left; omega
          · right
            have hrr : n % 2 ^ sh = n1 % 2 ^ sh := by omega
            have hnn : n = n1 := by omega
            refine ⟨by omega, ?_⟩
            rcases h2 with h2 | h2
            · exact Or.inl (hst hnn h2)
            · exact Or.inr h2
      rw [if_pos hup, if_pos hup1]
    · rw [if_neg hup]
      split_ifs <;> omega

theorem nearest_refine (nj sh j : Nat) (stj : Bool) (hsh : 1 ≤ sh) :
    nearest nj (sh + j) stj = nearest (nj / 2 ^ j) sh (stj || decide (nj % 2 ^ j ≠ 0)) := by
  have hq : nj / 2 ^ (sh + j) = nj / 2 ^ j / 2 ^ sh := by
    rw [Nat.div_div_eq_div_mul, pow_add, Nat.mul_comm]
  have hP : 0 < 2 ^ j := pow_pos (by decide) j
  have hhalf : 2 ^ (sh + j - 1) = 2 ^ (sh - 1) * 2 ^ j := by
    rw [← pow_add]
    congr 1
    omega
  have hr : nj % 2 ^ (sh + j) = (nj / 2 ^ j % 2 ^ sh) * 2 ^ j + nj % 2 ^ j := by
    rw [pow_add, Nat.mul_comm (2 ^ sh) (2 ^ j), Nat.mod_mul]
    ring
  have hρ : nj % 2 ^ j < 2 ^ j := Nat.mod_lt _ hP
  unfold nearest
  simp only [hq, hhalf, hr]
  generalize nj / 2 ^ j % 2 ^ sh = r
  generalize nj % 2 ^ j = ρ at hρ
  generalize 2 ^ (sh - 1) = half
  generalize nj / 2 ^ j / 2 ^ sh = q
  generalize 2 ^ j = P at hP hρ
  have e1 : (half * P < r * P + ρ) ↔ (half < r ∨ (r = half ∧ ρ ≠ 0)) := by
    constructor
    · intro h
      by_contra hc
      push_neg at hc
      rcases Nat.lt_or_ge r half with h1 | h1
      · have : (r + 1) * P ≤ half * P := Nat.mul_le_mul_right P h1
        rw [Nat.add_mul] at this
        omega
      · have h2 : r = half := by
          rcases Nat.lt_or_ge half r with h3 | h3
          · exact absurd h3 (by intro h4; exact absurd (hc.1) (by omega))
          · omega
        have := hc.2 h2
        subst h2 this
        omega
    · rintro (h | ⟨h, h1⟩)
      · have : (half + 1) * P ≤ r * P := Nat.mul_le_mul_right P h
        rw [Nat.add_mul] at this
        omega
      · subst h
        omega
  have e2 : (r * P + ρ = half * P) ↔ (r = half ∧ ρ = 0) := by
    constructor
    · intro h
      rcases Nat.lt_trichotomy r half with h1 | h1 | h1
      · have : (r + 1) * P ≤ half * P := Nat.mul_le_mul_right P h1
        rw [Nat.add_mul] at this
        omega
      · subst h1
        exact ⟨rfl, by omega⟩
      · have : (half + 1) * P ≤ r * P := Nat.mul_le_mul_right P h1
        rw [Nat.add_mul] at this
        omega
    · rintro ⟨h, h1⟩
      subst h h1
      rfl
  by_cases hup : (decide (half < r) ||
      (decide (r = half) && ((stj || decide (ρ ≠ 0)) || decide (q % 2 = 1)))) = true
  · have hup1 : (decide (half * P < r * P + ρ) ||
        (decide (r * P + ρ = half * P) && (stj || decide (q % 2 = 1)))) = true := by
      simp only [Bool.or_eq_true, Bool.and_eq_true, decide_eq_true_eq, e1, e2] at hup ⊢
      rcases hup with h1 | ⟨h1, (h2 | h2) | h2⟩
      · exact Or.inl (Or.inl h1)
      · by_cases hz : ρ = 0
        · exact Or.inr ⟨⟨h1, hz⟩, Or.inl h2⟩
        · exact Or.inl (Or.inr ⟨h1, hz⟩)
      · exact Or.inl (Or.inr ⟨h1, h2⟩)
      · by_cases hz : ρ = 0
        · exact Or.inr ⟨⟨h1, hz⟩, Or.inr h2⟩
        · exact Or.inl (Or.inr ⟨h1, hz⟩)
    rw [if_pos hup, if_pos hup1]
  · have hup1 : ¬ (decide (half * P < r * P + ρ) ||
        (decide (r * P + ρ = half * P) && (stj || decide (q % 2 = 1)))) = true := by
      intro hc
      apply hup
      simp only [Bool.or_eq_true, Bool.and_eq_true, decide_eq_true_eq, e1, e2] at hc ⊢
      rcases hc with (h1 | ⟨h1, h2⟩) | ⟨⟨h1, h2⟩, h3 | h3⟩
      · exact Or.inl h1
      · exact Or.inr ⟨h1, Or.inl (Or.inr h2)⟩
      · exact Or.inr ⟨h1, Or.inl (Or.inl h3)⟩
      · exact Or.inr ⟨h1, Or.inr h3⟩
    rw [if_neg hup, if_neg hup1]

theorem le_fin_iff (m m1 : Nat) (u u1 : Int) :
    le (fin false m u) (fin false m1 u1) = true
      ↔ m * 2 ^ (u - min u u1).toNat ≤ m1 * 2 ^ (u1 - min u u1).toNat := by
  simp only [le, scaled, Bool.false_eq_true, if_false, one_mul, decide_eq_true_eq]
  exact Nat.cast_le

theorem toNat_sub_split (u c e : Int) (h1 : e ≤ c) (h2 : c ≤ u) :
    (u - e).toNat = (u - c).toNat + (c - e).toNat := by
  omega

theorem le_fin_of_scaled (m m1 : Nat) (u u1 e : Int) (he : e ≤ u) (he1 : e ≤ u1)
    (h : m * 2 ^ (u - e).toNat ≤ m1 * 2 ^ (u1 - e).toNat) :
    le (fin false m u) (fin false m1 u1) = true := by
  rw [le_fin_iff]
  have hc : e ≤ min u u1 := le_min he he1
  rw [toNat_sub_split u (min u u1) e hc (min_le_left _ _),
    toNat_sub_split u1 (min u u1) e hc (min_le_right _ _), pow_add, pow_add,
    ← Nat.mul_assoc, ← Nat.mul_assoc] at h
  exact Nat.le_of_mul_le_mul_right h (pow_pos (by decide) _)

theorem scaled_of_le_fin (m m1 : Nat) (u u1 e : Int) (he : e ≤ u) (he1 : e ≤ u1)
    (h : le (fin false m u) (fin false m1 u1) = true) :
    m * 2 ^ (u - e).toNat ≤ m1 * 2 ^ (u1 - e).toNat := by
  rw [le_fin_iff] at h
  have hc : e ≤ min u u1 := le_min he he1
  rw [toNat_sub_split u (min u u1) e hc (min_le_left _ _),
    toNat_sub_split u1 (min u u1) e hc (min_le_right _ _), pow_add, pow_add,
    ← Nat.mul_assoc, ← Nat.mul_assoc]
  exact Nat.mul_le_mul_right _ h

theorem le_zero_fin (e : Int) (m1 : Nat) (u1 : Int) :
    le (fin false 0 e) (fin false m1 u1) = true := by
  rw [le_fin_iff]
  simp

theorem pack_le (M M1 : Nat) (U U1 e : Int) (heU : e ≤ U) (heU1 : e ≤ U1)
    (hV : M * 2 ^ (U - e).toNat ≤ M1 * 2 ^ (U1 - e).toNat) (hM1 : M1 < 2 ^ 53)
    (hM : -1074 < U → 2 ^ 52 ≤ M) :
    le (pack false M U) (pack false M1 U1) = true := by
  unfold pack
  by_cases h1 : 971 < U
  · have hM52 := hM (by omega)
    have h2 : 971 < U1 := by
      by_contra hc
      have hlt : (U1 - e).toNat + 1 ≤ (U - e).toNat := by omega
      have p1 : 2 ^ ((U1 - e).toNat + 1) ≤ 2 ^ (U - e).toNat :=
        Nat.pow_le_pow_right (by decide) hlt
      have p2 : 2 ^ 52 * 2 ^ (U - e).toNat ≤ M * 2 ^ (U - e).toNat :=
        Nat.mul_le_mul_right _ hM52
      have p3 : M1 * 2 ^ (U1 - e).toNat < 2 ^ 53 * 2 ^ (U1 - e).toNat :=
        Nat.mul_lt_mul_of_pos_right hM1 (pow_pos (by decide) _)
      have p4 : 2 ^ 52 * 2 ^ ((U1 - e).toNat + 1) ≤ 2 ^ 52 * 2 ^ (U - e).toNat :=
        Nat.mul_le_mul_left _ p1
      have p5 : 2 ^ 52 * 2 ^ ((U1 - e).toNat + 1) = 2 ^ 53 * 2 ^ (U1 - e).toNat := by
        rw [pow_succ]
        ring
      omega
    rw [if_pos h1, if_pos h2]
    rfl
  · rw [if_neg h1]
    by_cases h2 : 971 < U1
    · rw [if_pos h2]
      split_ifs <;> rfl
    · rw [if_neg h2]
      by_cases hM0 : M = 0
      · rw [if_pos hM0]
        split_ifs
        · exact le_zero_fin _ _ _
        · exact le_zero_fin _ _ _
      · rw [if_neg hM0]
        have hM10 : M1 ≠ 0 := by
          intro hc
          subst hc
          have : 0 < M * 2 ^ (U - e).toNat :=
            Nat.mul_pos (Nat.pos_of_ne_zero hM0) (pow_pos (by decide) _)
          omega
        rw [if_neg hM10]
        exact le_fin_of_scaled M M1 U U1 e heU heU1 hV

theorem nearest_le_pow (n sh : Nat) (st : Bool) (h : n < 2 ^ (sh + 53)) :
    nearest n sh st ≤ 2 ^ 53 := by
  have h1 := nearest_le n sh st
  have h2 : n / 2 ^ sh < 2 ^ 53 := by
    rw [Nat.div_lt_iff_lt_mul (pow_pos (by decide) _), ← pow_add, Nat.add_comm]
    exact h
  omega

theorem nearest_ge_pow (n sh : Nat) (st : Bool) (h : 2 ^ (sh + 52) ≤ n) :
    2 ^ 52 ≤ nearest n sh st := by
  have h1 := nearest_ge n sh st
  have h2 : 2 ^ 52 ≤ n / 2 ^ sh := by
    rw [Nat.le_div_iff_mul_le (pow_pos (by decide) _), ← pow_add, Nat.add_comm]
    exact h
  omega

theorem pow_pred_le (n : Nat) (hn : n ≠ 0) : 2 ^ (bitLength n - 1) ≤ n := by
  have h1 := bitLength_le n hn
  have h2 : 1 ≤ bitLength n := by
    have := bitLength_ge n 0 (by simp; omega)
    omega
  have h3 : 2 ^ bitLength n = 2 * 2 ^ (bitLength n - 1) := by
    rw [← pow_succ']
    congr 1
    omega
  omega

/-- Rounding at a common exponent is monotone: of two values written with the
same exponent and at least 55 digits, the smaller rounds to the smaller. -/
theorem roundBig_mono (n n1 : Nat) (e : Int) (st st1 : Bool) (h55 : 55 ≤ bitLength n)
    (hle : n ≤ n1) (hst : n = n1 → st = true → st1 = true) :
    le (roundBig false n e st) (roundBig false n1 e st1) = true := by
  have hb := bitLength_mono n n1 hle
  have hn : n ≠ 0 := by
    intro h0
    subst h0
    simp [bitLength, bitLengthAux_zero] at h55
  have hn1 : n1 ≠ 0 := by omega
  unfold roundBig
  simp only
  generalize hu : max (e + (bitLength n : Int) - 53) (-1074) = u
  generalize hu1 : max (e + (bitLength n1 : Int) - 53) (-1074) = u1
  have hue : e + 2 ≤ u := by omega
  have hu1e : e + 2 ≤ u1 := by omega
  have huu : u ≤ u1 := by omega
  generalize hsh : (u - e).toNat = sh
  generalize hsh1 : (u1 - e).toNat = sh1
  have hshb : bitLength n ≤ sh + 53 := by omega
  have hsh1b : bitLength n1 ≤ sh1 + 53 := by omega
  have hss : sh ≤ sh1 := by omega
  have hB : n < 2 ^ (sh + 53) :=
    lt_of_lt_of_le (bitLength_lt n) (Nat.pow_le_pow_right (by decide) hshb)
  have hB1 : n1 < 2 ^ (sh1 + 53) :=
    lt_of_lt_of_le (bitLength_lt n1) (Nat.pow_le_pow_right (by decide) hsh1b)
  have hm := nearest_le_pow n sh st hB
  have hm1 := nearest_le_pow n1 sh1 st1 hB1
  have hC : -1074 < u → 2 ^ 52 ≤ nearest n sh st := by
    intro hpos
    apply nearest_ge_pow
    have : sh + 52 = bitLength n - 1 := by omega
    rw [this]
    exact pow_pred_le n hn
  have hC1 : -1074 < u1 → 2 ^ 52 ≤ nearest n1 sh1 st1 := by
    intro hpos
    apply nearest_ge_pow
    have : sh1 + 52 = bitLength n1 - 1 := by omega
    rw [this]
    exact pow_pred_le n1 hn1
  have hA : nearest n sh st * 2 ^ sh ≤ nearest n1 sh1 st1 * 2 ^ sh1 := by
    rcases Nat.lt_or_ge sh sh1 with hlt | hge
    · have h52 := hC1 (by omega)
      have p1 : nearest n sh st * 2 ^ sh ≤ 2 ^ 53 * 2 ^ sh := Nat.mul_le_mul_right _ hm
      have p2 : 2 ^ 53 * 2 ^ sh = 2 ^ 52 * 2 ^ (sh + 1) := by
        rw [pow_succ]
        ring
      have p3 : 2 ^ 52 * 2 ^ (sh + 1) ≤ 2 ^ 52 * 2 ^ sh1 :=
        Nat.mul_le_mul_left _ (Nat.pow_le_pow_right (by decide) hlt)
      have p4 : 2 ^ 52 * 2 ^ sh1 ≤ nearest n1 sh1 st1 * 2 ^ sh1 := Nat.mul_le_mul_right _ h52
      omega
    · have heq : sh1 = sh := by omega
      rw [heq]
      exact Nat.mul_le_mul_right _ (nearest_mono n n1 sh st st1 hle hst)
  generalize nearest n sh st = m at hm hC hA
  generalize nearest n1 sh1 st1 = m1 at hm1 hC1 hA
  apply pack_le _ _ _ _ e
  · split_ifs <;> omega
  · split_ifs <;> omega
  · have e1 : (if m = 2 ^ 53 then 2 ^ 52 else m) *
        2 ^ ((if m = 2 ^ 53 then u + 1 else u) - e).toNat = m * 2 ^ sh := by
      split_ifs with h
      · have : (u + 1 - e).toNat = sh + 1 := by omega
        rw [this, h, pow_succ]
        ring
      · rw [hsh]
    have e2 : (if m1 = 2 ^ 53 then 2 ^ 52 else m1) *
        2 ^ ((if m1 = 2 ^ 53 then u1 + 1 else u1) - e).toNat = m1 * 2 ^ sh1 := by
      split_ifs with h
      · have : (u1 + 1 - e).toNat = sh1 + 1 := by omega
        rw [this, h, pow_succ]
        ring
      · rw [hsh1]
    rw [e1, e2]
    exact hA
  · split_ifs with h
    · norm_num
    · omega
  · intro hpos
    split_ifs with h
    · exact le_refl _
    · rw [if_neg h] at hpos
      exact hC hpos

theorem bitLength_div_pow (nj j : Nat) (h : nj / 2 ^ j ≠ 0) :
    bitLength nj = bitLength (nj / 2 ^ j) + j := by
  have hP : 0 < 2 ^ j := pow_pos (by decide) j
  have d := Nat.div_add_mod nj (2 ^ j)
  have hr := Nat.mod_lt nj hP
  have h1 := bitLength_lt (nj / 2 ^ j)
  have h2 := bitLength_le (nj / 2 ^ j) h
  apply bitLength_unique
  · rw [pow_add]
    have : (nj / 2 ^ j + 1) * 2 ^ j ≤ 2 ^ bitLength (nj / 2 ^ j) * 2 ^ j :=
      Nat.mul_le_mul_right _ h1
    rw [Nat.add_mul, Nat.mul_comm (nj / 2 ^ j)] at this
    omega
  · rw [pow_add]
    have : 2 ^ bitLength (nj / 2 ^ j) * 2 ^ j ≤ 2 * (nj / 2 ^ j) * 2 ^ j :=
      Nat.mul_le_mul_right _ h2
    have e : 2 * (nj / 2 ^ j) * 2 ^ j = 2 * (2 ^ j * (nj / 2 ^ j)) := by ring
    omega

/-- Rounding does not depend on how many digits of the value are written out,
once there are at least 55: the digits cut off go to the sticky part. -/
theorem roundBig_refine (s : Bool) (nj j : Nat) (e : Int) (stj : Bool)
    (h55 : 55 ≤ bitLength (nj / 2 ^ j)) :
    roundBig s nj (e - (j : Int)) stj
      = roundBig s (nj / 2 ^ j) e (stj || decide (nj % 2 ^ j ≠ 0)) := by
  have hn : nj / 2 ^ j ≠ 0 := by
    intro h0
    rw [h0] at h55
    simp [bitLength, bitLengthAux_zero] at h55
  have hb := bitLength_div_pow nj j hn
  unfold roundBig
  simp only
  have hu : max (e - (j : Int) + (bitLength nj : Int) - 53) (-1074)
      = max (e + (bitLength (nj / 2 ^ j) : Int) - 53) (-1074) := by
    rw [hb]
    push_cast
    congr 1
    ring
  rw [hu]
  have hue : e + 2 ≤ max (e + (bitLength (nj / 2 ^ j) : Int) - 53) (-1074) := by omega
  generalize max (e + (bitLength (nj / 2 ^ j) : Int) - 53) (-1074) = u at hue ⊢
  have hsh : (u - (e - (j : Int))).toNat = (u - e).toNat + j := by omega
  rw [hsh, nearest_refine nj (u - e).toNat j stj (by omega)]

/-- Writing an exact value with more digits does not change its rounding. -/
theorem round_scale (s : Bool) (n j : Nat) (e : Int) (hn : n ≠ 0) :
    round s (n * 2 ^ j) (e - (j : Int)) false = round s n e false := by
  have hnj : n * 2 ^ j ≠ 0 := Nat.mul_ne_zero hn (pow_pos (by decide) j).ne'
  rw [round_eq s _ _ _ hnj, round_eq s n e false hn, bitLength_mul_pow n j hn]
  have hd : 55 - bitLength n ≤ j + (55 - (bitLength n + j)) := by omega
  obtain ⟨d, hd⟩ := Nat.exists_eq_add_of_le hd
  have h1 : n * 2 ^ j * 2 ^ (55 - (bitLength n + j)) = n * 2 ^ (55 - bitLength n) * 2 ^ d := by
    rw [Nat.mul_assoc, ← pow_add, hd, pow_add, Nat.mul_assoc]
  have h2 : e - (j : Int) - ((55 - (bitLength n + j) : Nat) : Int)
      = e - ((55 - bitLength n : Nat) : Int) - (d : Int) := by
    have : ((j + (55 - (bitLength n + j)) : Nat) : Int) = ((55 - bitLength n + d : Nat) : Int) := by
      rw [hd]
    push_cast at this
    omega
  rw [h1, h2]
  have hN : n * 2 ^ (55 - bitLength n) ≠ 0 := Nat.mul_ne_zero hn (pow_pos (by decide) _).ne'
  have hdiv : n * 2 ^ (55 - bitLength n) * 2 ^ d / 2 ^ d = n * 2 ^ (55 - bitLength n) :=
    Nat.mul_div_cancel _ (pow_pos (by decide) d)
  have h55 : 55 ≤ bitLength (n * 2 ^ (55 - bitLength n) * 2 ^ d / 2 ^ d) := by
    rw [hdiv, bitLength_mul_pow n _ hn]
    omega
  rw [roundBig_refine s _ d _ false h55, hdiv]
  simp

theorem le_zero_round (e e1 : Int) (n : Nat) (st : Bool) :
    le (fin false 0 e) (round false n e1 st) = true := by
  rcases round_cases false n e1 st with h | ⟨m, u, h⟩
  · rw [h]
    rfl
  · rw [h]
    exact le_zero_fin _ _ _

/-- Rounding of exact values is monotone: `n * 2^e <= n1 * 2^e1`, compared in
units of `2^c`, gives rounded values in the same order. -/
theorem round_mono_exact (n n1 : Nat) (e e1 c : Int) (hc : c ≤ e) (hc1 : c ≤ e1)
    (h : n * 2 ^ (e - c).toNat ≤ n1 * 2 ^ (e1 - c).toNat) :
    le (round false n e false) (round false n1 e1 false) = true := by
  by_cases hn : n = 0
  · subst hn
    rw [round_zero]
    exact le_zero_round _ _ _ _
  · have hn1 : n1 ≠ 0 := by
      intro h0
      subst h0
      have : 0 < n * 2 ^ (e - c).toNat :=
        Nat.mul_pos (Nat.pos_of_ne_zero hn) (pow_pos (by decide) _)
      omega
    have r1 := round_scale false n ((e - c).toNat + 55) e hn
    have r2 := round_scale false n1 ((e1 - c).toNat + 55) e1 hn1
    have x1 : e - (((e - c).toNat + 55 : Nat) : Int) = c - 55 := by
      push_cast
      omega
    have x2 : e1 - (((e1 - c).toNat + 55 : Nat) : Int) = c - 55 := by
      push_cast
      omega
    rw [x1] at r1
    rw [x2] at r2
    rw [← r1, ← r2]
    have b1 : 55 ≤ bitLength (n * 2 ^ ((e - c).toNat + 55)) := by
      rw [bitLength_mul_pow n _ hn]
      omega
    have hle : n * 2 ^ ((e - c).toNat + 55) ≤ n1 * 2 ^ ((e1 - c).toNat + 55) := by
      rw [pow_add, pow_add, ← Nat.mul_assoc, ← Nat.mul_assoc]
      exact Nat.mul_le_mul_right _ h
    have b2 : 55 ≤ bitLength (n1 * 2 ^ ((e1 - c).toNat + 55)) :=
      le_trans b1 (bitLength_mono _ _ hle)
    rw [round_eq_big _ _ _ _ b1, round_eq_big _ _ _ _ b2]
    exact roundBig_mono _ _ _ _ _ b1 hle (fun _ h => h)

theorem leN_iff (x y : B64) : leN x y = true ↔ x = nan ∨ y = nan ∨ le x y = true := by
  simp [leN, or_assoc]

theorem leN_nan_left (y : B64) : leN nan y = true := by simp [leN]

theorem leN_nan_right (x : B64) : leN x nan = true := by simp [leN]

theorem le_refl_B64 (x : B64) (h : x ≠ nan) : le x x = true := by
  cases x with
  | nan => exact absurd rfl h
  | inf s => cases s <;> rfl
  | fin s m e => simp [le]

theorem leN_refl (x : B64) : leN x x = true := by
  by_cases h : x = nan
  · subst h
    rfl
  · rw [leN_iff]
    exact Or.inr (Or.inr (le_refl_B64 x h))

theorem le_inf (x : B64) (h : x ≠ nan) : le x (inf false) = true := by
  cases x with
  | nan => exact absurd rfl h
  | inf s => cases s <;> rfl
  | fin s m e => rfl

theorem leN_inf (x : B64) : leN x (inf false) = true := by
  by_cases h : x = nan
  · subst h
    rfl
  · rw [leN_iff]
    exact Or.inr (Or.inr (le_inf x h))

theorem round_ne_nan (s : Bool) (n : Nat) (e : Int) (st : Bool) : round s n e st ≠ nan := by
  rcases round_cases s n e st with h | ⟨m, u, h⟩ <;> rw [h] <;> simp

theorem small_pack (s : Bool) (m : Nat) (u : Int) (h : m < 2 ^ 53) :
    small (pack s m u) = true := by
  unfold pack
  split_ifs
  · rfl
  · simp [small]
  · simp only [small, decide_eq_true_eq]
    exact h

theorem small_roundBig (s : Bool) (n : Nat) (e : Int) (st : Bool) :
    small (roundBig s n e st) = true := by
  unfold roundBig
  simp only
  apply small_pack
  have hsh : bitLength n ≤ (max (e + (bitLength n : Int) - 53) (-1074) - e).toNat + 53 := by
    omega
  have hB : n < 2 ^ ((max (e + (bitLength n : Int) - 53) (-1074) - e).toNat + 53) :=
    lt_of_lt_of_le (bitLength_lt n) (Nat.pow_le_pow_right (by decide) hsh)
  have hm := nearest_le_pow n _ st hB
  split_ifs with h
  · norm_num
  · omega

theorem small_round (s : Bool) (n : Nat) (e : Int) (st : Bool) :
    small (round s n e st) = true := by
  by_cases hn : n = 0
  · subst hn
    rw [round_zero]
    simp [small]
  · rw [round_eq s n e st hn]
    exact small_roundBig _ _ _ _

theorem small_add (x y : B64) : small (x + y) = true := by
  show small (add x y) = true
  cases x <;> cases y <;> simp only [add, small]
  · split_ifs
    · simp [small]
    · exact small_round _ _ _ _
  · split_ifs <;> rfl

theorem small_div (x y : B64) : small (x / y) = true := by
  show small (div x y) = true
  cases x <;> cases y <;> simp only [div, small]
  · split_ifs
    · rfl
    · rfl
    · exact small_round _ _ _ _
  · simp

/-- Quotients of naturals with a sticky part, written at a finer exponent. -/
theorem div_refine (s : Bool) (a m j : Nat) (e : Int) (hm : 0 < m)
    (h55 : 55 ≤ bitLength (a / m)) :
    roundBig s (a * 2 ^ j / m) (e - (j : Int)) (decide (a * 2 ^ j % m ≠ 0))
      = roundBig s (a / m) e (decide (a % m ≠ 0)) := by
  have hP : 0 < 2 ^ j := pow_pos (by decide) j
  have hq : a * 2 ^ j / m / 2 ^ j = a / m := by
    rw [Nat.div_div_eq_div_mul, Nat.mul_div_mul_right _ _ hP]
  have hst : (decide (a * 2 ^ j % m ≠ 0) || decide (a * 2 ^ j / m % 2 ^ j ≠ 0))
      = decide (a % m ≠ 0) := by
    have d1 := Nat.div_add_mod a m
    have d2 := Nat.div_add_mod (a * 2 ^ j) m
    have d3 := Nat.div_add_mod (a * 2 ^ j / m) (2 ^ j)
    rw [hq] at d3
    have r1 := Nat.mod_lt a hm
    by_cases h0 : a % m = 0
    · have hdvd : m ∣ a := Nat.dvd_of_mod_eq_zero h0
      obtain ⟨c, hc⟩ := hdvd
      have e1 : a * 2 ^ j % m = 0 := by
        rw [hc, Nat.mul_assoc]
        exact Nat.mul_mod_right _ _
      have e2 : a * 2 ^ j / m = c * 2 ^ j := by
        rw [hc, Nat.mul_assoc]
        exact Nat.mul_div_cancel_left _ hm
      have e3 : a * 2 ^ j / m % 2 ^ j = 0 := by
        rw [e2]
        exact Nat.mul_mod_left _ _
      simp [h0, e1, e3]
    · have : ¬ (a * 2 ^ j % m = 0 ∧ a * 2 ^ j / m % 2 ^ j = 0) := by
        rintro ⟨e1, e3⟩
        rw [e1] at d2
        rw [e3] at d3
        apply h0
        have e4 : a * 2 ^ j = (m * (a / m)) * 2 ^ j := by
          rw [← d2]
          simp only [Nat.add_zero] at d3 ⊢
          rw [← d3]
          ring
        have e5 : a = m * (a / m) := Nat.eq_of_mul_eq_mul_right hP e4
        omega
      have hor : (a * 2 ^ j % m ≠ 0 ∨ a * 2 ^ j / m % 2 ^ j ≠ 0) := by
        by_contra hc
        push_neg at hc
        exact this hc
      simp only [h0, ne_eq, not_false_eq_true, decide_True, Bool.or_eq_true, decide_eq_true_eq]
      exact hor
  have h55a : 55 ≤ bitLength (a * 2 ^ j / m / 2 ^ j) := by
    rw [hq]
    exact h55
  rw [roundBig_refine s (a * 2 ^ j / m) j e _ h55a, hq, hst]

/-- Rounded quotients are monotone: if `a * 2^e / m <= a1 * 2^e1 / m1`, compared by
cross multiplication in units of `2^c`, the rounded quotients are in the same
order. -/
theorem round_div_mono (a m a1 m1 : Nat) (e e1 c : Int) (hm : 0 < m) (hm1 : 0 < m1)
    (hc : c ≤ e) (hc1 : c ≤ e1) (h55 : 55 ≤ bitLength (a / m))
    (h551 : 55 ≤ bitLength (a1 / m1))
    (h : a * 2 ^ (e - c).toNat * m1 ≤ a1 * 2 ^ (e1 - c).toNat * m) :
    le (round false (a / m) e (decide (a % m ≠ 0)))
      (round false (a1 / m1) e1 (decide (a1 % m1 ≠ 0))) = true := by
  rw [round_eq_big _ _ _ _ h55, round_eq_big _ _ _ _ h551]
  have r1 := div_refine false a m (e - c).toNat e hm h55
  have r2 := div_refine false a1 m1 (e1 - c).toNat e1 hm1 h551
  have x1 : e - ((e - c).toNat : Int) = c := by omega
  have x2 : e1 - ((e1 - c).toNat : Int) = c := by omega
  rw [x1] at r1
  rw [x2] at r2
  rw [← r1, ← r2]
  have hA : 55 ≤ bitLength (a * 2 ^ (e - c).toNat / m) :=
    le_trans h55 (bitLength_mono _ _ (Nat.div_le_div_right
      (Nat.le_mul_of_pos_right _ (pow_pos (by decide) _))))
  generalize a * 2 ^ (e - c).toNat = A at h hA
  generalize a1 * 2 ^ (e1 - c).toNat = A1 at h
  have d1 := Nat.div_add_mod A m
  have d2 := Nat.div_add_mod A1 m1
  have hfloor : A / m ≤ A1 / m1 := by
    rw [Nat.le_div_iff_mul_le hm1]
    have h1 : A / m * m ≤ A := Nat.div_mul_le_self A m
    have h2 : A / m * m1 * m ≤ A1 * m := by
      calc A / m * m1 * m = A / m * m * m1 := by ring
        _ ≤ A * m1 := Nat.mul_le_mul_right _ h1
        _ ≤ A1 * m := h
    exact Nat.le_of_mul_le_mul_right h2 hm
  apply roundBig_mono _ _ _ _ _ hA hfloor
  intro heq hst
  simp only [decide_eq_true_eq] at hst ⊢
  intro h0
  rw [h0, ← heq] at d2
  have hr : 0 < A % m := Nat.pos_of_ne_zero hst
  have hrm : 0 < A % m * m1 := Nat.mul_pos hr hm1
  have e1 : A * m1 = m * (A / m) * m1 + A % m * m1 := by
    conv_lhs => rw [← d1]
    ring
  have e2 : A1 * m = m * (A / m) * m1 := by
    rw [← d2]
    ring
  rw [e1, e2] at h
  omega

theorem signClear_cases (x : B64) (h : signClear x = true) :
    x = nan ∨ x = inf false ∨ ∃ m e, x = fin false m e := by
  cases x with
  | nan => exact Or.inl rfl
  | inf s =>
    simp only [signClear, Bool.not_eq_true'] at h
    subst h
    exact Or.inr (Or.inl rfl)
  | fin s m e =>
    simp only [signClear, Bool.not_eq_true'] at h
    subst h
    exact Or.inr (Or.inr ⟨m, e, rfl⟩)

theorem not_le_inf_fin (m : Nat) (e : Int) : leN (inf false) (fin false m e) = false := by
  simp [leN, le]

theorem le_of_leN_fin (m m1 : Nat) (e e1 : Int) (h : leN (fin false m e) (fin false m1 e1) = true) :
    le (fin false m e) (fin false m1 e1) = true := by
  simpa [leN] using h

theorem add_nan_left (y : B64) : nan + y = nan := by
  show add nan y = nan
  cases y <;> rfl

theorem add_nan_right (x : B64) : x + nan = nan := by
  show add x nan = nan
  cases x <;> rfl

theorem mul_nan_left (y : B64) : nan * y = nan := by
  show mul nan y = nan
  cases y <;> rfl

theorem mul_nan_right (x : B64) : x * nan = nan := by
  show mul x nan = nan
  cases x <;> rfl

theorem div_nan_left (y : B64) : nan / y = nan := by
  show div nan y = nan
  cases y <;> rfl

theorem div_nan_right (x : B64) : x / nan = nan := by
  show div x nan = nan
  cases x <;> rfl

theorem add_fin_fin (m1 m2 : Nat) (e1 e2 : Int) :
    fin false m1 e1 + fin false m2 e2
      = round false (m1 * 2 ^ (e1 - min e1 e2).toNat + m2 * 2 ^ (e2 - min e1 e2).toNat)
          (min e1 e2) false := by
  show add (fin false m1 e1) (fin false m2 e2) = _
  have hz : scaled false m1 e1 (min e1 e2) + scaled false m2 e2 (min e1 e2)
      = ((m1 * 2 ^ (e1 - min e1 e2).toNat + m2 * 2 ^ (e2 - min e1 e2).toNat : Nat) : Int) := by
    simp only [scaled, Bool.false_eq_true, if_false, one_mul]
    push_cast
    rfl
  simp only [add, hz]
  split_ifs with h0
  · have h1 : m1 * 2 ^ (e1 - min e1 e2).toNat + m2 * 2 ^ (e2 - min e1 e2).toNat = 0 := by
      exact_mod_cast h0
    rw [h1, round_zero]
    rfl
  · have hneg : decide (((m1 * 2 ^ (e1 - min e1 e2).toNat + m2 * 2 ^ (e2 - min e1 e2).toNat
        : Nat) : Int) < 0) = false := by
      simp only [decide_eq_false_iff_not, not_lt]
      exact Int.natCast_nonneg _
    rw [hneg, Int.natAbs_ofNat]

theorem add_fin_ne_nan (m1 m2 : Nat) (e1 e2 : Int) :
    fin false m1 e1 + fin false m2 e2 ≠ nan := by
  rw [add_fin_fin]
  exact round_ne_nan _ _ _ _

/-- Addition is monotone in both operands on the values that are not negative,
up to `NaN`. -/
theorem add_leN (x x1 y y1 : B64) (hx : signClear x = true) (hx1 : signClear x1 = true)
    (hy : signClear y = true) (hy1 : signClear y1 = true)
    (h1 : leN x x1 = true) (h2 : leN y y1 = true) : leN (x + y) (x1 + y1) = true := by
  rcases signClear_cases x hx with rfl | rfl | ⟨m, e, rfl⟩
  · rw [add_nan_left]; exact leN_nan_left _
  · rcases signClear_cases x1 hx1 with rfl | rfl | ⟨m1, e1, rfl⟩
    · rw [add_nan_left]; exact leN_nan_right _
    · rcases signClear_cases y1 hy1 with rfl | rfl | ⟨n1, f1, rfl⟩
      · rw [add_nan_right]; exact leN_nan_right _
      · exact leN_inf _
      · exact leN_inf _
    · rw [not_le_inf_fin] at h1
      exact absurd h1 (by decide)
  · rcases signClear_cases y hy with rfl | rfl | ⟨n, f, rfl⟩
    · rw [add_nan_right]; exact leN_nan_left _
    · rcases signClear_cases y1 hy1 with rfl | rfl | ⟨n1, f1, rfl⟩
      · rw [add_nan_right]; exact leN_nan_right _
      · rcases signClear_cases x1 hx1 with rfl | rfl | ⟨m1, e1, rfl⟩
        · rw [add_nan_left]; exact leN_nan_right _
        · exact leN_inf _
        · exact leN_inf _
      · rw [not_le_inf_fin] at h2
        exact absurd h2 (by decide)
    · rcases signClear_cases x1 hx1 with rfl | rfl | ⟨m1, e1, rfl⟩
      · rw [add_nan_left]; exact leN_nan_right _
      · rcases signClear_cases y1 hy1 with rfl | rfl | ⟨n1, f1, rfl⟩
        · rw [add_nan_right]; exact leN_nan_right _
        · exact leN_inf _
        · exact leN_inf _
      · rcases signClear_cases y1 hy1 with rfl | rfl | ⟨n1, f1, rfl⟩
        · rw [add_nan_right]; exact leN_nan_right _
        · exact leN_inf _
        · have a1 := le_of_leN_fin _ _ _ _ h1
          have a2 := le_of_leN_fin _ _ _ _ h2
          rw [add_fin_fin, add_fin_fin, leN_iff]
          refine Or.inr (Or.inr ?_)
          have hC1 : min (min e f) (min e1 f1) ≤ min e f := min_le_left _ _
          have hC2 : min (min e f) (min e1 f1) ≤ min e1 f1 := min_le_right _ _
          have hCe : min (min e f) (min e1 f1) ≤ e := le_trans hC1 (min_le_left _ _)
          have hCf : min (min e f) (min e1 f1) ≤ f := le_trans hC1 (min_le_right _ _)
          have hCe1 : min (min e f) (min e1 f1) ≤ e1 := le_trans hC2 (min_le_left _ _)
          have hCf1 : min (min e f) (min e1 f1) ≤ f1 := le_trans hC2 (min_le_right _ _)
          apply round_mono_exact _ _ _ _ (min (min e f) (min e1 f1)) hC1 hC2
          have b1 := scaled_of_le_fin m m1 e e1 _ hCe hCe1 a1
          have b2 := scaled_of_le_fin n n1 f f1 _ hCf hCf1 a2
          rw [Nat.add_mul, Nat.add_mul, Nat.mul_assoc, Nat.mul_assoc, Nat.mul_assoc,
            Nat.mul_assoc, ← pow_add, ← pow_add, ← pow_add, ← pow_add,
            ← toNat_sub_split e (min e f) _ hC1 (min_le_left _ _),
            ← toNat_sub_split f (min e f) _ hC1 (min_le_right _ _),
            ← toNat_sub_split e1 (min e1 f1) _ hC2 (min_le_left _ _),
            ← toNat_sub_split f1 (min e1 f1) _ hC2 (min_le_right _ _)]
          exact Nat.add_le_add b1 b2

theorem mul_fin_fin (m1 m2 : Nat) (e1 e2 : Int) :
    fin false m1 e1 * fin false m2 e2 = round false (m1 * m2) (e1 + e2) false := rfl

theorem mul_comm_B64 (x y : B64) : x * y = y * x := by
  show mul x y = mul y x
  cases x with
  | nan => cases y <;> rfl
  | inf s1 =>
    cases y with
    | nan => rfl
    | inf s2 => cases s1 <;> cases s2 <;> rfl
    | fin s2 m2 e2 => cases s1 <;> cases s2 <;> rfl
  | fin s1 m1 e1 =>
    cases y with
    | nan => rfl
    | inf s2 => cases s1 <;> cases s2 <;> rfl
    | fin s2 m2 e2 =>
      simp only [mul]
      rw [Nat.mul_comm m1 m2, add_comm e1 e2]
      cases s1 <;> cases s2 <;> rfl

/-- Multiplication by a value that is not negative is monotone, up to `NaN`. -/
theorem mul_leN (x x1 y : B64) (hx : signClear x = true) (hx1 : signClear x1 = true)
    (hy : signClear y = true) (h : leN x x1 = true) : leN (x * y) (x1 * y) = true := by
  rcases signClear_cases y hy with rfl | rfl | ⟨n, f, rfl⟩
  · rw [mul_nan_right]; exact leN_nan_left _
  · rcases signClear_cases x1 hx1 with rfl | rfl | ⟨m1, e1, rfl⟩
    · rw [mul_nan_left]; exact leN_nan_right _
    · exact leN_inf _
    · show leN _ (mul (fin false m1 e1) (inf false)) = true
      simp only [mul]
      split_ifs
      · exact leN_nan_right _
      · exact leN_inf _
  · rcases signClear_cases x1 hx1 with rfl | rfl | ⟨m1, e1, rfl⟩
    · rw [mul_nan_left]; exact leN_nan_right _
    · show leN _ (mul (inf false) (fin false n f)) = true
      simp only [mul]
      split_ifs
      · exact leN_nan_right _
      · exact leN_inf _
    · rcases signClear_cases x hx with rfl | rfl | ⟨m, e, rfl⟩
      · rw [mul_nan_left]; exact leN_nan_left _
      · rw [not_le_inf_fin] at h
        exact absurd h (by decide)
      · have a1 := le_of_leN_fin _ _ _ _ h
        rw [mul_fin_fin, mul_fin_fin, leN_iff]
        refine Or.inr (Or.inr ?_)
        have hc : min e e1 + f ≤ e + f := by
          have := min_le_left e e1
          omega
        have hc1 : min e e1 + f ≤ e1 + f := by
          have := min_le_right e e1
          omega
        apply round_mono_exact _ _ _ _ (min e e1 + f) hc hc1
        have x1 : (e + f - (min e e1 + f)).toNat = (e - min e e1).toNat := by
          congr 1
          ring
        have x2 : (e1 + f - (min e e1 + f)).toNat = (e1 - min e e1).toNat := by
          congr 1
          ring
        rw [x1, x2]
        rw [le_fin_iff] at a1
        calc m * n * 2 ^ (e - min e e1).toNat = m * 2 ^ (e - min e e1).toNat * n := by ring
          _ ≤ m1 * 2 ^ (e1 - min e e1).toNat * n := Nat.mul_le_mul_right _ a1
          _ = m1 * n * 2 ^ (e1 - min e e1).toNat := by ring

theorem mul_leN_left (x x1 y : B64) (hx : signClear x = true) (hx1 : signClear x1 = true)
    (hy : signClear y = true) (h : leN x x1 = true) : leN (y * x) (y * x1) = true := by
  rw [mul_comm_B64 y x, mul_comm_B64 y x1]
  exact mul_leN x x1 y hx hx1 hy h

theorem div_fin_fin (m1 m2 : Nat) (e1 e2 : Int) (h : m2 ≠ 0) :
    fin false m1 e1 / fin false m2 e2
      = round false (m1 * 2 ^ 128 / m2) (e1 - e2 - 128) (decide (m1 * 2 ^ 128 % m2 ≠ 0)) := by
  show div (fin false m1 e1) (fin false m2 e2) = _
  simp only [div, if_neg h]
  rfl

theorem quot_big (m1 m2 : Nat) (h1 : m1 ≠ 0) (h2 : 0 < m2) (h3 : m2 < 2 ^ 53) :
    55 ≤ bitLength (m1 * 2 ^ 128 / m2) := by
  apply bitLength_ge _ 54
  rw [Nat.le_div_iff_mul_le h2]
  have a1 : 2 ^ 54 * m2 ≤ 2 ^ 54 * 2 ^ 53 := Nat.mul_le_mul_left _ h3.le
  have a2 : (2 : Nat) ^ 54 * 2 ^ 53 ≤ 1 * 2 ^ 128 := by norm_num
  have a3 : 1 * 2 ^ 128 ≤ m1 * 2 ^ 128 := Nat.mul_le_mul_right _ (Nat.pos_of_ne_zero h1)
  omega

theorem div_zero_num (m2 : Nat) (e1 e2 : Int) (h : m2 ≠ 0) :
    fin false 0 e1 / fin false m2 e2 = fin false 0 (-1074) := by
  rw [div_fin_fin 0 m2 e1 e2 h]
  simp [round_zero]

/-- Division by a value that is not negative is monotone in the dividend, up to
`NaN`. -/
theorem div_leN_num (x x1 y : B64) (hx : signClear x = true) (hx1 : signClear x1 = true)
    (hy : signClear y = true) (hys : small y = true) (h : leN x x1 = true) :
    leN (x / y) (x1 / y) = true := by
  rcases signClear_cases y hy with rfl | rfl | ⟨n, f, rfl⟩
  · rw [div_nan_right]; exact leN_nan_left _
  · rcases signClear_cases x hx with rfl | rfl | ⟨m, e, rfl⟩
    · rw [div_nan_left]; exact leN_nan_left _
    · exact leN_nan_left _
    · rcases signClear_cases x1 hx1 with rfl | rfl | ⟨m1, e1, rfl⟩
      · rw [div_nan_left]; exact leN_nan_right _
      · exact leN_nan_right _
      · exact leN_refl _
  · rcases signClear_cases x1 hx1 with rfl | rfl | ⟨m1, e1, rfl⟩
    · rw [div_nan_left]; exact leN_nan_right _
    · exact leN_inf _
    · rcases signClear_cases x hx with rfl | rfl | ⟨m, e, rfl⟩
      · rw [div_nan_left]; exact leN_nan_left _
      · rw [not_le_inf_fin] at h
        exact absurd h (by decide)
      · by_cases hn : n = 0
        · subst hn
          show leN _ (div (fin false m1 e1) (fin false 0 f)) = true
          simp only [div, if_true]
          split_ifs
          · exact leN_nan_right _
          · exact leN_inf _
        · have hnpos : 0 < n := Nat.pos_of_ne_zero hn
          have hn53 : n < 2 ^ 53 := by simpa [small] using hys
          have a1 := le_of_leN_fin _ _ _ _ h
          by_cases hm : m = 0
          · subst hm
            rw [div_zero_num n e f hn, div_fin_fin m1 n e1 f hn, leN_iff]
            exact Or.inr (Or.inr (le_zero_round _ _ _ _))
          · rw [le_fin_iff] at a1
            have hm1 : m1 ≠ 0 := by
              intro h0
              subst h0
              have : 0 < m * 2 ^ (e - min e e1).toNat :=
                Nat.mul_pos (Nat.pos_of_ne_zero hm) (pow_pos (by decide) _)
              omega
            rw [div_fin_fin m n e f hn, div_fin_fin m1 n e1 f hn, leN_iff]
            refine Or.inr (Or.inr ?_)
            have hc : min e e1 - f - 128 ≤ e - f - 128 := by
              have := min_le_left e e1
              omega
            have hc1 : min e e1 - f - 128 ≤ e1 - f - 128 := by
              have := min_le_right e e1
              omega
            apply round_div_mono _ _ _ _ _ _ (min e e1 - f - 128) hnpos hnpos hc hc1
              (quot_big m n hm hnpos hn53) (quot_big m1 n hm1 hnpos hn53)
            have x1 : (e - f - 128 - (min e e1 - f - 128)).toNat = (e - min e e1).toNat := by
              congr 1
              ring
            have x2 : (e1 - f - 128 - (min e e1 - f - 128)).toNat = (e1 - min e e1).toNat := by
              congr 1
              ring
            rw [x1, x2]
            calc m * 2 ^ 128 * 2 ^ (e - min e e1).toNat * n
                = m * 2 ^ (e - min e e1).toNat * (2 ^ 128 * n) := by ring
              _ ≤ m1 * 2 ^ (e1 - min e e1).toNat * (2 ^ 128 * n) := Nat.mul_le_mul_right _ a1
              _ = m1 * 2 ^ 128 * 2 ^ (e1 - min e e1).toNat * n := by ring

/-- Division of a value that is not negative is antitone in the divisor, up to
`NaN`. -/
theorem div_leN_den (x y y1 : B64) (hx : signClear x = true) (hy : signClear y = true)
    (hy1 : signClear y1 = true) (hys : small y = true) (hys1 : small y1 = true)
    (h : leN y y1 = true) : leN (x / y1) (x / y) = true := by
  rcases signClear_cases x hx with rfl | rfl | ⟨m, e, rfl⟩
  · rw [div_nan_left]; exact leN_nan_left _
  · rcases signClear_cases y hy with rfl | rfl | ⟨n, f, rfl⟩
    · exact leN_nan_right _
    · exact leN_nan_right _
    · exact leN_inf _
  · rcases signClear_cases y1 hy1 with rfl | rfl | ⟨n1, f1, rfl⟩
    · exact leN_nan_left _
    · rcases signClear_cases y hy with rfl | rfl | ⟨n, f, rfl⟩
      · exact leN_nan_right _
      · exact leN_refl _
      · by_cases hn : n = 0
        · subst hn
          show leN _ (div (fin false m e) (fin false 0 f)) = true
          simp only [div, if_true]
          split_ifs
          · exact leN_nan_right _
          · exact leN_inf _
        · rw [div_fin_fin m n e f hn, leN_iff]
          exact Or.inr (Or.inr (le_zero_round _ _ _ _))
    · rcases signClear_cases y hy with rfl | rfl | ⟨n, f, rfl⟩
      · exact leN_nan_right _
      · rw [not_le_inf_fin] at h
        exact absurd h (by decide)
      · by_cases hn : n = 0
        · subst hn
          show leN _ (div (fin false m e) (fin false 0 f)) = true
          simp only [div, if_true]
          split_ifs
          · exact leN_nan_right _
          · exact leN_inf _
        · have hnpos : 0 < n := Nat.pos_of_ne_zero hn
          have hn53 : n < 2 ^ 53 := by simpa [small] using hys
          have hn153 : n1 < 2 ^ 53 := by simpa [small] using hys1
          have a1 := le_of_leN_fin _ _ _ _ h
          rw [le_fin_iff] at a1
          have hn1 : n1 ≠ 0 := by
            intro h0
            subst h0
            have : 0 < n * 2 ^ (f - min f f1).toNat :=
              Nat.mul_pos hnpos (pow_pos (by decide) _)
            omega
          have hn1pos : 0 < n1 := Nat.pos_of_ne_zero hn1
          by_cases hm : m = 0
          · subst hm
            rw [div_zero_num n e f hn, div_zero_num n1 e f1 hn1]
            exact leN_refl _
          · rw [div_fin_fin m n e f hn, div_fin_fin m n1 e f1 hn1, leN_iff]
            refine Or.inr (Or.inr ?_)
            have hc : e - max f f1 - 128 ≤ e - f1 - 128 := by
              have := le_max_right f f1
              omega
            have hc1 : e - max f f1 - 128 ≤ e - f - 128 := by
              have := le_max_left f f1
              omega
            apply round_div_mono _ _ _ _ _ _ (e - max f f1 - 128) hn1pos hnpos hc hc1
              (quot_big m n1 hm hn1pos hn153) (quot_big m n hm hnpos hn53)
            have x1 : (e - f1 - 128 - (e - max f f1 - 128)).toNat = (f - min f f1).toNat := by
              congr 1
              rcases le_total f f1 with hff | hff
              · rw [max_eq_right hff, min_eq_left hff]
                ring
              · rw [max_eq_left hff, min_eq_right hff]
                ring
            have x2 : (e - f - 128 - (e - max f f1 - 128)).toNat = (f1 - min f f1).toNat := by
              congr 1
              rcases le_total f f1 with hff | hff
              · rw [max_eq_right hff, min_eq_left hff]
                ring
              · rw [max_eq_left hff, min_eq_right hff]
                ring
            rw [x1, x2]
            calc m * 2 ^ 128 * 2 ^ (f - min f f1).toNat * n
                = n * 2 ^ (f - min f f1).toNat * (m * 2 ^ 128) := by ring
              _ ≤ n1 * 2 ^ (f1 - min f f1).toNat * (m * 2 ^ 128) := Nat.mul_le_mul_right _ a1
              _ = m * 2 ^ 128 * 2 ^ (f1 - min f f1).toNat * n1 := by ring

/-- The conversion of natural numbers is monotone. -/
theorem ofInt_mono (a b : Nat) (h : a ≤ b) :
    le (ofInt (a : Int)) (ofInt (b : Int)) = true := by
  have ha : decide (((a : Nat) : Int) < 0) = false := by
    simp
  have hb : decide (((b : Nat) : Int) < 0) = false := by
    simp
  simp only [ofInt, ha, hb, Int.natAbs_ofNat]
  apply round_mono_exact a b 0 0 0 (le_refl _) (le_refl _)
  simpa using h

end B64

theorem notNeg_sum_aux : ∀ (l : List B64) (acc : B64), B64.notNeg acc = true →
    (∀ x ∈ l, B64.notNeg x = true) →
    B64.notNeg (l.foldl (fun retVal f => retVal + f) acc) = true
  | [], acc, hacc, _ => hacc
  | x :: l, acc, hacc, h => by
    rw [List.foldl_cons]
    exact notNeg_sum_aux l _ (B64.add_notNeg acc x hacc (h x (List.mem_cons_self x l)))
      (fun y hy => h y (List.mem_cons_of_mem x hy))

theorem notNeg_sum (l : List B64) (h : ∀ x ∈ l, B64.notNeg x = true) :
    B64.notNeg (sum l) = true :=
  notNeg_sum_aux l 0 rfl h

/-- The value the inner loop appends for a term is not negative when `TF`, `IDF`
and `k1` are not negative, `0 ≤ b ≤ 1`, the document length is not negative and
the average length has its sign bit clear. -/
theorem notNeg_term (tf : TFIDF) (k1 b docLen avgLen : B64) (id : Int)
    (hTF : B64.notNeg (tf.TF.get id) = true) (hIDF : B64.notNeg (tf.IDF.get id) = true)
    (hk : B64.notNeg k1 = true) (hb0 : B64.le 0 b = true) (hb1 : B64.le b 1 = true)
    (hD : B64.notNeg docLen = true) (havg : B64.signClear avgLen = true) :
    B64.notNeg (term tf k1 b docLen avgLen id) = true := by
  have hone : B64.notNeg (1 : B64) = true := rfl
  have hk1 : B64.notNeg (k1 + 1) = true := B64.add_notNeg _ _ hk hone
  have hinner : B64.notNeg (1 - b + b * docLen / avgLen) = true :=
    B64.add_notNeg _ _ (B64.notNeg_one_sub b hb0 hb1)
      (B64.div_notNeg _ _ (B64.mul_notNeg _ _ (B64.notNeg_of_le_zero b hb0) hD) havg)
  have hK : B64.notNeg (k1 * (1 - b + b * docLen / avgLen)) = true :=
    B64.mul_notNeg _ _ hk hinner
  unfold term
  by_cases hz : B64.zeroOrNaN (tf.TF.get id) = true
  · exact B64.notNeg_of_zeroOrNaN _
      (B64.zeroOrNaN_div _ _ (B64.zeroOrNaN_mul_right _ _ (B64.zeroOrNaN_mul_left _ _ hz)))
  · have hz1 : B64.zeroOrNaN (tf.TF.get id) = false := by simpa using hz
    exact B64.div_notNeg _ _ (B64.mul_notNeg _ _ hIDF (B64.mul_notNeg _ _ hTF hk1))
      (B64.signClear_add_pos _ _ hTF hz1 hK)

theorem signClear_avgLen (tf : TFIDF) (hDocs : 0 ≤ tf.Docs) (hLen : 0 ≤ tf.Len) :
    B64.signClear (B64.ofInt tf.Len / B64.ofInt tf.Docs) = true := by
  have h1 := B64.signClear_ofInt tf.Len hLen
  have h2 := B64.signClear_ofInt tf.Docs hDocs
  show B64.signClear (B64.div (B64.ofInt tf.Len) (B64.ofInt tf.Docs)) = true
  generalize B64.ofInt tf.Len = x at h1
  generalize B64.ofInt tf.Docs = y at h2
  cases x with
  | nan => cases y <;> simp [B64.div, B64.signClear]
  | inf s1 => cases y <;> simp_all [B64.div, B64.signClear]
  | fin s1 m1 e1 =>
    cases y with
    | nan => simp [B64.div, B64.signClear]
    | inf s2 => simp_all [B64.div, B64.signClear]
    | fin s2 m2 e2 =>
      simp only [B64.signClear, Bool.not_eq_true'] at h1 h2
      subst h1 h2
      simp only [B64.div]
      split_ifs
      · rfl
      · rfl
      · exact B64.signClear_round _ _ _

/-- Over binary64 the score of a document is not negative when `k1` and `b` are in
the ranges of the claim and the common terms have weights that are not
negative. -/
theorem notNeg_scoreOf (tf : TFIDF) (query : Document) (k1 b : B64) (doc : Document)
    (hDocs : 0 < tf.Docs) (hLen : 0 ≤ tf.Len) (hk : B64.le 0 k1 = true)
    (hb0 : B64.le 0 b = true) (hb1 : B64.le b 1 = true)
    (hTF : ∀ t ∈ common query doc, B64.le 0 (tf.TF.get t) = true)
    (hIDF : ∀ t ∈ common query doc, B64.le 0 (tf.IDF.get t) = true) :
    B64.notNeg (scoreOf tf query k1 b doc) = true := by
  unfold scoreOf
  apply notNeg_sum
  intro x hx
  obtain ⟨t, ht, rfl⟩ := List.mem_map.1 hx
  exact notNeg_term tf k1 b _ _ t (B64.notNeg_of_le_zero _ (hTF t ht))
    (B64.notNeg_of_le_zero _ (hIDF t ht)) (B64.notNeg_of_le_zero _ hk) hb0 hb1
    (B64.notNeg_of_signClear _ (B64.signClear_ofInt _ (Int.natCast_nonneg _)))
    (signClear_avgLen tf hDocs.le hLen)

theorem le_of_lt_B64 (x y : B64) (h : B64.lt x y = true) : B64.le x y = true := by
  cases x <;> cases y <;> simp_all [B64.lt, B64.le]
  exact le_of_lt h

theorem lt_zero_of_notNeg (x : B64) (h : B64.notNeg x = true) : B64.lt x 0 = false := by
  show B64.lt x B64.zero = false
  cases x with
  | nan => rfl
  | inf s => simpa [B64.lt, B64.zero, B64.notNeg] using h
  | fin s m e =>
    have := B64.scaled_nonneg s m e (min e (-1074)) h
    simp only [B64.lt, B64.zero, B64.scaled_zero, decide_eq_false_iff_not, not_lt]
    exact this

theorem zeroOrNaN_add (x y : B64) (hx : B64.zeroOrNaN x = true) (hy : B64.zeroOrNaN y = true) :
    B64.zeroOrNaN (x + y) = true := by
  show B64.zeroOrNaN (B64.add x y) = true
  cases x with
  | nan => cases y <;> simp [B64.add, B64.zeroOrNaN]
  | inf s1 => simp [B64.zeroOrNaN] at hx
  | fin s1 m1 e1 =>
    cases y with
    | nan => simp [B64.add, B64.zeroOrNaN]
    | inf s2 => simp [B64.zeroOrNaN] at hy
    | fin s2 m2 e2 =>
      simp only [B64.zeroOrNaN, decide_eq_true_eq] at hx hy
      subst hx hy
      simp [B64.add, B64.scaled_zero, B64.zeroOrNaN]

theorem zeroOrNaN_sum_aux : ∀ (l : List B64) (acc : B64), B64.zeroOrNaN acc = true →
    (∀ x ∈ l, B64.zeroOrNaN x = true) →
    B64.zeroOrNaN (l.foldl (fun retVal f => retVal + f) acc) = true
  | [], acc, hacc, _ => hacc
  | x :: l, acc, hacc, h => by
    rw [List.foldl_cons]
    exact zeroOrNaN_sum_aux l _ (zeroOrNaN_add acc x hacc (h x (List.mem_cons_self x l)))
      (fun y hy => h y (List.mem_cons_of_mem x hy))

/-- A term whose frequency weight reads as a zero contributes a zero or `NaN`,
whatever the other values are. -/
theorem zeroOrNaN_term (tf : TFIDF) (k1 b docLen avgLen : B64) (id : Int)
    (h : B64.zeroOrNaN (tf.TF.get id) = true) :
    B64.zeroOrNaN (term tf k1 b docLen avgLen id) = true :=
  B64.zeroOrNaN_div _ _ (B64.zeroOrNaN_mul_right _ _ (B64.zeroOrNaN_mul_left _ _ h))

theorem get_of_not_known64 (tf : TFIDF) (t : Int) (h : known tf t = false) :
    tf.TF.get t = 0 ∧ tf.IDF.get t = 0 := by
  unfold known at h
  rw [Bool.or_eq_false_iff] at h
  have h1 : tf.TF t = none := by simpa using h.1
  have h2 : tf.IDF t = none := by simpa using h.2
  exact ⟨by simp [FloatMap.get, h1], by simp [FloatMap.get, h2]⟩

end IEEE

/-! ## The order of scores over binary64 -/

namespace IEEE

namespace B64

theorem signClear_add (x y : B64) (hx : signClear x = true) (hy : signClear y = true) :
    signClear (x + y) = true := by
  rcases signClear_cases x hx with rfl | rfl | ⟨m, e, rfl⟩
  · rw [add_nan_left]; rfl
  · rcases signClear_cases y hy with rfl | rfl | ⟨n, f, rfl⟩ <;> rfl
  · rcases signClear_cases y hy with rfl | rfl | ⟨n, f, rfl⟩
    · rfl
    · rfl
    · rw [add_fin_fin]
      exact signClear_round _ _ _

theorem signClear_mul (x y : B64) (hx : signClear x = true) (hy : signClear y = true) :
    signClear (x * y) = true := by
  rcases signClear_cases x hx with rfl | rfl | ⟨m, e, rfl⟩
  · rw [mul_nan_left]; rfl
  · rcases signClear_cases y hy with rfl | rfl | ⟨n, f, rfl⟩
    · rfl
    · rfl
    · show signClear (mul (inf false) (fin false n f)) = true
      simp only [mul]
      split_ifs <;> rfl
  · rcases signClear_cases y hy with rfl | rfl | ⟨n, f, rfl⟩
    · rfl
    · show signClear (mul (fin false m e) (inf false)) = true
      simp only [mul]
      split_ifs <;> rfl
    · rw [mul_fin_fin]
      exact signClear_round _ _ _

theorem signClear_div (x y : B64) (hx : signClear x = true) (hy : signClear y = true) :
    signClear (x / y) = true := by
  rcases signClear_cases x hx with rfl | rfl | ⟨m, e, rfl⟩
  · rw [div_nan_left]; rfl
  · rcases signClear_cases y hy with rfl | rfl | ⟨n, f, rfl⟩ <;> rfl
  · rcases signClear_cases y hy with rfl | rfl | ⟨n, f, rfl⟩
    · rfl
    · rfl
    · show signClear (div (fin false m e) (fin false n f)) = true
      simp only [div]
      split_ifs
      · rfl
      · rfl
      · exact signClear_round _ _ _

theorem signClear_one_sub (b : B64) (hb : signClear b = true) (h1 : le b 1 = true) :
    signClear (1 - b) = true := by
  show signClear (add (fin false (2 ^ 52) (-52)) (neg b)) = true
  rcases signClear_cases b hb with rfl | rfl | ⟨m, e, rfl⟩
  · simp [le] at h1
  · have h3 : le (inf false) (fin false (2 ^ 52) (-52)) = true := h1
    simp [le] at h3
  · have h3 : le (fin false m e) (fin false (2 ^ 52) (-52)) = true := h1
    simp only [le, decide_eq_true_eq] at h3
    simp only [neg, add]
    have hneg : scaled (!false) m e (min (-52) e) = - scaled false m e (min e (-52)) := by
      rw [min_comm]
      unfold scaled
      simp
    rw [min_comm e (-52)] at h3
    rw [hneg, min_comm e (-52)]
    split_ifs with hz
    · simp [signClear]
    · have hd : decide (scaled false (2 ^ 52) (-52) (min (-52) e)
          + -scaled false m e (min (-52) e) < 0) = false := by
        simp only [decide_eq_false_iff_not, not_lt]
        omega
      rw [hd]
      exact signClear_round _ _ _

theorem signClear_of_lt (x y : B64) (hx : signClear x = true) (h : lt x y = true) :
    signClear y = true := by
  rcases signClear_cases x hx with rfl | rfl | ⟨m, e, rfl⟩
  · simp [lt] at h
  · cases y with
    | nan => rfl
    | inf s => simp [lt] at h
    | fin s n f => simp [lt] at h
  · cases y with
    | nan => rfl
    | inf s => simpa [lt, signClear] using h
    | fin s n f =>
      simp only [lt, decide_eq_true_eq] at h
      cases s
      · rfl
      · exfalso
        have h1 : (0 : Int) ≤ scaled false m e (min e f) := scaled_nonneg false m e _ rfl
        have h2 : scaled true n f (min e f) ≤ 0 := by
          unfold scaled
          simp only [if_true]
          have : (0 : Int) ≤ ((n * 2 ^ (f - min e f).toNat : Nat) : Int) := Int.natCast_nonneg _
          omega
        omega

theorem signClear_of_pos (x : B64) (h : lt 0 x = true) : signClear x = true :=
  signClear_of_lt zero x rfl h

theorem lt_false_of_leN (x y : B64) (h : leN x y = true) : lt y x = false := by
  rw [leN_iff] at h
  rcases h with rfl | rfl | h
  · cases y <;> rfl
  · cases x <;> rfl
  · cases x with
    | nan => simp [le] at h
    | inf s1 =>
      cases y with
      | nan => rfl
      | inf s2 => cases s1 <;> cases s2 <;> simp_all [le, lt]
      | fin s2 m2 e2 => simp_all [le, lt]
    | fin s1 m1 e1 =>
      cases y with
      | nan => rfl
      | inf s2 => simp_all [le, lt]
      | fin s2 m2 e2 =>
        simp only [le, decide_eq_true_eq] at h
        simp only [lt, decide_eq_false_iff_not, not_lt]
        rw [min_comm e2 e1]
        exact h

theorem leN_of_le (x y : B64) (h : le x y = true) : leN x y = true := by
  rw [leN_iff]
  exact Or.inr (Or.inr h)

end B64

/-- The value appended for a term does not grow with the length of the document,
up to `NaN`, when the weights, `k1`, `b` and the average length are not
negative. -/
theorem term_leN_len (tf : TFIDF) (k1 b D D1 avgLen : B64) (t : Int)
    (hTF : B64.signClear (tf.TF.get t) = true) (hIDF : B64.signClear (tf.IDF.get t) = true)
    (hk : B64.signClear k1 = true) (hb : B64.signClear b = true) (hb1 : B64.le b 1 = true)
    (hD : B64.signClear D = true) (hD1 : B64.signClear D1 = true)
    (havg : B64.signClear avgLen = true) (havgs : B64.small avgLen = true)
    (h : B64.leN D D1 = true) :
    B64.leN (term tf k1 b D1 avgLen t) (term tf k1 b D avgLen t) = true := by
  have h1b := B64.signClear_one_sub b hb hb1
  have hq := B64.mul_leN_left D D1 b hD hD1 hb h
  have sq := B64.signClear_mul b D hb hD
  have sq1 := B64.signClear_mul b D1 hb hD1
  have hr := B64.div_leN_num (b * D) (b * D1) avgLen sq sq1 havg havgs hq
  have sr := B64.signClear_div _ _ sq havg
  have sr1 := B64.signClear_div _ _ sq1 havg
  have hs := B64.add_leN (1 - b) (1 - b) _ _ h1b h1b sr sr1 (B64.leN_refl _) hr
  have ss := B64.signClear_add _ _ h1b sr
  have ss1 := B64.signClear_add _ _ h1b sr1
  have hK := B64.mul_leN_left _ _ k1 ss ss1 hk hs
  have sK := B64.signClear_mul _ _ hk ss
  have sK1 := B64.signClear_mul _ _ hk ss1
  have hden := B64.add_leN (tf.TF.get t) (tf.TF.get t) _ _ hTF hTF sK sK1 (B64.leN_refl _) hK
  have sden := B64.signClear_add _ _ hTF sK
  have sden1 := B64.signClear_add _ _ hTF sK1
  have hone : B64.signClear (1 : B64) = true := rfl
  have snum := B64.signClear_mul _ _ hTF (B64.signClear_add _ _ hk hone)
  have sX := B64.signClear_mul _ _ hIDF snum
  exact B64.div_leN_den (tf.IDF.get t * (tf.TF.get t * (k1 + 1))) _ _ sX sden sden1
    (B64.small_add _ _) (B64.small_add _ _) hden

/-- The value appended for a term is not negative when the weights, `k1`, `b` and
the lengths are not. -/
theorem signClear_term (tf : TFIDF) (k1 b D avgLen : B64) (t : Int)
    (hTF : B64.signClear (tf.TF.get t) = true) (hIDF : B64.signClear (tf.IDF.get t) = true)
    (hk : B64.signClear k1 = true) (hb : B64.signClear b = true) (hb1 : B64.le b 1 = true)
    (hD : B64.signClear D = true) (havg : B64.signClear avgLen = true) :
    B64.signClear (term tf k1 b D avgLen t) = true := by
  have h1b := B64.signClear_one_sub b hb hb1
  have sq := B64.signClear_mul b D hb hD
  have sr := B64.signClear_div _ _ sq havg
  have ss := B64.signClear_add _ _ h1b sr
  have sK := B64.signClear_mul _ _ hk ss
  have sden := B64.signClear_add _ _ hTF sK
  have hone : B64.signClear (1 : B64) = true := rfl
  have snum := B64.signClear_mul _ _ hTF (B64.signClear_add _ _ hk hone)
  have sX := B64.signClear_mul _ _ hIDF snum
  exact B64.signClear_div _ _ sX sden

/-- The value appended for a term does not shrink when its inverse document
frequency grows, up to `NaN`. -/
theorem term_leN_idf (tf tf1 : TFIDF) (k1 b D avgLen : B64) (t : Int)
    (hsame : tf1.TF.get t = tf.TF.get t)
    (hTF : B64.signClear (tf.TF.get t) = true) (hIDF : B64.signClear (tf.IDF.get t) = true)
    (hIDF1 : B64.signClear (tf1.IDF.get t) = true)
    (hk : B64.signClear k1 = true) (hb : B64.signClear b = true) (hb1 : B64.le b 1 = true)
    (hD : B64.signClear D = true) (havg : B64.signClear avgLen = true)
    (h : B64.leN (tf.IDF.get t) (tf1.IDF.get t) = true) :
    B64.leN (term tf k1 b D avgLen t) (term tf1 k1 b D avgLen t) = true := by
  have h1b := B64.signClear_one_sub b hb hb1
  have sq := B64.signClear_mul b D hb hD
  have sr := B64.signClear_div _ _ sq havg
  have ss := B64.signClear_add _ _ h1b sr
  have sK := B64.signClear_mul _ _ hk ss
  have sden := B64.signClear_add _ _ hTF sK
  have hone : B64.signClear (1 : B64) = true := rfl
  have snum := B64.signClear_mul _ _ hTF (B64.signClear_add _ _ hk hone)
  have hX := B64.mul_leN _ _ (tf.TF.get t * (k1 + 1)) hIDF hIDF1 snum h
  have sX := B64.signClear_mul _ _ hIDF snum
  have sX1 := B64.signClear_mul _ _ hIDF1 snum
  have := B64.div_leN_num _ _ (tf.TF.get t + k1 * (1 - b + b * D / avgLen)) sX sX1 sden
    (B64.small_add _ _) hX
  unfold term
  simp only [hsame]
  exact this

theorem foldl_leN : ∀ (l : List Int) (f g : Int → B64) (acc acc1 : B64),
    B64.signClear acc = true → B64.signClear acc1 = true → B64.leN acc acc1 = true →
    (∀ u ∈ l, B64.signClear (f u) = true ∧ B64.signClear (g u) = true ∧
      B64.leN (f u) (g u) = true) →
    B64.leN ((l.map f).foldl (fun retVal x => retVal + x) acc)
      ((l.map g).foldl (fun retVal x => retVal + x) acc1) = true
  | [], _, _, _, _, _, _, h, _ => h
  | u :: l, f, g, acc, acc1, ha, ha1, h, hl => by
    obtain ⟨h1, h2, h3⟩ := hl u (List.mem_cons_self u l)
    simp only [List.map_cons, List.foldl_cons]
    exact foldl_leN l f g _ _ (B64.signClear_add _ _ ha h1) (B64.signClear_add _ _ ha1 h2)
      (B64.add_leN _ _ _ _ ha ha1 h1 h2 h h3)
      (fun v hv => hl v (List.mem_cons_of_mem u hv))

/-- Sums of values that are not negative are monotone term by term, up to
`NaN`. -/
theorem sum_leN (l : List Int) (f g : Int → B64)
    (h : ∀ u ∈ l, B64.signClear (f u) = true ∧ B64.signClear (g u) = true ∧
      B64.leN (f u) (g u) = true) :
    B64.leN (sum (l.map f)) (sum (l.map g)) = true :=
  foldl_leN l f g 0 0 rfl rfl (B64.leN_refl _) h

end IEEE

namespace IEEE

theorem setIDF_get_self64 (tf : TFIDF) (t : Int) (y : B64) : (setIDF tf t y).IDF.get t = y := by
  simp [setIDF, FloatMap.get]

theorem setIDF_get_ne64 (tf : TFIDF) (t u : Int) (y : B64) (h : u ≠ t) :
    (setIDF tf t y).IDF.get u = tf.IDF.get u := by
  simp [setIDF, FloatMap.get, Function.update_noteq h]

theorem leN_zero (x : B64) (h : B64.signClear x = true) : B64.leN 0 x = true := by
  rcases B64.signClear_cases x h with rfl | rfl | ⟨m, e, rfl⟩
  · exact B64.leN_nan_right _
  · exact B64.leN_inf _
  · exact B64.leN_of_le _ _ (B64.le_zero_fin _ _ _)

/-- Over binary64, for the query of one term, the longer of two documents that
contain the term does not score above the shorter, up to `NaN`. -/
theorem scoreOf_leN_len (tf : TFIDF) (t : Int) (k1 b : B64) (di dj : Document)
    (hTF : B64.lt 0 (tf.TF.get t) = true) (hIDF : B64.lt 0 (tf.IDF.get t) = true)
    (hDocs : 0 < tf.Docs) (hLen : 0 < tf.Len) (hk : B64.lt 0 k1 = true)
    (hb0 : B64.lt 0 b = true) (hb1 : B64.le b 1 = true)
    (hti : t ∈ di) (htj : t ∈ dj) (hle : di.toFinset.card ≤ dj.toFinset.card) :
    B64.leN (scoreOf tf [t] k1 b dj) (scoreOf tf [t] k1 b di) = true := by
  have sTF := B64.signClear_of_pos _ hTF
  have sIDF := B64.signClear_of_pos _ hIDF
  have sk := B64.signClear_of_pos _ hk
  have sb := B64.signClear_of_pos _ hb0
  have savg := signClear_avgLen tf hDocs.le hLen.le
  have sDi : B64.signClear (B64.ofInt ((BOW di).length : Int)) = true :=
    B64.signClear_ofInt _ (Int.natCast_nonneg _)
  have sDj : B64.signClear (B64.ofInt ((BOW dj).length : Int)) = true :=
    B64.signClear_ofInt _ (Int.natCast_nonneg _)
  have hD : B64.leN (B64.ofInt ((BOW di).length : Int)) (B64.ofInt ((BOW dj).length : Int))
      = true := by
    apply B64.leN_of_le
    apply B64.ofInt_mono
    rw [BOW_length, BOW_length]
    exact hle
  unfold scoreOf
  rw [common_singleton_mem t di hti, common_singleton_mem t dj htj]
  apply sum_leN
  intro u hu
  rw [List.mem_singleton] at hu
  subst hu
  exact ⟨signClear_term tf k1 b _ _ u sTF sIDF sk sb hb1 sDj savg,
    signClear_term tf k1 b _ _ u sTF sIDF sk sb hb1 sDi savg,
    term_leN_len tf k1 b _ _ _ u sTF sIDF sk sb hb1 sDi sDj savg (B64.small_div _ _) hD⟩

/-- Over binary64 a larger inverse document frequency of a term does not lower
the score of a document, up to `NaN`. -/
theorem scoreOf_leN_idf (tf : TFIDF) (query doc : Document) (k1 b : B64) (t : Int) (y2 : B64)
    (hk : B64.lt 0 k1 = true) (hb : B64.signClear b = true) (hb1 : B64.le b 1 = true)
    (hDocs : 0 < tf.Docs) (hLen : 0 < tf.Len)
    (hIDF : B64.signClear (tf.IDF.get t) = true) (hlt : B64.lt (tf.IDF.get t) y2 = true)
    (hall : ∀ u ∈ query, u ∈ doc →
      B64.signClear (tf.TF.get u) = true ∧ B64.signClear (tf.IDF.get u) = true) :
    B64.leN (scoreOf tf query k1 b doc) (scoreOf (setIDF tf t y2) query k1 b doc) = true := by
  have sk := B64.signClear_of_pos _ hk
  have savg := signClear_avgLen tf hDocs.le hLen.le
  have sD : B64.signClear (B64.ofInt ((BOW doc).length : Int)) = true :=
    B64.signClear_ofInt _ (Int.natCast_nonneg _)
  have sy2 := B64.signClear_of_lt _ _ hIDF hlt
  show B64.leN (sum ((common query doc).map (term tf k1 b (B64.ofInt (BOW doc).length)
      (B64.ofInt tf.Len / B64.ofInt tf.Docs))))
    (sum ((common query doc).map (term (setIDF tf t y2) k1 b (B64.ofInt (BOW doc).length)
      (B64.ofInt tf.Len / B64.ofInt tf.Docs)))) = true
  apply sum_leN
  intro u hu
  obtain ⟨huq, hud⟩ := (mem_common query doc u).1 hu
  obtain ⟨sTFu, sIDFu⟩ := hall u huq hud
  by_cases hut : u = t
  · subst hut
    have sIDF2 : B64.signClear ((setIDF tf u y2).IDF.get u) = true := by
      rw [setIDF_get_self64]
      exact sy2
    have hle : B64.leN (tf.IDF.get u) ((setIDF tf u y2).IDF.get u) = true := by
      rw [setIDF_get_self64]
      exact B64.leN_of_le _ _ (le_of_lt_B64 _ _ hlt)
    exact ⟨signClear_term tf k1 b _ _ u sTFu sIDFu sk hb hb1 sD savg,
      signClear_term (setIDF tf u y2) k1 b _ _ u sTFu sIDF2 sk hb hb1 sD savg,
      term_leN_idf tf (setIDF tf u y2) k1 b _ _ u rfl sTFu sIDFu sIDF2 sk hb hb1 sD savg hle⟩
  · have heq : term (setIDF tf t y2) k1 b (B64.ofInt (BOW doc).length)
        (B64.ofInt tf.Len / B64.ofInt tf.Docs) u
        = term tf k1 b (B64.ofInt (BOW doc).length) (B64.ofInt tf.Len / B64.ofInt tf.Docs) u := by
      unfold term
      rw [setIDF_get_ne64 tf t u y2 hut]
      rfl
    rw [heq]
    exact ⟨signClear_term tf k1 b _ _ u sTFu sIDFu sk hb hb1 sD savg,
      signClear_term tf k1 b _ _ u sTFu sIDFu sk hb hb1 sD savg, B64.leN_refl _⟩

/-- Over binary64 the length term can only lower the value appended for a term, up
to `NaN`. -/
theorem term_leN_saturated (tf : TFIDF) (k1 b D avgLen : B64) (t : Int)
    (hTF : B64.signClear (tf.TF.get t) = true) (hIDF : B64.signClear (tf.IDF.get t) = true)
    (hk : B64.signClear k1 = true) (hb : B64.signClear b = true) (hb1 : B64.le b 1 = true)
    (hD : B64.signClear D = true) (havg : B64.signClear avgLen = true) :
    B64.leN (term tf k1 b D avgLen t) (termSaturated tf k1 t) = true := by
  have h1b := B64.signClear_one_sub b hb hb1
  have sq := B64.signClear_mul b D hb hD
  have sr := B64.signClear_div _ _ sq havg
  have ss := B64.signClear_add _ _ h1b sr
  have sK := B64.signClear_mul _ _ hk ss
  have sden := B64.signClear_add _ _ hTF sK
  have hzero : B64.signClear (0 : B64) = true := rfl
  have sden0 := B64.signClear_add _ _ hTF hzero
  have hone : B64.signClear (1 : B64) = true := rfl
  have snum := B64.signClear_mul _ _ hTF (B64.signClear_add _ _ hk hone)
  have sX := B64.signClear_mul _ _ hIDF snum
  have hden := B64.add_leN (tf.TF.get t) (tf.TF.get t) 0 _ hTF hTF hzero sK (B64.leN_refl _)
    (leN_zero _ sK)
  exact B64.div_leN_den (tf.IDF.get t * (tf.TF.get t * (k1 + 1))) _ _ sX sden0 sden
    (B64.small_add _ _) (B64.small_add _ _) hden

theorem signClear_termSaturated (tf : TFIDF) (k1 : B64) (t : Int)
    (hTF : B64.signClear (tf.TF.get t) = true) (hIDF : B64.signClear (tf.IDF.get t) = true)
    (hk : B64.signClear k1 = true) : B64.signClear (termSaturated tf k1 t) = true := by
  have hzero : B64.signClear (0 : B64) = true := rfl
  have hone : B64.signClear (1 : B64) = true := rfl
  exact B64.signClear_div _ _
    (B64.signClear_mul _ _ hIDF (B64.signClear_mul _ _ hTF (B64.signClear_add _ _ hk hone)))
    (B64.signClear_add _ _ hTF hzero)

end IEEE

/-! ## C4, C5, C7, C12, C13, C18 over binary64 -/

namespace IEEE

set_option maxRecDepth 100000 in
set_option exponentiation.threshold 5000 in
/-- C4, refuted as stated over `float64`: with `TF[1] = IDF[1] = 2^-600`,
`Docs = Len = 1`, `k1 = 1.5`, `b = 0.75`, the query `[1]` and the documents `[1]`
and `[2]`, every hypothesis of the claim holds, the product `idf * num`
underflows to 0, and the document that contains the term scores `+0`, as the
document that does not. -/
theorem BM25_single_term_float_false :
    ¬ ∀ (tf : TFIDF) (t : Int) (docs : List Document) (k1 b : B64),
        B64.lt 0 (tf.TF.get t) = true → B64.lt 0 (tf.IDF.get t) = true →
        0 < tf.Docs → 0 < tf.Len → B64.lt 0 k1 = true →
        B64.le 0 b = true → B64.le b 1 = true →
        (∀ (i : Nat) (hi : i < docs.length), t ∈ docs.get ⟨i, hi⟩ →
          ∃ s, scoreAt (BM25 tf [t] docs k1 b) i = some s ∧ B64.lt 0 s = true) ∧
        (∀ (j : Nat) (hj : j < docs.length), t ∉ docs.get ⟨j, hj⟩ →
          scoreAt (BM25 tf [t] docs k1 b) j = some 0) ∧
        (∀ (i j : Nat) (hi : i < docs.length) (hj : j < docs.length),
          t ∈ docs.get ⟨i, hi⟩ → t ∉ docs.get ⟨j, hj⟩ →
          ∃ si sj, scoreAt (BM25 tf [t] docs k1 b) i = some si ∧
            scoreAt (BM25 tf [t] docs k1 b) j = some sj ∧ B64.lt sj si = true) := by
  intro H
  have h := (H (statsOne (B64.lit 1 (-600)) (B64.lit 1 (-600)) 1 1) 1 [[1], [2]]
    (B64.lit 3 (-1)) (B64.lit 3 (-2)) (by decide) (by decide) (by decide) (by decide)
    (by decide) (by decide) (by decide)).1 0 (by decide) (by decide)
  obtain ⟨s, hs, hpos⟩ := h
  have hval : scoreAt (BM25 (statsOne (B64.lit 1 (-600)) (B64.lit 1 (-600)) 1 1) [1]
      [[1], [2]] (B64.lit 3 (-1)) (B64.lit 3 (-2))) 0 = some B64.zero := by
    decide
  rw [hval] at hs
  rw [← Option.some.inj hs] at hpos
  exact absurd hpos (by decide)

set_option maxRecDepth 100000 in
set_option exponentiation.threshold 5000 in
/-- C5, refuted as stated over `float64`: with `TF[1] = 2^1023`, `IDF[1] = 0`,
`Docs = Len = 1`, `k1 = 1.5`, `b = 0.75`, the query `[1]` and the document `[1]`,
every hypothesis of the claim holds, the numerator `tf * (k1 + 1)` overflows to
`+Inf`, the product `idf * num` is `0 * Inf`, and the score is `NaN`, for which
`>= 0` is false. -/
theorem BM25_score_nonneg_float_false :
    ¬ ∀ (tf : TFIDF) (query : Document) (docs : List Document) (k1 b : B64),
        0 < tf.Docs → 0 ≤ tf.Len → B64.le 0 k1 = true →
        B64.le 0 b = true → B64.le b 1 = true →
        (∀ t, B64.le 0 (tf.TF.get t) = true) → (∀ t, B64.le 0 (tf.IDF.get t) = true) →
        ∃ r, BM25 tf query docs k1 b = some r ∧ ∀ e ∈ r, B64.le 0 e.Score = true := by
  intro H
  have hTF : ∀ t, B64.le 0 ((statsOne (B64.lit 1 1023) 0 1 1).TF.get t) = true := by
    intro t
    by_cases ht : t = 1
    · simp only [statsOne, FloatMap.get, ht, if_true, Option.getD_some]
      decide
    · simp only [statsOne, FloatMap.get, ht, if_false, Option.getD_none]
      decide
  have hIDF : ∀ t, B64.le 0 ((statsOne (B64.lit 1 1023) 0 1 1).IDF.get t) = true := by
    intro t
    by_cases ht : t = 1
    · simp only [statsOne, FloatMap.get, ht, if_true, Option.getD_some]
      decide
    · simp only [statsOne, FloatMap.get, ht, if_false, Option.getD_none]
      decide
  obtain ⟨r, hr, hall⟩ := H (statsOne (B64.lit 1 1023) 0 1 1) [1] [[1]] (B64.lit 3 (-1))
    (B64.lit 3 (-2)) (by decide) (by decide) (by decide) (by decide) (by decide) hTF hIDF
  have hval : BM25 (statsOne (B64.lit 1 1023) 0 1 1) [1] [[1]] (B64.lit 3 (-1))
      (B64.lit 3 (-2)) = some [⟨0, B64.nan⟩] := by
    decide
  rw [hval] at hr
  have hmem : (⟨0, B64.nan⟩ : DocScore) ∈ r := by
    rw [← Option.some.inj hr]
    exact List.mem_singleton_self _
  exact absurd (hall _ hmem) (by decide)

set_option maxRecDepth 100000 in
set_option exponentiation.threshold 5000 in
/-- C7, refuted as stated over `float64`: with statistics that know no term,
`Docs = 1`, `Len = 4`, `k1 = 2^-1074`, `b = 1`, the query `[1]` and the document
`[1]`, every hypothesis of the claim holds, the product `k1 * 0.25` rounds to 0,
the denominator is 0, the unknown term contributes `0 / 0`, and the score is
`NaN`, not 0. -/
theorem BM25_unknown_terms_float_false :
    ¬ ∀ (tf : TFIDF) (query : Document) (docs : List Document) (k1 b : B64) (i : Nat)
        (h : i < docs.length),
        0 < tf.Docs → 0 < tf.Len → B64.lt 0 k1 = true →
        B64.le 0 b = true → B64.le b 1 = true →
        (∀ t ∈ query, t ∈ docs.get ⟨i, h⟩ → known tf t = false) →
        scoreAt (BM25 tf query docs k1 b) i = some 0 := by
  intro H
  have h := H (statsNone 1 4) [1] [[1]] (B64.lit 1 (-1074)) 1 0 (by decide) (by decide)
    (by decide) (by decide) (by decide) (by decide) (by decide)
  have hval : scoreAt (BM25 (statsNone 1 4) [1] [[1]] (B64.lit 1 (-1074)) 1) 0
      = some B64.nan := by
    decide
  rw [hval] at h
  exact absurd h (by decide)

set_option maxRecDepth 100000 in
set_option exponentiation.threshold 5000 in
/-- C12, refuted as stated over `float64`: with `TF[1] = 1`, `Docs = Len = 1`,
`k1 = 1.5`, `b = 0.75`, the query `[1]` and the document `[1]`, raising `IDF[1]`
from `7656119366529843 * 2^-52` (1.7) to the next `float64`,
`7656119366529844 * 2^-52`, changes neither the contribution of the term nor the
score: both are `7656119366529843 * 2^-52`. -/
theorem IDF_monotone_float_false :
    ¬ ∀ (tf : TFIDF) (query : Document) (docs : List Document) (k1 b : B64) (i : Nat)
        (h : i < docs.length) (t : Int) (y2 : B64),
        B64.lt 0 k1 = true → B64.le 0 b = true → B64.le b 1 = true →
        0 < tf.Docs → 0 < tf.Len → B64.lt 0 (tf.TF.get t) = true →
        t ∈ query → t ∈ docs.get ⟨i, h⟩ → B64.lt (tf.IDF.get t) y2 = true →
        B64.lt
            (term tf k1 b (B64.ofInt (BOW (docs.get ⟨i, h⟩)).length)
              (B64.ofInt tf.Len / B64.ofInt tf.Docs) t)
            (term (setIDF tf t y2) k1 b (B64.ofInt (BOW (docs.get ⟨i, h⟩)).length)
              (B64.ofInt tf.Len / B64.ofInt tf.Docs) t) = true ∧
        ∃ s1 s2,
          scoreAt (BM25 tf query docs k1 b) i = some s1 ∧
          scoreAt (BM25 (setIDF tf t y2) query docs k1 b) i = some s2 ∧
          B64.lt s1 s2 = true := by
  intro H
  obtain ⟨-, s1, s2, h1, h2, hlt⟩ :=
    H (statsOne 1 (B64.fin false 7656119366529843 (-52)) 1 1) [1] [[1]] (B64.lit 3 (-1))
      (B64.lit 3 (-2)) 0 (by decide) 1 (B64.fin false 7656119366529844 (-52)) (by decide)
      (by decide) (by decide) (by decide) (by decide) (by decide) (by decide) (by decide)
      (by decide)
  have e1 : scoreAt (BM25 (statsOne 1 (B64.fin false 7656119366529843 (-52)) 1 1) [1] [[1]]
      (B64.lit 3 (-1)) (B64.lit 3 (-2))) 0 = some (B64.fin false 7656119366529843 (-52)) := by
    decide
  have e2 : scoreAt (BM25 (setIDF (statsOne 1 (B64.fin false 7656119366529843 (-52)) 1 1) 1
      (B64.fin false 7656119366529844 (-52))) [1] [[1]] (B64.lit 3 (-1)) (B64.lit 3 (-2))) 0
      = some (B64.fin false 7656119366529843 (-52)) := by
    decide
  rw [e1] at h1
  rw [e2] at h2
  rw [← Option.some.inj h1, ← Option.some.inj h2] at hlt
  exact absurd hlt (by decide)

set_option maxRecDepth 100000 in
set_option exponentiation.threshold 5000 in
/-- C13, refuted as stated over `float64`: with `TF[1] = IDF[1] = 1`, `Docs = 1`,
`Len = 2^60`, `k1 = 1.5`, `b = 0.75`, the query `[1]` and the documents `[1]` and
`[1, 2]` (1 and 2 distinct identifiers), the length term `b * docLen / avgLen` is
absorbed in `1 - b + ...` and both documents get the same score,
`8188362958855447 * 2^-52` (1.8181818181818181). -/
theorem BM25_shorter_float_false :
    ¬ ∀ (tf : TFIDF) (t : Int) (docs : List Document) (k1 b : B64) (i j : Nat)
        (hi : i < docs.length) (hj : j < docs.length),
        B64.lt 0 (tf.TF.get t) = true → B64.lt 0 (tf.IDF.get t) = true →
        0 < tf.Docs → 0 < tf.Len → B64.lt 0 k1 = true →
        B64.lt 0 b = true → B64.le b 1 = true →
        t ∈ docs.get ⟨i, hi⟩ → t ∈ docs.get ⟨j, hj⟩ →
        (docs.get ⟨i, hi⟩).toFinset.card < (docs.get ⟨j, hj⟩).toFinset.card →
        ∃ si sj, scoreAt (BM25 tf [t] docs k1 b) i = some si ∧
          scoreAt (BM25 tf [t] docs k1 b) j = some sj ∧ B64.lt sj si = true := by
  intro H
  obtain ⟨si, sj, h1, h2, hlt⟩ :=
    H (statsOne 1 1 1 (2 ^ 60)) 1 [[1], [1, 2]] (B64.lit 3 (-1)) (B64.lit 3 (-2)) 0 1
      (by decide) (by decide) (by decide) (by decide) (by decide) (by decide) (by decide)
      (by decide) (by decide) (by decide) (by decide) (by decide)
  have e1 : scoreAt (BM25 (statsOne 1 1 1 (2 ^ 60)) [1] [[1], [1, 2]] (B64.lit 3 (-1))
      (B64.lit 3 (-2))) 0 = some (B64.fin false 8188362958855447 (-52)) := by
    decide
  have e2 : scoreAt (BM25 (statsOne 1 1 1 (2 ^ 60)) [1] [[1], [1, 2]] (B64.lit 3 (-1))
      (B64.lit 3 (-2))) 1 = some (B64.fin false 8188362958855447 (-52)) := by
    decide
  rw [e1] at h1
  rw [e2] at h2
  rw [← Option.some.inj h1, ← Option.some.inj h2] at hlt
  exact absurd hlt (by decide)

set_option maxRecDepth 100000 in
set_option exponentiation.threshold 5000 in
/-- C18, refuted as stated over `float64`: with `TF[1] = 2^1023`, `IDF[1] = 1`,
`Docs = Len = 1`, `k1 = 1.5`, `b = 0.75`, the query `[1]` and the document `[1]`,
every hypothesis of the claim holds, the numerator `tf * (k1 + 1)` overflows to
`+Inf` and so does the score, above the bound `(k1 + 1) * IDF[1] = 2.5`. -/
theorem BM25_saturation_float_false :
    ¬ ∀ (tf : TFIDF) (query : Document) (docs : List Document) (k1 b : B64) (i : Nat)
        (h : i < docs.length),
        0 < tf.Docs → 0 ≤ tf.Len → B64.le 0 k1 = true →
        B64.le 0 b = true → B64.le b 1 = true →
        (∀ t, B64.le 0 (tf.TF.get t) = true) → (∀ t, B64.le 0 (tf.IDF.get t) = true) →
        (∀ t ∈ query, t ∈ docs.get ⟨i, h⟩ →
          B64.le (term tf k1 b (B64.ofInt (BOW (docs.get ⟨i, h⟩)).length)
            (B64.ofInt tf.Len / B64.ofInt tf.Docs) t) ((k1 + 1) * tf.IDF.get t) = true) ∧
        ∃ s, scoreAt (BM25 tf query docs k1 b) i = some s ∧
          B64.le s ((k1 + 1) * sum ((common query (docs.get ⟨i, h⟩)).map tf.IDF.get))
            = true := by
  intro H
  have hTF : ∀ t, B64.le 0 ((statsOne (B64.lit 1 1023) 1 1 1).TF.get t) = true := by
    intro t
    by_cases ht : t = 1
    · simp only [statsOne, FloatMap.get, ht, if_true, Option.getD_some]
      decide
    · simp only [statsOne, FloatMap.get, ht, if_false, Option.getD_none]
      decide
  have hIDF : ∀ t, B64.le 0 ((statsOne (B64.lit 1 1023) 1 1 1).IDF.get t) = true := by
    intro t
    by_cases ht : t = 1
    · simp only [statsOne, FloatMap.get, ht, if_true, Option.getD_some]
      decide
    · simp only [statsOne, FloatMap.get, ht, if_false, Option.getD_none]
      decide
  obtain ⟨-, s, hs, hle⟩ := H (statsOne (B64.lit 1 1023) 1 1 1) [1] [[1]] (B64.lit 3 (-1))
    (B64.lit 3 (-2)) 0 (by decide) (by decide) (by decide) (by decide) (by decide)
    (by decide) hTF hIDF
  have hval : scoreAt (BM25 (statsOne (B64.lit 1 1023) 1 1 1) [1] [[1]] (B64.lit 3 (-1))
      (B64.lit 3 (-2))) 0 = some (B64.inf false) := by
    decide
  have hbound : (B64.lit 3 (-1) + (1 : B64)) *
      sum ((common [1] ([[1]] : List Document)[0]).map
        (statsOne (B64.lit 1 1023) 1 1 1).IDF.get) = B64.lit 5 (-1) := by
    decide
  rw [hval] at hs
  rw [← Option.some.inj hs] at hle
  simp only [List.get_eq_getElem] at hle
  rw [hbound] at hle
  exact absurd hle (by decide)

/-- C5, amended: over `float64`, for all inputs with `Docs > 0`, `Len >= 0`,
`k1 >= 0`, `0 <= b <= 1` whose statistics satisfy `TF[t] >= 0` and `IDF[t] >= 0`
for every term `t`, the call returns and every score of the result is `>= 0` or
is `NaN`: no score is negative, for every query and every document list. -/
theorem BM25_score_not_negative (tf : TFIDF) (query : Document) (docs : List Document)
    (k1 b : B64) (hDocs : 0 < tf.Docs) (hLen : 0 ≤ tf.Len) (hk : B64.le 0 k1 = true)
    (hb0 : B64.le 0 b = true) (hb1 : B64.le b 1 = true)
    (hTF : ∀ t, B64.le 0 (tf.TF.get t) = true) (hIDF : ∀ t, B64.le 0 (tf.IDF.get t) = true) :
    ∃ r, BM25 tf query docs k1 b = some r ∧ r.length = docs.length ∧
      ∀ e ∈ r, e.Score = B64.nan ∨ B64.le 0 e.Score = true := by
  refine ⟨_, ieee_BM25_eq tf query docs k1 b, by simp, ?_⟩
  intro e he
  obtain ⟨i, hi, rfl⟩ := List.mem_map.1 he
  have hi1 : i < docs.length := List.mem_range.1 hi
  have hget : (docs.map (scoreOf tf query k1 b)).getD i 0
      = scoreOf tf query k1 b (docs.get ⟨i, hi1⟩) := by
    simp [List.getD_eq_getElem?_getD, hi1]
  show (docs.map (scoreOf tf query k1 b)).getD i 0 = B64.nan ∨
    B64.le 0 ((docs.map (scoreOf tf query k1 b)).getD i 0) = true
  rw [hget]
  exact B64.le_zero_of_notNeg _
    (notNeg_scoreOf tf query k1 b _ hDocs hLen hk hb0 hb1 (fun t _ => hTF t)
      (fun t _ => hIDF t))

set_option maxRecDepth 100000 in
set_option exponentiation.threshold 5000 in
/-- C5, amended, at the input of the counterexample (`TF[1] = 2^1023`,
`IDF[1] = 0`, `Docs = Len = 1`, `k1 = 1.5`, `b = 0.75`) with the documents `[1]`
and `[2]`, whose scores are `NaN` and 0. -/
theorem BM25_score_not_negative_witness :
    ((0 : Int) < (statsOne (B64.lit 1 1023) 0 1 1).Docs ∧
      (0 : Int) ≤ (statsOne (B64.lit 1 1023) 0 1 1).Len ∧
      B64.le 0 (B64.lit 3 (-1)) = true ∧ B64.le 0 (B64.lit 3 (-2)) = true ∧
      B64.le (B64.lit 3 (-2)) 1 = true) ∧
    (∃ r, BM25 (statsOne (B64.lit 1 1023) 0 1 1) [1] [[1], [2]] (B64.lit 3 (-1))
        (B64.lit 3 (-2)) = some r ∧
      r.length = ([[1], [2]] : List Document).length ∧
      ∀ e ∈ r, e.Score = B64.nan ∨ B64.le 0 e.Score = true) ∧
    BM25 (statsOne (B64.lit 1 1023) 0 1 1) [1] [[1], [2]] (B64.lit 3 (-1)) (B64.lit 3 (-2))
      = some [⟨0, B64.nan⟩, ⟨1, 0⟩] := by
  have hTF : ∀ t, B64.le 0 ((statsOne (B64.lit 1 1023) 0 1 1).TF.get t) = true := by
    intro t
    by_cases ht : t = 1
    · simp only [statsOne, FloatMap.get, ht, if_true, Option.getD_some]
      decide
    · simp only [statsOne, FloatMap.get, ht, if_false, Option.getD_none]
      decide
  have hIDF : ∀ t, B64.le 0 ((statsOne (B64.lit 1 1023) 0 1 1).IDF.get t) = true := by
    intro t
    by_cases ht : t = 1
    · simp only [statsOne, FloatMap.get, ht, if_true, Option.getD_some]
      decide
    · simp only [statsOne, FloatMap.get, ht, if_false, Option.getD_none]
      decide
  exact ⟨⟨by decide, by decide, by decide, by decide, by decide⟩,
    BM25_score_not_negative (statsOne (B64.lit 1 1023) 0 1 1) [1] [[1], [2]] (B64.lit 3 (-1))
      (B64.lit 3 (-2)) (by decide) (by decide) (by decide) (by decide) (by decide) hTF hIDF,
    by decide⟩

/-- A term the statistics do not know contributes exactly `+0` over binary64 when
`k1 > 0`, the factor `k1 + 1` is finite and the denominator, which is
`0 + k1 * (1 - b + b * docLen / avgLen)` for such a term, is positive. -/
theorem term_of_not_known64 (tf : TFIDF) (k1 b docLen avgLen : B64) (t : Int)
    (h : known tf t = false) (hk : B64.lt 0 k1 = true)
    (hfin : B64.lt (k1 + 1) (B64.inf false) = true)
    (hden : B64.lt 0 (0 + k1 * (1 - b + b * docLen / avgLen)) = true) :
    term tf k1 b docLen avgLen t = 0 := by
  obtain ⟨hTF, hIDF⟩ := get_of_not_known64 tf t h
  have hsc : B64.signClear (k1 + 1) = true := by
    have hk0 : B64.notNeg k1 = true := B64.notNeg_of_le_zero k1 (le_of_lt_B64 _ _ hk)
    have hz : B64.zeroOrNaN k1 = false := by
      revert hk
      show B64.lt B64.zero k1 = true → _
      cases k1 with
      | nan => simp [B64.lt, B64.zero]
      | inf s => simp [B64.zeroOrNaN]
      | fin s m e =>
        simp only [B64.lt, B64.zero, B64.scaled_zero, B64.zeroOrNaN, decide_eq_true_eq,
          decide_eq_false_iff_not]
        intro hpos hm
        subst hm
        simp [B64.scaled] at hpos
    exact B64.signClear_add_pos k1 1 hk0 hz rfl
  unfold term
  rw [hTF, hIDF]
  generalize k1 + 1 = c at hfin hsc
  generalize (0 : B64) + k1 * (1 - b + b * docLen / avgLen) = d at hden
  have hnum : (0 : B64) * c = 0 := by
    show B64.mul B64.zero c = B64.zero
    cases c with
    | nan => simp [B64.lt] at hfin
    | inf s =>
      simp only [B64.signClear, Bool.not_eq_true'] at hsc
      subst hsc
      simp [B64.lt] at hfin
    | fin s m e =>
      simp only [B64.signClear, Bool.not_eq_true'] at hsc
      subst hsc
      simp [B64.mul, B64.zero, B64.round]
  have hprod : (0 : B64) * 0 = 0 := by
    show B64.mul B64.zero B64.zero = B64.zero
    simp [B64.mul, B64.zero, B64.round]
  show (0 : B64) * ((0 : B64) * c) / d = 0
  rw [hnum, hprod]
  show B64.div B64.zero d = B64.zero
  revert hden
  show B64.lt B64.zero d = true → _
  cases d with
  | nan => simp [B64.lt, B64.zero]
  | inf s =>
    simp only [B64.lt, B64.zero, Bool.not_eq_true']
    intro hs
    subst hs
    simp [B64.div]
  | fin s m e =>
    simp only [B64.lt, B64.zero, B64.scaled_zero, decide_eq_true_eq]
    intro hpos
    have hs : s = false := by
      cases s
      · rfl
      · exfalso
        simp only [B64.scaled, if_true] at hpos
        have : (0 : Int) ≤ ((m * 2 ^ (e - min (-1074) e).toNat : Nat) : Int) :=
          Int.natCast_nonneg _
        omega
    have hm : m ≠ 0 := by
      intro hm
      subst hm
      simp [B64.scaled] at hpos
    subst hs
    simp [B64.div, B64.zero, B64.round, hm]

/-- The sum of zeros `+0` is `+0`. -/
theorem sum_zero64 (l : List B64) (h : ∀ x ∈ l, x = 0) : sum l = 0 := by
  have haux : ∀ (l : List B64), (∀ x ∈ l, x = 0) →
      l.foldl (fun retVal f => retVal + f) (0 : B64) = 0 := by
    intro l
    induction l with
    | nil => intro _; rfl
    | cons x l ih =>
      intro hl
      rw [List.foldl_cons, hl x (List.mem_cons_self x l)]
      have h00 : (0 : B64) + 0 = 0 := by
        show B64.add B64.zero B64.zero = B64.zero
        simp [B64.add, B64.zero, B64.scaled]
      rw [h00]
      exact ih (fun y hy => hl y (List.mem_cons_of_mem x hy))
  exact haux l h

end IEEE

/-! ## C4, C7, C12, C13, C18 in both readings -/

/-- C4, amended.  For a query of the single term `t` with `TF[t] > 0`,
`IDF[t] > 0`, `Docs > 0`, `Len > 0`, `k1 > 0` and `0 <= b <= 1`:
in exact arithmetic every document that contains `t` gets a strictly positive
real score, every document that does not contain `t` gets exactly 0, and the
first ranks strictly above the second;
over `float64` every document that does not contain `t` gets exactly `+0`, every
document that contains `t` gets a score that is `>= 0` or `NaN`, never a negative
one, and no document that contains `t` ranks below (`<`) a document that does
not.  (Strict positivity is lost when the products underflow.) -/
theorem BM25_single_term_amended (t : Int) (docs : List Document)
    (tf : TFIDF) (x y k β : ℚ)
    (hTF : tf.TF.get t = F64.fin x) (hx : 0 < x)
    (hIDF : tf.IDF.get t = F64.fin y) (hy : 0 < y)
    (hDocs : 0 < tf.Docs) (hLen : 0 < tf.Len) (hk : 0 < k) (hβ0 : 0 ≤ β) (hβ1 : β ≤ 1)
    (tf64 : IEEE.TFIDF) (k1 b : IEEE.B64)
    (hTF64 : IEEE.B64.lt 0 (tf64.TF.get t) = true)
    (hIDF64 : IEEE.B64.lt 0 (tf64.IDF.get t) = true)
    (hDocs64 : 0 < tf64.Docs) (hLen64 : 0 < tf64.Len) (hk64 : IEEE.B64.lt 0 k1 = true)
    (hb0 : IEEE.B64.le 0 b = true) (hb1 : IEEE.B64.le b 1 = true) :
    ((∀ (i : Nat) (hi : i < docs.length), t ∈ docs.get ⟨i, hi⟩ →
        ∃ s : ℚ, 0 < s ∧
          scoreAt (BM25 tf [t] docs (F64.fin k) (F64.fin β)) i = some (F64.fin s)) ∧
      (∀ (j : Nat) (hj : j < docs.length), t ∉ docs.get ⟨j, hj⟩ →
        scoreAt (BM25 tf [t] docs (F64.fin k) (F64.fin β)) j = some (F64.fin 0)) ∧
      (∀ (i j : Nat) (hi : i < docs.length) (hj : j < docs.length),
        t ∈ docs.get ⟨i, hi⟩ → t ∉ docs.get ⟨j, hj⟩ →
        ∃ si sj : F64,
          scoreAt (BM25 tf [t] docs (F64.fin k) (F64.fin β)) i = some si ∧
          scoreAt (BM25 tf [t] docs (F64.fin k) (F64.fin β)) j = some sj ∧
          F64.lt sj si = true)) ∧
    ((∀ (j : Nat) (hj : j < docs.length), t ∉ docs.get ⟨j, hj⟩ →
        IEEE.scoreAt (IEEE.BM25 tf64 [t] docs k1 b) j = some 0) ∧
      (∀ (i : Nat) (hi : i < docs.length), t ∈ docs.get ⟨i, hi⟩ →
        ∃ s, IEEE.scoreAt (IEEE.BM25 tf64 [t] docs k1 b) i = some s ∧
          (s = IEEE.B64.nan ∨ IEEE.B64.le 0 s = true) ∧ IEEE.B64.lt s 0 = false) ∧
      (∀ (i j : Nat) (hi : i < docs.length) (hj : j < docs.length),
        t ∈ docs.get ⟨i, hi⟩ → t ∉ docs.get ⟨j, hj⟩ →
        ∃ si sj,
          IEEE.scoreAt (IEEE.BM25 tf64 [t] docs k1 b) i = some si ∧
          IEEE.scoreAt (IEEE.BM25 tf64 [t] docs k1 b) j = some sj ∧
          IEEE.B64.lt si sj = false)) := by
  have hzero : ∀ (j : Nat) (hj : j < docs.length), t ∉ docs.get ⟨j, hj⟩ →
      IEEE.scoreAt (IEEE.BM25 tf64 [t] docs k1 b) j = some 0 := by
    intro j hj ht
    rw [IEEE.ieee_scoreAt_BM25 _ _ _ _ _ j hj]
    unfold IEEE.scoreOf
    rw [common_singleton_not_mem t _ ht]
    rfl
  have hnn : ∀ (i : Nat) (hi : i < docs.length), t ∈ docs.get ⟨i, hi⟩ →
      IEEE.B64.notNeg (IEEE.scoreOf tf64 [t] k1 b (docs.get ⟨i, hi⟩)) = true := by
    intro i hi ht
    apply IEEE.notNeg_scoreOf tf64 [t] k1 b _ hDocs64 hLen64.le (IEEE.le_of_lt_B64 _ _ hk64)
      hb0 hb1
    · intro u hu
      rw [common_singleton_mem t _ ht, List.mem_singleton] at hu
      rw [hu]
      exact IEEE.le_of_lt_B64 _ _ hTF64
    · intro u hu
      rw [common_singleton_mem t _ ht, List.mem_singleton] at hu
      rw [hu]
      exact IEEE.le_of_lt_B64 _ _ hIDF64
  refine ⟨BM25_single_term tf t docs x y k β hTF hx hIDF hy hDocs hLen hk hβ0 hβ1,
    hzero, ?_, ?_⟩
  · intro i hi ht
    exact ⟨_, IEEE.ieee_scoreAt_BM25 _ _ _ _ _ i hi, IEEE.B64.le_zero_of_notNeg _ (hnn i hi ht),
      IEEE.lt_zero_of_notNeg _ (hnn i hi ht)⟩
  · intro i j hi hj hti htj
    exact ⟨_, 0, IEEE.ieee_scoreAt_BM25 _ _ _ _ _ i hi, hzero j hj htj,
      IEEE.lt_zero_of_notNeg _ (hnn i hi hti)⟩

set_option maxRecDepth 100000 in
set_option exponentiation.threshold 5000 in
/-- C4, amended, on the `mobydick` corpus of the test, query "ishmael"
(identifier 2), `k1 = 1.5`, `b = 0.75`, in both readings.  On this corpus the
`float64` score of document 0 is `8344805653173621 * 2^-51` (3.7058381488702090,
printed as 3.706) and the ten other documents get exactly 0. -/
theorem BM25_single_term_amended_witness :
    (mobydickStats.TF.get 2 = F64.fin 1 ∧
      mobydickStats.IDF.get 2 = F64.fin (2397895 / 1000000) ∧
      0 < mobydickStats.Docs ∧ 0 < mobydickStats.Len ∧
      IEEE.B64.lt 0 (IEEE.mobydickStats.TF.get 2) = true ∧
      IEEE.B64.lt 0 (IEEE.mobydickStats.IDF.get 2) = true ∧
      0 < IEEE.mobydickStats.Docs ∧ 0 < IEEE.mobydickStats.Len ∧
      IEEE.B64.lt 0 (IEEE.B64.lit 3 (-1)) = true ∧
      IEEE.B64.le 0 (IEEE.B64.lit 3 (-2)) = true ∧
      IEEE.B64.le (IEEE.B64.lit 3 (-2)) 1 = true) ∧
    (((∀ (i : Nat) (hi : i < mobydick.length), (2 : Int) ∈ mobydick.get ⟨i, hi⟩ →
        ∃ s : ℚ, 0 < s ∧
          scoreAt (BM25 mobydickStats [2] mobydick (F64.fin (3 / 2)) (F64.fin (3 / 4))) i
            = some (F64.fin s)) ∧
      (∀ (j : Nat) (hj : j < mobydick.length), (2 : Int) ∉ mobydick.get ⟨j, hj⟩ →
        scoreAt (BM25 mobydickStats [2] mobydick (F64.fin (3 / 2)) (F64.fin (3 / 4))) j
          = some (F64.fin 0)) ∧
      (∀ (i j : Nat) (hi : i < mobydick.length) (hj : j < mobydick.length),
        (2 : Int) ∈ mobydick.get ⟨i, hi⟩ → (2 : Int) ∉ mobydick.get ⟨j, hj⟩ →
        ∃ si sj : F64,
          scoreAt (BM25 mobydickStats [2] mobydick (F64.fin (3 / 2)) (F64.fin (3 / 4))) i
            = some si ∧
          scoreAt (BM25 mobydickStats [2] mobydick (F64.fin (3 / 2)) (F64.fin (3 / 4))) j
            = some sj ∧
          F64.lt sj si = true)) ∧
    ((∀ (j : Nat) (hj : j < mobydick.length), (2 : Int) ∉ mobydick.get ⟨j, hj⟩ →
        IEEE.scoreAt (IEEE.BM25 IEEE.mobydickStats [2] mobydick (IEEE.B64.lit 3 (-1))
          (IEEE.B64.lit 3 (-2))) j = some 0) ∧
      (∀ (i : Nat) (hi : i < mobydick.length), (2 : Int) ∈ mobydick.get ⟨i, hi⟩ →
        ∃ s, IEEE.scoreAt (IEEE.BM25 IEEE.mobydickStats [2] mobydick (IEEE.B64.lit 3 (-1))
            (IEEE.B64.lit 3 (-2))) i = some s ∧
          (s = IEEE.B64.nan ∨ IEEE.B64.le 0 s = true) ∧ IEEE.B64.lt s 0 = false) ∧
      (∀ (i j : Nat) (hi : i < mobydick.length) (hj : j < mobydick.length),
        (2 : Int) ∈ mobydick.get ⟨i, hi⟩ → (2 : Int) ∉ mobydick.get ⟨j, hj⟩ →
        ∃ si sj,
          IEEE.scoreAt (IEEE.BM25 IEEE.mobydickStats [2] mobydick (IEEE.B64.lit 3 (-1))
            (IEEE.B64.lit 3 (-2))) i = some si ∧
          IEEE.scoreAt (IEEE.BM25 IEEE.mobydickStats [2] mobydick (IEEE.B64.lit 3 (-1))
            (IEEE.B64.lit 3 (-2))) j = some sj ∧
          IEEE.B64.lt si sj = false))) ∧
    ((2 : Int) ∈ mobydick.get ⟨0, by decide⟩ ∧
      IEEE.BM25 IEEE.mobydickStats [2] mobydick (IEEE.B64.lit 3 (-1)) (IEEE.B64.lit 3 (-2))
        = some [⟨0, IEEE.B64.fin false 8344805653173621 (-51)⟩, ⟨1, 0⟩, ⟨2, 0⟩, ⟨3, 0⟩,
            ⟨4, 0⟩, ⟨5, 0⟩, ⟨6, 0⟩, ⟨7, 0⟩, ⟨8, 0⟩, ⟨9, 0⟩, ⟨10, 0⟩] ∧
      IEEE.B64.lt 0 (IEEE.B64.fin false 8344805653173621 (-51)) = true) := by
  have hTF : mobydickStats.TF.get 2 = F64.fin 1 := by
    simp [mobydickStats, mobydickDF, mobydickCount, FloatMap.get]
  have hIDF : mobydickStats.IDF.get 2 = F64.fin (2397895 / 1000000) := by
    simp [mobydickStats, mobydickDF, mobydickCount, mobydickIDF, FloatMap.get]
  have hDocs : 0 < mobydickStats.Docs := by decide
  have hLen : 0 < mobydickStats.Len := by decide
  exact ⟨⟨hTF, hIDF, hDocs, hLen, by decide, by decide, by decide, by decide, by decide,
      by decide, by decide⟩,
    BM25_single_term_amended 2 mobydick mobydickStats 1 (2397895 / 1000000) (3 / 2) (3 / 4)
      hTF (by norm_num) hIDF (by norm_num) hDocs hLen (by norm_num) (by norm_num) (by norm_num)
      IEEE.mobydickStats (IEEE.B64.lit 3 (-1)) (IEEE.B64.lit 3 (-2)) (by decide) (by decide)
      (by decide) (by decide) (by decide) (by decide) (by decide),
    by decide, by decide, by decide⟩

/-- C7, amended.  A term identifier that occurs in both the query and a document
and is a key of neither `TF` nor `IDF` never makes the call fail.
In exact arithmetic, with `Docs > 0`, `Len > 0`, `k1 > 0` and `0 <= b <= 1`, it
contributes exactly 0, the score of the document is the sum of the contributions
of the common terms that are known, and it is 0 when none is known.
Over `float64`, with `k1 > 0` and whatever `Docs`, `Len` and `b` are, it
contributes a zero or `NaN`, and exactly `+0` when `k1 + 1` is finite and the
denominator `0 + k1 * (1 - b + b * docLen / avgLen)` is positive; when no common
term is known the score is a zero or `NaN`, and exactly `+0` under the same two
conditions.  (The denominator is 0 when `k1 * (...)` underflows, and the
contribution is then `0 / 0`.) -/
theorem BM25_unknown_terms_amended (query : Document) (docs : List Document) (i : Nat)
    (h : i < docs.length)
    (tf : TFIDF) (k β : ℚ)
    (hDocs : 0 < tf.Docs) (hLen : 0 < tf.Len) (hk : 0 < k) (hβ0 : 0 ≤ β) (hβ1 : β ≤ 1)
    (tf64 : IEEE.TFIDF) (k1 b : IEEE.B64) (hk64 : IEEE.B64.lt 0 k1 = true) :
    ((∀ t ∈ query, t ∈ docs.get ⟨i, h⟩ → known tf t = false →
        contribution tf (F64.fin k) (F64.fin β) (distinct (docs.get ⟨i, h⟩)) t = F64.fin 0) ∧
      scoreAt (BM25 tf query docs (F64.fin k) (F64.fin β)) i
        = some (∑ t ∈ (query.toFinset ∩ (docs.get ⟨i, h⟩).toFinset).filter
              (fun t => known tf t = true),
            contribution tf (F64.fin k) (F64.fin β) (distinct (docs.get ⟨i, h⟩)) t) ∧
      ((∀ t ∈ query, t ∈ docs.get ⟨i, h⟩ → known tf t = false) →
        scoreAt (BM25 tf query docs (F64.fin k) (F64.fin β)) i = some (F64.fin 0))) ∧
    ((∃ s, IEEE.scoreAt (IEEE.BM25 tf64 query docs k1 b) i = some s) ∧
      (∀ t ∈ query, t ∈ docs.get ⟨i, h⟩ → IEEE.known tf64 t = false →
        IEEE.B64.zeroOrNaN
            (IEEE.term tf64 k1 b (IEEE.B64.ofInt (BOW (docs.get ⟨i, h⟩)).length)
              (IEEE.B64.ofInt tf64.Len / IEEE.B64.ofInt tf64.Docs) t) = true ∧
          (IEEE.B64.lt (k1 + 1) (IEEE.B64.inf false) = true →
            IEEE.B64.lt 0 (0 + k1 * (1 - b +
              b * IEEE.B64.ofInt (BOW (docs.get ⟨i, h⟩)).length /
                (IEEE.B64.ofInt tf64.Len / IEEE.B64.ofInt tf64.Docs))) = true →
            IEEE.term tf64 k1 b (IEEE.B64.ofInt (BOW (docs.get ⟨i, h⟩)).length)
              (IEEE.B64.ofInt tf64.Len / IEEE.B64.ofInt tf64.Docs) t = 0)) ∧
      ((∀ t ∈ query, t ∈ docs.get ⟨i, h⟩ → IEEE.known tf64 t = false) →
        (∃ s, IEEE.scoreAt (IEEE.BM25 tf64 query docs k1 b) i = some s ∧
          IEEE.B64.zeroOrNaN s = true) ∧
        (IEEE.B64.lt (k1 + 1) (IEEE.B64.inf false) = true →
          IEEE.B64.lt 0 (0 + k1 * (1 - b +
            b * IEEE.B64.ofInt (BOW (docs.get ⟨i, h⟩)).length /
              (IEEE.B64.ofInt tf64.Len / IEEE.B64.ofInt tf64.Docs))) = true →
          IEEE.scoreAt (IEEE.BM25 tf64 query docs k1 b) i = some 0))) := by
  have hmem : ∀ t ∈ common query (docs.get ⟨i, h⟩), t ∈ query ∧ t ∈ docs.get ⟨i, h⟩ :=
    fun t ht => (mem_common query _ t).1 ht
  refine ⟨BM25_unknown_terms tf query docs k β i h hDocs hLen hk hβ0 hβ1,
    ⟨_, IEEE.ieee_scoreAt_BM25 _ _ _ _ _ i h⟩, ?_, ?_⟩
  · intro t _ _ hkn
    exact ⟨IEEE.zeroOrNaN_term tf64 k1 b _ _ t (by
        rw [(IEEE.get_of_not_known64 tf64 t hkn).1]
        rfl),
      fun hfin hden => IEEE.term_of_not_known64 tf64 k1 b _ _ t hkn hk64 hfin hden⟩
  · intro hall
    refine ⟨⟨_, IEEE.ieee_scoreAt_BM25 _ _ _ _ _ i h, ?_⟩, ?_⟩
    · refine IEEE.zeroOrNaN_sum_aux _ 0 rfl ?_
      intro v hv
      obtain ⟨t, ht, rfl⟩ := List.mem_map.1 hv
      exact IEEE.zeroOrNaN_term tf64 k1 b _ _ t (by
        rw [(IEEE.get_of_not_known64 tf64 t (hall t (hmem t ht).1 (hmem t ht).2)).1]
        rfl)
    · intro hfin hden
      rw [IEEE.ieee_scoreAt_BM25 _ _ _ _ _ i h]
      congr 1
      unfold IEEE.scoreOf
      apply IEEE.sum_zero64
      intro v hv
      obtain ⟨t, ht, rfl⟩ := List.mem_map.1 hv
      exact IEEE.term_of_not_known64 tf64 k1 b _ _ t (hall t (hmem t ht).1 (hmem t ht).2)
        hk64 hfin hden

set_option maxRecDepth 100000 in
set_option exponentiation.threshold 5000 in
/-- C7, amended, on statistics that know the term 1 only (`stats1` in exact
arithmetic, `TF[1] = 1`, `IDF[1] = 2`, `Docs = 1`, `Len = 2` over `float64`),
with `k1 = 1.5` and `b = 0.75`: the term 5 is common to the query `[1, 5]` and to
the document `[1, 5, 5]` and unknown.  Over `float64` the two conditions hold
at this input, and the score of the document for the query `[1, 5]` is its
score for the query `[1]`. -/
theorem BM25_unknown_terms_amended_witness :
    ((0 : Nat) < [[(1 : Int), 5, 5]].length ∧ 0 < stats1.Docs ∧ 0 < stats1.Len ∧
      (0 : ℚ) < 3 / 2 ∧ (0 : ℚ) ≤ 3 / 4 ∧ (3 / 4 : ℚ) ≤ 1 ∧ known stats1 5 = false ∧
      IEEE.B64.lt 0 (IEEE.B64.lit 3 (-1)) = true ∧
      IEEE.known (IEEE.statsOne 1 (IEEE.B64.lit 2 0) 1 2) 5 = false) ∧
    (((∀ t ∈ [(1 : Int), 5], t ∈ [[(1 : Int), 5, 5]].get ⟨0, by decide⟩ →
        known stats1 t = false →
        contribution stats1 (F64.fin (3 / 2)) (F64.fin (3 / 4))
          (distinct ([[(1 : Int), 5, 5]].get ⟨0, by decide⟩)) t = F64.fin 0) ∧
      scoreAt (BM25 stats1 [1, 5] [[1, 5, 5]] (F64.fin (3 / 2)) (F64.fin (3 / 4))) 0
        = some (∑ t ∈ (([1, 5] : List Int).toFinset ∩
                ([[(1 : Int), 5, 5]].get ⟨0, by decide⟩).toFinset).filter
              (fun t => known stats1 t = true),
            contribution stats1 (F64.fin (3 / 2)) (F64.fin (3 / 4))
              (distinct ([[(1 : Int), 5, 5]].get ⟨0, by decide⟩)) t) ∧
      ((∀ t ∈ [(1 : Int), 5], t ∈ [[(1 : Int), 5, 5]].get ⟨0, by decide⟩ →
          known stats1 t = false) →
        scoreAt (BM25 stats1 [1, 5] [[1, 5, 5]] (F64.fin (3 / 2)) (F64.fin (3 / 4))) 0
          = some (F64.fin 0))) ∧
    ((∃ s, IEEE.scoreAt (IEEE.BM25 (IEEE.statsOne 1 (IEEE.B64.lit 2 0) 1 2) [1, 5]
          [[1, 5, 5]] (IEEE.B64.lit 3 (-1)) (IEEE.B64.lit 3 (-2))) 0 = some s) ∧
      (∀ t ∈ [(1 : Int), 5], t ∈ [[(1 : Int), 5, 5]].get ⟨0, by decide⟩ →
        IEEE.known (IEEE.statsOne 1 (IEEE.B64.lit 2 0) 1 2) t = false →
        IEEE.B64.zeroOrNaN
            (IEEE.term (IEEE.statsOne 1 (IEEE.B64.lit 2 0) 1 2) (IEEE.B64.lit 3 (-1))
              (IEEE.B64.lit 3 (-2))
              (IEEE.B64.ofInt (BOW ([[(1 : Int), 5, 5]].get ⟨0, by decide⟩)).length)
              (IEEE.B64.ofInt (IEEE.statsOne 1 (IEEE.B64.lit 2 0) 1 2).Len /
                IEEE.B64.ofInt (IEEE.statsOne 1 (IEEE.B64.lit 2 0) 1 2).Docs) t) = true ∧
          (IEEE.B64.lt (IEEE.B64.lit 3 (-1) + 1) (IEEE.B64.inf false) = true →
            IEEE.B64.lt 0 (0 + IEEE.B64.lit 3 (-1) * (1 - IEEE.B64.lit 3 (-2) +
              IEEE.B64.lit 3 (-2) *
                IEEE.B64.ofInt (BOW ([[(1 : Int), 5, 5]].get ⟨0, by decide⟩)).length /
                (IEEE.B64.ofInt (IEEE.statsOne 1 (IEEE.B64.lit 2 0) 1 2).Len /
                  IEEE.B64.ofInt (IEEE.statsOne 1 (IEEE.B64.lit 2 0) 1 2).Docs))) = true →
            IEEE.term (IEEE.statsOne 1 (IEEE.B64.lit 2 0) 1 2) (IEEE.B64.lit 3 (-1))
              (IEEE.B64.lit 3 (-2))
              (IEEE.B64.ofInt (BOW ([[(1 : Int), 5, 5]].get ⟨0, by decide⟩)).length)
              (IEEE.B64.ofInt (IEEE.statsOne 1 (IEEE.B64.lit 2 0) 1 2).Len /
                IEEE.B64.ofInt (IEEE.statsOne 1 (IEEE.B64.lit 2 0) 1 2).Docs) t = 0)) ∧
      ((∀ t ∈ [(1 : Int), 5], t ∈ [[(1 : Int), 5, 5]].get ⟨0, by decide⟩ →
          IEEE.known (IEEE.statsOne 1 (IEEE.B64.lit 2 0) 1 2) t = false) →
        (∃ s, IEEE.scoreAt (IEEE.BM25 (IEEE.statsOne 1 (IEEE.B64.lit 2 0) 1 2) [1, 5]
            [[1, 5, 5]] (IEEE.B64.lit 3 (-1)) (IEEE.B64.lit 3 (-2))) 0 = some s ∧
          IEEE.B64.zeroOrNaN s = true) ∧
        (IEEE.B64.lt (IEEE.B64.lit 3 (-1) + 1) (IEEE.B64.inf false) = true →
          IEEE.B64.lt 0 (0 + IEEE.B64.lit 3 (-1) * (1 - IEEE.B64.lit 3 (-2) +
            IEEE.B64.lit 3 (-2) *
              IEEE.B64.ofInt (BOW ([[(1 : Int), 5, 5]].get ⟨0, by decide⟩)).length /
              (IEEE.B64.ofInt (IEEE.statsOne 1 (IEEE.B64.lit 2 0) 1 2).Len /
                IEEE.B64.ofInt (IEEE.statsOne 1 (IEEE.B64.lit 2 0) 1 2).Docs))) = true →
          IEEE.scoreAt (IEEE.BM25 (IEEE.statsOne 1 (IEEE.B64.lit 2 0) 1 2) [1, 5]
            [[1, 5, 5]] (IEEE.B64.lit 3 (-1)) (IEEE.B64.lit 3 (-2))) 0 = some 0)))) ∧
    (IEEE.scoreAt (IEEE.BM25 (IEEE.statsOne 1 (IEEE.B64.lit 2 0) 1 2) [1, 5] [[1, 5, 5]]
        (IEEE.B64.lit 3 (-1)) (IEEE.B64.lit 3 (-2))) 0
      = IEEE.scoreAt (IEEE.BM25 (IEEE.statsOne 1 (IEEE.B64.lit 2 0) 1 2) [1] [[1, 5, 5]]
        (IEEE.B64.lit 3 (-1)) (IEEE.B64.lit 3 (-2))) 0 ∧
      IEEE.B64.lt (IEEE.B64.lit 3 (-1) + 1) (IEEE.B64.inf false) = true ∧
      IEEE.B64.lt 0 (0 + IEEE.B64.lit 3 (-1) * (1 - IEEE.B64.lit 3 (-2) +
        IEEE.B64.lit 3 (-2) *
          IEEE.B64.ofInt (BOW ([[(1 : Int), 5, 5]].get ⟨0, by decide⟩)).length /
          (IEEE.B64.ofInt (IEEE.statsOne 1 (IEEE.B64.lit 2 0) 1 2).Len /
            IEEE.B64.ofInt (IEEE.statsOne 1 (IEEE.B64.lit 2 0) 1 2).Docs))) = true) :=
  ⟨⟨by decide, by decide, by decide, by norm_num, by norm_num, by norm_num, by decide,
      by decide, by decide⟩,
    BM25_unknown_terms_amended [1, 5] [[1, 5, 5]] 0 (by decide) stats1 (3 / 2) (3 / 4)
      (by decide) (by decide) (by norm_num) (by norm_num) (by norm_num)
      (IEEE.statsOne 1 (IEEE.B64.lit 2 0) 1 2) (IEEE.B64.lit 3 (-1)) (IEEE.B64.lit 3 (-2))
      (by decide),
    by decide, by decide, by decide⟩

/-- C12, amended.  Fix a query, a document containing a query term `t`, `k1 > 0`,
`0 <= b <= 1`, `Docs > 0`, `Len > 0`, `TF[t] > 0`, and two statistics values that
differ only in `IDF[t]`, the second having the strictly larger `IDF[t]`.
In exact arithmetic the second gives the strictly larger contribution of `t`,
and the strictly larger score when every term common to the query and the
document has a nonnegative real `TF` and a real `IDF`.
Over `float64`, with `IDF[t] >= 0` and `b` not the negative zero, the second gives
a contribution that is not smaller (`<=`, or one of the two is `NaN`), and, when
every common term has `TF` and `IDF` with the sign bit clear (`>= 0` and not the
negative zero), a score that is not smaller: the second score is never `<` the
first.  (The increase is not strict: adjacent values of `IDF[t]` can round to the
same contribution.) -/
theorem IDF_monotone_amended (query : Document) (docs : List Document) (i : Nat)
    (h : i < docs.length) (t : Int) (htq : t ∈ query) (htd : t ∈ docs.get ⟨i, h⟩)
    (tf : TFIDF) (k β x y1 y2 : ℚ)
    (hk : 0 < k) (hβ0 : 0 ≤ β) (hβ1 : β ≤ 1) (hDocs : 0 < tf.Docs) (hLen : 0 < tf.Len)
    (hx : tf.TF.get t = F64.fin x) (hx0 : 0 < x)
    (hy1 : tf.IDF.get t = F64.fin y1) (hlt : y1 < y2)
    (tf64 : IEEE.TFIDF) (k1 b y64 : IEEE.B64)
    (hk64 : IEEE.B64.lt 0 k1 = true) (hb64 : IEEE.B64.signClear b = true)
    (hb1 : IEEE.B64.le b 1 = true) (hDocs64 : 0 < tf64.Docs) (hLen64 : 0 < tf64.Len)
    (hTF64 : IEEE.B64.lt 0 (tf64.TF.get t) = true)
    (hIDF64 : IEEE.B64.signClear (tf64.IDF.get t) = true)
    (hlt64 : IEEE.B64.lt (tf64.IDF.get t) y64 = true) :
    ((∃ c1 c2 : ℚ,
        contribution tf (F64.fin k) (F64.fin β) (distinct (docs.get ⟨i, h⟩)) t = F64.fin c1 ∧
        contribution (setIDF tf t y2) (F64.fin k) (F64.fin β) (distinct (docs.get ⟨i, h⟩)) t
          = F64.fin c2 ∧
        c1 < c2) ∧
      ((∀ u ∈ query, u ∈ docs.get ⟨i, h⟩ → ∃ xu : ℚ, 0 ≤ xu ∧ tf.TF.get u = F64.fin xu) →
        (∀ u ∈ query, u ∈ docs.get ⟨i, h⟩ → ∃ yu : ℚ, tf.IDF.get u = F64.fin yu) →
        ∃ s1 s2 : ℚ,
          scoreAt (BM25 tf query docs (F64.fin k) (F64.fin β)) i = some (F64.fin s1) ∧
          scoreAt (BM25 (setIDF tf t y2) query docs (F64.fin k) (F64.fin β)) i
            = some (F64.fin s2) ∧
          s1 < s2)) ∧
    (IEEE.B64.leN
        (IEEE.term tf64 k1 b (IEEE.B64.ofInt (BOW (docs.get ⟨i, h⟩)).length)
          (IEEE.B64.ofInt tf64.Len / IEEE.B64.ofInt tf64.Docs) t)
        (IEEE.term (IEEE.setIDF tf64 t y64) k1 b
          (IEEE.B64.ofInt (BOW (docs.get ⟨i, h⟩)).length)
          (IEEE.B64.ofInt tf64.Len / IEEE.B64.ofInt tf64.Docs) t) = true ∧
      ((∀ u ∈ query, u ∈ docs.get ⟨i, h⟩ →
          IEEE.B64.signClear (tf64.TF.get u) = true ∧
          IEEE.B64.signClear (tf64.IDF.get u) = true) →
        ∃ s1 s2,
          IEEE.scoreAt (IEEE.BM25 tf64 query docs k1 b) i = some s1 ∧
          IEEE.scoreAt (IEEE.BM25 (IEEE.setIDF tf64 t y64) query docs k1 b) i = some s2 ∧
          IEEE.B64.leN s1 s2 = true ∧ IEEE.B64.lt s2 s1 = false)) := by
  refine ⟨IDF_monotone tf query docs k β i h t x y1 y2 hk hβ0 hβ1 hDocs hLen hx hx0 htq htd
    hy1 hlt, ?_, ?_⟩
  · have sTF := IEEE.B64.signClear_of_pos _ hTF64
    have sk := IEEE.B64.signClear_of_pos _ hk64
    have sy := IEEE.B64.signClear_of_lt _ _ hIDF64 hlt64
    have sIDF2 : IEEE.B64.signClear ((IEEE.setIDF tf64 t y64).IDF.get t) = true := by
      rw [IEEE.setIDF_get_self64]
      exact sy
    have hle : IEEE.B64.leN (tf64.IDF.get t) ((IEEE.setIDF tf64 t y64).IDF.get t) = true := by
      rw [IEEE.setIDF_get_self64]
      exact IEEE.B64.leN_of_le _ _ (IEEE.le_of_lt_B64 _ _ hlt64)
    exact IEEE.term_leN_idf tf64 (IEEE.setIDF tf64 t y64) k1 b _ _ t rfl sTF hIDF64 sIDF2 sk
      hb64 hb1 (IEEE.B64.signClear_ofInt _ (Int.natCast_nonneg _))
      (IEEE.signClear_avgLen tf64 hDocs64.le hLen64.le) hle
  · intro hall
    have hs := IEEE.scoreOf_leN_idf tf64 query (docs.get ⟨i, h⟩) k1 b t y64 hk64 hb64 hb1
      hDocs64 hLen64 hIDF64 hlt64 hall
    exact ⟨_, _, IEEE.ieee_scoreAt_BM25 _ _ _ _ _ i h, IEEE.ieee_scoreAt_BM25 _ _ _ _ _ i h, hs,
      IEEE.B64.lt_false_of_leN _ _ hs⟩

set_option maxRecDepth 100000 in
set_option exponentiation.threshold 5000 in
/-- C12, amended, on statistics that know the term 1 only (`TF[1] = 1`, `Docs = 1`,
`Len = 2`), with `IDF[1]` raised from 2 to 3, the query `[1, 5]`, the document
`[1, 5, 5]`, `k1 = 1.5` and `b = 0.75`, in both readings.  Over `float64` the two
scores are 2 and 3 at this input. -/
theorem IDF_monotone_amended_witness :
    ((0 : Nat) < [[(1 : Int), 5, 5]].length ∧ (0 : ℚ) < 3 / 2 ∧ 0 < stats1.Docs ∧
      0 < stats1.Len ∧ stats1.TF.get 1 = F64.fin 1 ∧ stats1.IDF.get 1 = F64.fin 2 ∧
      (2 : ℚ) < 3 ∧
      IEEE.B64.lt 0 (IEEE.B64.lit 3 (-1)) = true ∧
      IEEE.B64.signClear (IEEE.B64.lit 3 (-2)) = true ∧
      IEEE.B64.le (IEEE.B64.lit 3 (-2)) 1 = true ∧
      IEEE.B64.lt 0 ((IEEE.statsOne 1 (IEEE.B64.lit 2 0) 1 2).TF.get 1) = true ∧
      IEEE.B64.lt ((IEEE.statsOne 1 (IEEE.B64.lit 2 0) 1 2).IDF.get 1) (IEEE.B64.lit 3 0)
        = true) ∧
    ((∃ c1 c2 : ℚ,
        contribution stats1 (F64.fin (3 / 2)) (F64.fin (3 / 4))
            (distinct ([[(1 : Int), 5, 5]].get ⟨0, by decide⟩)) 1 = F64.fin c1 ∧
        contribution (setIDF stats1 1 3) (F64.fin (3 / 2)) (F64.fin (3 / 4))
            (distinct ([[(1 : Int), 5, 5]].get ⟨0, by decide⟩)) 1 = F64.fin c2 ∧
        c1 < c2) ∧
      (∃ s1 s2 : ℚ,
        scoreAt (BM25 stats1 [1, 5] [[1, 5, 5]] (F64.fin (3 / 2)) (F64.fin (3 / 4))) 0
          = some (F64.fin s1) ∧
        scoreAt (BM25 (setIDF stats1 1 3) [1, 5] [[1, 5, 5]] (F64.fin (3 / 2))
            (F64.fin (3 / 4))) 0 = some (F64.fin s2) ∧
        s1 < s2)) ∧
    (IEEE.B64.leN
        (IEEE.term (IEEE.statsOne 1 (IEEE.B64.lit 2 0) 1 2) (IEEE.B64.lit 3 (-1))
          (IEEE.B64.lit 3 (-2))
          (IEEE.B64.ofInt (BOW ([[(1 : Int), 5, 5]].get ⟨0, by decide⟩)).length)
          (IEEE.B64.ofInt (IEEE.statsOne 1 (IEEE.B64.lit 2 0) 1 2).Len /
            IEEE.B64.ofInt (IEEE.statsOne 1 (IEEE.B64.lit 2 0) 1 2).Docs) 1)
        (IEEE.term (IEEE.setIDF (IEEE.statsOne 1 (IEEE.B64.lit 2 0) 1 2) 1 (IEEE.B64.lit 3 0))
          (IEEE.B64.lit 3 (-1)) (IEEE.B64.lit 3 (-2))
          (IEEE.B64.ofInt (BOW ([[(1 : Int), 5, 5]].get ⟨0, by decide⟩)).length)
          (IEEE.B64.ofInt (IEEE.statsOne 1 (IEEE.B64.lit 2 0) 1 2).Len /
            IEEE.B64.ofInt (IEEE.statsOne 1 (IEEE.B64.lit 2 0) 1 2).Docs) 1) = true ∧
      ∃ s1 s2,
        IEEE.scoreAt (IEEE.BM25 (IEEE.statsOne 1 (IEEE.B64.lit 2 0) 1 2) [1, 5] [[1, 5, 5]]
          (IEEE.B64.lit 3 (-1)) (IEEE.B64.lit 3 (-2))) 0 = some s1 ∧
        IEEE.scoreAt (IEEE.BM25
          (IEEE.setIDF (IEEE.statsOne 1 (IEEE.B64.lit 2 0) 1 2) 1 (IEEE.B64.lit 3 0)) [1, 5]
          [[1, 5, 5]] (IEEE.B64.lit 3 (-1)) (IEEE.B64.lit 3 (-2))) 0 = some s2 ∧
        IEEE.B64.leN s1 s2 = true ∧ IEEE.B64.lt s2 s1 = false) ∧
    (IEEE.scoreAt (IEEE.BM25 (IEEE.statsOne 1 (IEEE.B64.lit 2 0) 1 2) [1, 5] [[1, 5, 5]]
        (IEEE.B64.lit 3 (-1)) (IEEE.B64.lit 3 (-2))) 0 = some (IEEE.B64.lit 2 0) ∧
      IEEE.scoreAt (IEEE.BM25
        (IEEE.setIDF (IEEE.statsOne 1 (IEEE.B64.lit 2 0) 1 2) 1 (IEEE.B64.lit 3 0)) [1, 5]
        [[1, 5, 5]] (IEEE.B64.lit 3 (-1)) (IEEE.B64.lit 3 (-2))) 0 = some (IEEE.B64.lit 3 0) ∧
      IEEE.B64.lt (IEEE.B64.lit 2 0) (IEEE.B64.lit 3 0) = true) := by
  have hTF : stats1.TF.get 1 = F64.fin 1 := by simp [stats1, FloatMap.get]
  have hIDF : stats1.IDF.get 1 = F64.fin 2 := by simp [stats1, FloatMap.get]
  have hTFall : ∀ u, ∃ xu : ℚ, 0 ≤ xu ∧ stats1.TF.get u = F64.fin xu := by
    intro u
    by_cases hu : u = 1
    · exact ⟨1, zero_le_one, by simp [stats1, FloatMap.get, hu]⟩
    · exact ⟨0, le_refl _, by simp [stats1, FloatMap.get, hu]⟩
  have hIDFall : ∀ u, ∃ yu : ℚ, stats1.IDF.get u = F64.fin yu := by
    intro u
    by_cases hu : u = 1
    · exact ⟨2, by simp [stats1, FloatMap.get, hu]⟩
    · exact ⟨0, by simp [stats1, FloatMap.get, hu]⟩
  have h64 : ∀ u : Int,
      IEEE.B64.signClear ((IEEE.statsOne 1 (IEEE.B64.lit 2 0) 1 2).TF.get u) = true ∧
      IEEE.B64.signClear ((IEEE.statsOne 1 (IEEE.B64.lit 2 0) 1 2).IDF.get u) = true := by
    intro u
    by_cases hu : u = 1
    · simp only [IEEE.statsOne, IEEE.FloatMap.get, hu, if_true, Option.getD_some]
      exact ⟨by decide, by decide⟩
    · simp only [IEEE.statsOne, IEEE.FloatMap.get, hu, if_false, Option.getD_none]
      exact ⟨by decide, by decide⟩
  have H := IDF_monotone_amended [1, 5] [[1, 5, 5]] 0 (by decide) 1 (by decide) (by decide)
    stats1 (3 / 2) (3 / 4) 1 2 3 (by norm_num) (by norm_num) (by norm_num) (by decide)
    (by decide) hTF (by norm_num) hIDF (by norm_num)
    (IEEE.statsOne 1 (IEEE.B64.lit 2 0) 1 2) (IEEE.B64.lit 3 (-1)) (IEEE.B64.lit 3 (-2))
    (IEEE.B64.lit 3 0) (by decide) (by decide) (by decide) (by decide) (by decide) (by decide)
    (by decide) (by decide)
  exact ⟨⟨by decide, by norm_num, by decide, by decide, hTF, hIDF, by norm_num, by decide,
      by decide, by decide, by decide, by decide⟩,
    ⟨H.1.1, H.1.2 (fun u _ _ => hTFall u) (fun u _ _ => hIDFall u)⟩,
    ⟨H.2.1, H.2.2 (fun u _ _ => h64 u)⟩,
    by decide, by decide, by decide⟩

/-- C13, amended.  For a single-term query `t` with `TF[t] > 0`, `IDF[t] > 0`,
`Docs > 0`, `Len > 0`, `k1 > 0`, `0 < b <= 1`, and two documents of the list that
both contain `t`, the first with strictly fewer distinct term identifiers:
in exact arithmetic the first gets the strictly greater score, and the two
scores are distinct;
over `float64` the first gets a score that is not smaller (`>=`, or one of the
two scores is `NaN`): the shorter document never scores below the longer.
(The order is not strict: the length term can be absorbed by rounding.) -/
theorem BM25_shorter_amended (t : Int) (docs : List Document) (i j : Nat)
    (hi : i < docs.length) (hj : j < docs.length)
    (hti : t ∈ docs.get ⟨i, hi⟩) (htj : t ∈ docs.get ⟨j, hj⟩)
    (hcard : (docs.get ⟨i, hi⟩).toFinset.card < (docs.get ⟨j, hj⟩).toFinset.card)
    (tf : TFIDF) (x y k β : ℚ)
    (hTF : tf.TF.get t = F64.fin x) (hx : 0 < x)
    (hIDF : tf.IDF.get t = F64.fin y) (hy : 0 < y)
    (hDocs : 0 < tf.Docs) (hLen : 0 < tf.Len) (hk : 0 < k) (hβ0 : 0 < β) (hβ1 : β ≤ 1)
    (tf64 : IEEE.TFIDF) (k1 b : IEEE.B64)
    (hTF64 : IEEE.B64.lt 0 (tf64.TF.get t) = true)
    (hIDF64 : IEEE.B64.lt 0 (tf64.IDF.get t) = true)
    (hDocs64 : 0 < tf64.Docs) (hLen64 : 0 < tf64.Len) (hk64 : IEEE.B64.lt 0 k1 = true)
    (hb0 : IEEE.B64.lt 0 b = true) (hb1 : IEEE.B64.le b 1 = true) :
    (∃ si sj : ℚ,
      scoreAt (BM25 tf [t] docs (F64.fin k) (F64.fin β)) i = some (F64.fin si) ∧
      scoreAt (BM25 tf [t] docs (F64.fin k) (F64.fin β)) j = some (F64.fin sj) ∧
      sj < si ∧ F64.lt (F64.fin sj) (F64.fin si) = true ∧
      scoreAt (BM25 tf [t] docs (F64.fin k) (F64.fin β)) i
        ≠ scoreAt (BM25 tf [t] docs (F64.fin k) (F64.fin β)) j) ∧
    (∃ si sj,
      IEEE.scoreAt (IEEE.BM25 tf64 [t] docs k1 b) i = some si ∧
      IEEE.scoreAt (IEEE.BM25 tf64 [t] docs k1 b) j = some sj ∧
      IEEE.B64.leN sj si = true ∧ IEEE.B64.lt si sj = false) := by
  have hs := IEEE.scoreOf_leN_len tf64 t k1 b (docs.get ⟨i, hi⟩) (docs.get ⟨j, hj⟩) hTF64
    hIDF64 hDocs64 hLen64 hk64 hb0 hb1 hti htj hcard.le
  exact ⟨BM25_shorter_scores_higher tf t docs x y k β i j hi hj hTF hx hIDF hy hDocs hLen hk
      hβ0 hβ1 hti htj hcard,
    _, _, IEEE.ieee_scoreAt_BM25 _ _ _ _ _ i hi, IEEE.ieee_scoreAt_BM25 _ _ _ _ _ j hj, hs,
    IEEE.B64.lt_false_of_leN _ _ hs⟩

set_option maxRecDepth 100000 in
set_option exponentiation.threshold 5000 in
/-- C13, amended, on the `mobydick` corpus of the test, query "whenever"
(identifier 50), `k1 = 1.5`, `b = 0.75`, for the documents 3 and 4 (10 and 12
distinct identifiers) and again for the documents 4 and 5 (12 and 20 distinct
identifiers), in both readings.  On this corpus the order is strict over
`float64` as well: the three scores are `4572656726849214 * 2^-51`,
`8927881649683984 * 2^-52` and `8152565611685111 * 2^-52`, which print as 2.031,
1.982 and 1.810. -/
theorem BM25_shorter_amended_witness :
    (mobydickStats.TF.get 50 = F64.fin 4 ∧
      mobydickStats.IDF.get 50 = F64.fin (1011600 / 1000000) ∧
      (50 : Int) ∈ mobydick.get ⟨3, by decide⟩ ∧ (50 : Int) ∈ mobydick.get ⟨4, by decide⟩ ∧
      (50 : Int) ∈ mobydick.get ⟨5, by decide⟩ ∧
      (mobydick.get ⟨3, by decide⟩).toFinset.card = 10 ∧
      (mobydick.get ⟨4, by decide⟩).toFinset.card = 12 ∧
      (mobydick.get ⟨5, by decide⟩).toFinset.card = 20 ∧
      IEEE.B64.lt 0 (IEEE.mobydickStats.TF.get 50) = true ∧
      IEEE.B64.lt 0 (IEEE.mobydickStats.IDF.get 50) = true ∧
      IEEE.B64.lt 0 (IEEE.B64.lit 3 (-1)) = true ∧
      IEEE.B64.lt 0 (IEEE.B64.lit 3 (-2)) = true ∧
      IEEE.B64.le (IEEE.B64.lit 3 (-2)) 1 = true) ∧
    ((∃ si sj : ℚ,
        scoreAt (BM25 mobydickStats [50] mobydick (F64.fin (3 / 2)) (F64.fin (3 / 4))) 3
          = some (F64.fin si) ∧
        scoreAt (BM25 mobydickStats [50] mobydick (F64.fin (3 / 2)) (F64.fin (3 / 4))) 4
          = some (F64.fin sj) ∧
        sj < si ∧ F64.lt (F64.fin sj) (F64.fin si) = true ∧
        scoreAt (BM25 mobydickStats [50] mobydick (F64.fin (3 / 2)) (F64.fin (3 / 4))) 3
          ≠ scoreAt (BM25 mobydickStats [50] mobydick (F64.fin (3 / 2)) (F64.fin (3 / 4))) 4) ∧
      (∃ si sj,
        IEEE.scoreAt (IEEE.BM25 IEEE.mobydickStats [50] mobydick (IEEE.B64.lit 3 (-1))
          (IEEE.B64.lit 3 (-2))) 3 = some si ∧
        IEEE.scoreAt (IEEE.BM25 IEEE.mobydickStats [50] mobydick (IEEE.B64.lit 3 (-1))
          (IEEE.B64.lit 3 (-2))) 4 = some sj ∧
        IEEE.B64.leN sj si = true ∧ IEEE.B64.lt si sj = false)) ∧
    ((∃ si sj : ℚ,
        scoreAt (BM25 mobydickStats [50] mobydick (F64.fin (3 / 2)) (F64.fin (3 / 4))) 4
          = some (F64.fin si) ∧
        scoreAt (BM25 mobydickStats [50] mobydick (F64.fin (3 / 2)) (F64.fin (3 / 4))) 5
          = some (F64.fin sj) ∧
        sj < si ∧ F64.lt (F64.fin sj) (F64.fin si) = true ∧
        scoreAt (BM25 mobydickStats [50] mobydick (F64.fin (3 / 2)) (F64.fin (3 / 4))) 4
          ≠ scoreAt (BM25 mobydickStats [50] mobydick (F64.fin (3 / 2)) (F64.fin (3 / 4))) 5) ∧
      (∃ si sj,
        IEEE.scoreAt (IEEE.BM25 IEEE.mobydickStats [50] mobydick (IEEE.B64.lit 3 (-1))
          (IEEE.B64.lit 3 (-2))) 4 = some si ∧
        IEEE.scoreAt (IEEE.BM25 IEEE.mobydickStats [50] mobydick (IEEE.B64.lit 3 (-1))
          (IEEE.B64.lit 3 (-2))) 5 = some sj ∧
        IEEE.B64.leN sj si = true ∧ IEEE.B64.lt si sj = false)) ∧
    ([3, 4, 5].map (IEEE.scoreAt (IEEE.BM25 IEEE.mobydickStats [50] mobydick
        (IEEE.B64.lit 3 (-1)) (IEEE.B64.lit 3 (-2))))
      = [some (IEEE.B64.fin false 4572656726849214 (-51)),
         some (IEEE.B64.fin false 8927881649683984 (-52)),
         some (IEEE.B64.fin false 8152565611685111 (-52))] ∧
     IEEE.B64.lt (IEEE.B64.fin false 8927881649683984 (-52))
        (IEEE.B64.fin false 4572656726849214 (-51)) = true ∧
     IEEE.B64.lt (IEEE.B64.fin false 8152565611685111 (-52))
        (IEEE.B64.fin false 8927881649683984 (-52)) = true) := by
  have hTF : mobydickStats.TF.get 50 = F64.fin 4 := by
    simp [mobydickStats, mobydickDF, mobydickCount, FloatMap.get]
  have hIDF : mobydickStats.IDF.get 50 = F64.fin (1011600 / 1000000) := by
    simp [mobydickStats, mobydickDF, mobydickCount, mobydickIDF, FloatMap.get]
  have h3 : (mobydick.get ⟨3, by decide⟩).toFinset.card = 10 := by decide
  have h4 : (mobydick.get ⟨4, by decide⟩).toFinset.card = 12 := by decide
  have h5 : (mobydick.get ⟨5, by decide⟩).toFinset.card = 20 := by decide
  exact ⟨⟨hTF, hIDF, by decide, by decide, by decide, h3, h4, h5, by decide, by decide,
      by decide, by decide, by decide⟩,
    BM25_shorter_amended 50 mobydick 3 4 (by decide) (by decide) (by decide) (by decide)
      (by rw [h3, h4]; decide) mobydickStats 4 (1011600 / 1000000) (3 / 2) (3 / 4)
      hTF (by norm_num) hIDF (by norm_num) (by decide) (by decide)
      (by norm_num) (by norm_num) (by norm_num)
      IEEE.mobydickStats (IEEE.B64.lit 3 (-1)) (IEEE.B64.lit 3 (-2)) (by decide) (by decide)
      (by decide) (by decide) (by decide) (by decide) (by decide),
    BM25_shorter_amended 50 mobydick 4 5 (by decide) (by decide) (by decide) (by decide)
      (by rw [h4, h5]; decide) mobydickStats 4 (1011600 / 1000000) (3 / 2) (3 / 4)
      hTF (by norm_num) hIDF (by norm_num) (by decide) (by decide)
      (by norm_num) (by norm_num) (by norm_num)
      IEEE.mobydickStats (IEEE.B64.lit 3 (-1)) (IEEE.B64.lit 3 (-2)) (by decide) (by decide)
      (by decide) (by decide) (by decide) (by decide) (by decide),
    by decide, by decide, by decide⟩

/-- C18, amended.  In exact arithmetic, with `Docs > 0`, `Len > 0`, `k1 > 0`,
`0 <= b <= 1` and nonnegative real `TF[t]`, `IDF[t]` for every term, each common
term contributes a real number that is at most `(k1 + 1) * IDF[t]`, and the score
of a document is a real number that is at most `(k1 + 1)` times the sum of
`IDF[t]` over the distinct common terms, however large the `TF` values are.
Over `float64`, with `Docs > 0`, `Len >= 0` and `k1`, `b <= 1`, `TF[t]`, `IDF[t]`
with the sign bit clear (`>= 0` and not the negative zero), each common term
contributes at most the value `termSaturated` of the same expression with the
length term replaced by 0 (which is `(k1 + 1) * IDF[t]` in exact arithmetic), and
the score is at most the sum of these values, each `<=` up to `NaN`.  (The
bound `(k1 + 1) * IDF[t]` itself fails over `float64` when `TF[t] * (k1 + 1)`
overflows; for a term with `TF[t] = 0` the value `termSaturated` is `0 / 0`, which
is `NaN`, and the comparison says nothing.) -/
theorem BM25_saturation_amended (query : Document) (docs : List Document) (i : Nat)
    (h : i < docs.length)
    (tf : TFIDF) (k β : ℚ)
    (hDocs : 0 < tf.Docs) (hLen : 0 < tf.Len) (hk : 0 < k) (hβ0 : 0 ≤ β) (hβ1 : β ≤ 1)
    (hTF : ∀ t, ∃ x : ℚ, 0 ≤ x ∧ tf.TF.get t = F64.fin x)
    (hIDF : ∀ t, ∃ y : ℚ, 0 ≤ y ∧ tf.IDF.get t = F64.fin y)
    (tf64 : IEEE.TFIDF) (k1 b : IEEE.B64)
    (hDocs64 : 0 < tf64.Docs) (hLen64 : 0 ≤ tf64.Len)
    (hk64 : IEEE.B64.signClear k1 = true) (hb64 : IEEE.B64.signClear b = true)
    (hb1 : IEEE.B64.le b 1 = true)
    (hTF64 : ∀ t, IEEE.B64.signClear (tf64.TF.get t) = true)
    (hIDF64 : ∀ t, IEEE.B64.signClear (tf64.IDF.get t) = true) :
    ((∀ t ∈ query, t ∈ docs.get ⟨i, h⟩ →
        ∃ c : ℚ, contribution tf (F64.fin k) (F64.fin β) (distinct (docs.get ⟨i, h⟩)) t
            = F64.fin c ∧ c ≤ (k + 1) * (tf.IDF.get t).toRat) ∧
      ∃ s : ℚ, scoreAt (BM25 tf query docs (F64.fin k) (F64.fin β)) i = some (F64.fin s) ∧
        s ≤ (k + 1) *
          ∑ t ∈ query.toFinset ∩ (docs.get ⟨i, h⟩).toFinset, (tf.IDF.get t).toRat) ∧
    ((∀ t ∈ query, t ∈ docs.get ⟨i, h⟩ →
        IEEE.B64.leN
          (IEEE.term tf64 k1 b (IEEE.B64.ofInt (BOW (docs.get ⟨i, h⟩)).length)
            (IEEE.B64.ofInt tf64.Len / IEEE.B64.ofInt tf64.Docs) t)
          (IEEE.termSaturated tf64 k1 t) = true) ∧
      ∃ s, IEEE.scoreAt (IEEE.BM25 tf64 query docs k1 b) i = some s ∧
        IEEE.B64.leN s
          (IEEE.sum ((common query (docs.get ⟨i, h⟩)).map (IEEE.termSaturated tf64 k1)))
          = true) := by
  have savg := IEEE.signClear_avgLen tf64 hDocs64.le hLen64
  have sD : IEEE.B64.signClear (IEEE.B64.ofInt ((BOW (docs.get ⟨i, h⟩)).length : Int)) = true :=
    IEEE.B64.signClear_ofInt _ (Int.natCast_nonneg _)
  have hterm : ∀ t, IEEE.B64.leN
      (IEEE.term tf64 k1 b (IEEE.B64.ofInt (BOW (docs.get ⟨i, h⟩)).length)
        (IEEE.B64.ofInt tf64.Len / IEEE.B64.ofInt tf64.Docs) t)
      (IEEE.termSaturated tf64 k1 t) = true :=
    fun t => IEEE.term_leN_saturated tf64 k1 b _ _ t (hTF64 t) (hIDF64 t) hk64 hb64 hb1 sD savg
  refine ⟨BM25_saturation tf query docs k β i h hDocs hLen hk hβ0 hβ1 hTF hIDF,
    fun t _ _ => hterm t, _, IEEE.ieee_scoreAt_BM25 _ _ _ _ _ i h, ?_⟩
  apply IEEE.sum_leN
  intro u _
  exact ⟨IEEE.signClear_term tf64 k1 b _ _ u (hTF64 u) (hIDF64 u) hk64 hb64 hb1 sD savg,
    IEEE.signClear_termSaturated tf64 k1 u (hTF64 u) (hIDF64 u) hk64, hterm u⟩

set_option maxRecDepth 100000 in
set_option exponentiation.threshold 5000 in
/-- C18, amended, on statistics that know the term 1 only (`TF[1] = 1`,
`IDF[1] = 2`, `Docs = 1`, `Len = 2`) with the query `[1]`, the document
`[1, 5, 5]`, `k1 = 1.5` and `b = 0.75`, in both readings.  Over `float64` the
score is 2 and the bound is 5 at this input. -/
theorem BM25_saturation_amended_witness :
    ((0 : Nat) < [[(1 : Int), 5, 5]].length ∧ 0 < stats1.Docs ∧ 0 < stats1.Len ∧
      (0 : ℚ) < 3 / 2 ∧ (0 : ℚ) ≤ 3 / 4 ∧ (3 / 4 : ℚ) ≤ 1 ∧
      0 < (IEEE.statsOne 1 (IEEE.B64.lit 2 0) 1 2).Docs ∧
      0 ≤ (IEEE.statsOne 1 (IEEE.B64.lit 2 0) 1 2).Len ∧
      IEEE.B64.signClear (IEEE.B64.lit 3 (-1)) = true ∧
      IEEE.B64.signClear (IEEE.B64.lit 3 (-2)) = true ∧
      IEEE.B64.le (IEEE.B64.lit 3 (-2)) 1 = true) ∧
    (((∀ t ∈ [(1 : Int)], t ∈ [[(1 : Int), 5, 5]].get ⟨0, by decide⟩ →
        ∃ c : ℚ, contribution stats1 (F64.fin (3 / 2)) (F64.fin (3 / 4))
            (distinct ([[(1 : Int), 5, 5]].get ⟨0, by decide⟩)) t
            = F64.fin c ∧ c ≤ (3 / 2 + 1) * (stats1.IDF.get t).toRat) ∧
      ∃ s : ℚ, scoreAt (BM25 stats1 [1] [[1, 5, 5]] (F64.fin (3 / 2)) (F64.fin (3 / 4))) 0
          = some (F64.fin s) ∧
        s ≤ (3 / 2 + 1) *
          ∑ t ∈ ([1] : List Int).toFinset ∩
              ([[(1 : Int), 5, 5]].get ⟨0, by decide⟩).toFinset,
            (stats1.IDF.get t).toRat) ∧
    ((∀ t ∈ [(1 : Int)], t ∈ [[(1 : Int), 5, 5]].get ⟨0, by decide⟩ →
        IEEE.B64.leN
          (IEEE.term (IEEE.statsOne 1 (IEEE.B64.lit 2 0) 1 2) (IEEE.B64.lit 3 (-1))
            (IEEE.B64.lit 3 (-2))
            (IEEE.B64.ofInt (BOW ([[(1 : Int), 5, 5]].get ⟨0, by decide⟩)).length)
            (IEEE.B64.ofInt (IEEE.statsOne 1 (IEEE.B64.lit 2 0) 1 2).Len /
              IEEE.B64.ofInt (IEEE.statsOne 1 (IEEE.B64.lit 2 0) 1 2).Docs) t)
          (IEEE.termSaturated (IEEE.statsOne 1 (IEEE.B64.lit 2 0) 1 2) (IEEE.B64.lit 3 (-1)) t)
          = true) ∧
      ∃ s, IEEE.scoreAt (IEEE.BM25 (IEEE.statsOne 1 (IEEE.B64.lit 2 0) 1 2) [1]
          [[1, 5, 5]] (IEEE.B64.lit 3 (-1)) (IEEE.B64.lit 3 (-2))) 0 = some s ∧
        IEEE.B64.leN s
          (IEEE.sum ((common [1] ([[(1 : Int), 5, 5]].get ⟨0, by decide⟩)).map
            (IEEE.termSaturated (IEEE.statsOne 1 (IEEE.B64.lit 2 0) 1 2)
              (IEEE.B64.lit 3 (-1))))) = true)) ∧
    (IEEE.scoreAt (IEEE.BM25 (IEEE.statsOne 1 (IEEE.B64.lit 2 0) 1 2) [1] [[1, 5, 5]]
        (IEEE.B64.lit 3 (-1)) (IEEE.B64.lit 3 (-2))) 0 = some (IEEE.B64.lit 2 0) ∧
      IEEE.sum ((common [1] ([[(1 : Int), 5, 5]].get ⟨0, by decide⟩)).map
          (IEEE.termSaturated (IEEE.statsOne 1 (IEEE.B64.lit 2 0) 1 2) (IEEE.B64.lit 3 (-1))))
        = IEEE.B64.lit 5 0) := by
  have hTF : ∀ t, ∃ x : ℚ, 0 ≤ x ∧ stats1.TF.get t = F64.fin x := by
    intro t
    by_cases ht : t = 1
    · exact ⟨1, zero_le_one, by simp [stats1, FloatMap.get, ht]⟩
    · exact ⟨0, le_refl _, by simp [stats1, FloatMap.get, ht]⟩
  have hIDF : ∀ t, ∃ y : ℚ, 0 ≤ y ∧ stats1.IDF.get t = F64.fin y := by
    intro t
    by_cases ht : t = 1
    · exact ⟨2, by norm_num, by simp [stats1, FloatMap.get, ht]⟩
    · exact ⟨0, le_refl _, by simp [stats1, FloatMap.get, ht]⟩
  have hTF64 : ∀ t : Int,
      IEEE.B64.signClear ((IEEE.statsOne 1 (IEEE.B64.lit 2 0) 1 2).TF.get t) = true := by
    intro t
    by_cases ht : t = 1
    · simp only [IEEE.statsOne, IEEE.FloatMap.get, ht, if_true, Option.getD_some]
      decide
    · simp only [IEEE.statsOne, IEEE.FloatMap.get, ht, if_false, Option.getD_none]
      decide
  have hIDF64 : ∀ t : Int,
      IEEE.B64.signClear ((IEEE.statsOne 1 (IEEE.B64.lit 2 0) 1 2).IDF.get t) = true := by
    intro t
    by_cases ht : t = 1
    · simp only [IEEE.statsOne, IEEE.FloatMap.get, ht, if_true, Option.getD_some]
      decide
    · simp only [IEEE.statsOne, IEEE.FloatMap.get, ht, if_false, Option.getD_none]
      decide
  exact ⟨⟨by decide, by decide, by decide, by norm_num, by norm_num, by norm_num, by decide,
      by decide, by decide, by decide, by decide⟩,
    BM25_saturation_amended [1] [[1, 5, 5]] 0 (by decide) stats1 (3 / 2) (3 / 4)
      (by decide) (by decide) (by norm_num) (by norm_num) (by norm_num) hTF hIDF
      (IEEE.statsOne 1 (IEEE.B64.lit 2 0) 1 2) (IEEE.B64.lit 3 (-1)) (IEEE.B64.lit 3 (-2))
      (by decide) (by decide) (by decide) (by decide) (by decide) hTF64 hIDF64,
    by decide, by decide⟩

end Bm25
